import Mathlib

/-!
# Multi-goal agricultural motion planning: approach-table 2-opt and shell planner

A shallow embedding of the tour-planning layer of the repository
(`src/multigoal/AT2Opt.cpp`, `src/multigoal/approach_table.h`,
`src/planners/ShellPathPlanner.cpp`) and of its forward kinematics
(`src/planning/RobotModel.cpp`), together with theorems about them.

Conventions of the embedding.

* A `std::vector` is a `List`; `v[i]` on a vector is `vecAt v i`, which raises
  `Fault.outOfRange` where the C++ access would be out of range (undefined
  behaviour in the source).
* An `ompl::geometric::PathGeometric` is the list of its states; `append` is
  list concatenation, `reverse` is list reversal, `getState(k)` is `vecAt`.
* `size_t` values are natural numbers.  Tours hold far fewer than `2^64`
  segments, so the additions `i + 1`, `i + 2`, `j + 1`, `j + 2` do not wrap.
* Path lengths are doubles.  `Double` is the IEEE 754 binary64 type with its
  addition (round to nearest, ties to even) and its comparison, built on
  natural numbers so that every operation can be evaluated.  The functions that
  add and compare path lengths are written over any type `C` with a zero, an
  addition and a comparison; for the program `C` is `Double`.
* External capabilities (the point-to-point planner, the shell, the path
  optimiser) are parameters.  Capabilities that may answer differently on
  repeated calls take and return an explicit state of type `σ`.
* Assertions (`assert`, `check_valid`, `check_replacements_validity`) do not
  change any state; they are embedded as separate predicates and the
  functions below describe what the code does when they are compiled out.
-/

/-- Ways in which an execution of the embedded code can fail to return. -/
inductive Fault where
  /-- Indexing a vector or a path outside its bounds. -/
  | outOfRange
  /-- The exception raised by `checkPtc` when the planning budget is used up. -/
  | timeout
  /-- The step budget given to the model of a `while` loop is used up. -/
  | outOfFuel
  deriving DecidableEq, Repr

/-- The access `v[i]` of a `std::vector`, faulting when `i` is out of range. -/
def vecAt {α : Type} (v : List α) (i : Nat) : Except Fault α :=
  match v[i]? with
  | some x => .ok x
  | none => .error .outOfRange

/-- A path: the sequence of states of an `ompl::geometric::PathGeometric`. -/
abbrev PathGeometric (State : Type) := List State

/-! ## The type `double` -/

/-- A value of the C++ type `double` (IEEE 754 binary64).  A finite value is a
sign and a magnitude counted in units of `2 ^ (-1074)`, the distance between the
smallest doubles: every finite double is a whole number of these units, with at
most 53 significant binary digits and below `2 ^ 2098` units (`2 ^ 1024`). -/
inductive Double where
  | finite (negative : Bool) (magnitude : Nat)
  | infinite (negative : Bool)
  | nan
  deriving DecidableEq, Repr

/-- The position of the highest binary digit of `k` that is set, found by
bisection: with `2 ^ b ≤ k < 2 ^ (b + 2 ^ n)` it returns the `r` with
`2 ^ r ≤ k < 2 ^ (r + 1)`. -/
def Double.highestBit (k : Nat) : Nat → Nat → Nat
  | 0, b => b
  | n + 1, b =>
    if k >>> (b + (1 <<< n)) = 0 then Double.highestBit k n b
    else Double.highestBit k n (b + (1 <<< n))

/-- The number of binary digits of `k`, for `k < 2 ^ 4096`; the exact sum of two
finite doubles is below `2 ^ 2099` units. -/
def Double.bitLength (k : Nat) : Nat :=
  if k = 0 then 0 else Double.highestBit k 12 0 + 1

/-- The double nearest to the exact magnitude `k` (in units of `2 ^ (-1074)`)
with the given sign, in the default rounding mode of IEEE 754: the magnitude is
cut to 53 significant binary digits, rounding to nearest and a tie to the even
neighbour; a result of `2 ^ 1024` or more is an infinity. -/
def Double.round (negative : Bool) (k : Nat) : Double :=
  let shift := Double.bitLength k - 53
  let q := k >>> shift
  let r := k - (q <<< shift)
  let half := (1 <<< shift) / 2
  let q1 :=
    if shift = 0 then q
    else if half < r ∨ (r = half ∧ q % 2 = 1) then q + 1
    else q
  if (q1 <<< shift) >>> 2098 = 0 then .finite negative (q1 <<< shift)
  else .infinite negative

/-- The sum `a + b` of two doubles in IEEE 754 arithmetic: the exact sum of two
finite values, rounded; an exact sum of zero is `+0` unless both operands are
`-0`. -/
def Double.add : Double → Double → Double
  | .nan, _ => .nan
  | _, .nan => .nan
  | .infinite a, .infinite b => if a = b then .infinite a else .nan
  | .infinite a, .finite _ _ => .infinite a
  | .finite _ _, .infinite b => .infinite b
  | .finite na ka, .finite nb kb =>
    if na = nb then Double.round na (ka + kb)
    else if ka = kb then .finite false 0
    else if kb < ka then Double.round na (ka - kb)
    else Double.round nb (kb - ka)

/-- The comparison `a < b` of two doubles in IEEE 754 arithmetic: false when an
operand is a NaN, and `-0` is not below `+0`. -/
def Double.lt : Double → Double → Bool
  | .nan, _ => false
  | _, .nan => false
  | .infinite a, .infinite b => a && !b
  | .infinite a, .finite _ _ => a
  | .finite _ _, .infinite b => !b
  | .finite false ka, .finite false kb => decide (ka < kb)
  | .finite true ka, .finite true kb => decide (kb < ka)
  | .finite true ka, .finite false kb => !(ka == 0 && kb == 0)
  | .finite false _, .finite true _ => false

/-- The double `0.0`. -/
instance : Zero Double := ⟨.finite false 0⟩

/-- The operator `+` on doubles. -/
instance : Add Double := ⟨Double.add⟩

/-- The operator `<` on doubles; `a > b` is `b < a`. -/
instance : LT Double := ⟨fun a b => Double.lt a b = true⟩

/-- The comparison of two doubles can be evaluated. -/
instance (a b : Double) : Decidable (a < b) :=
  inferInstanceAs (Decidable (Double.lt a b = true))

/-- The double nearest to the natural number `n`. -/
def Double.ofNat (n : Nat) : Double := Double.round false (n <<< 1074)

/-- The exact value of a finite double, in units of `2 ^ (-1074)`. -/
def Double.exact : Double → Option Int
  | .finite false k => some (k : Int)
  | .finite true k => some (-(k : Int))
  | _ => none

/-- The exact value of a double in units of `2 ^ (-1074)`, taken as `0` for
an infinity or a NaN. -/
def Double.units (d : Double) : Int := (Double.exact d).getD 0

/-- An index into a `GoalApproachTable` (`multigoal::Visitation`). -/
structure multigoal.Visitation where
  /-- Outer vector index. -/
  target_idx : Nat
  /-- Inner vector index. -/
  approach_idx : Nat
  deriving DecidableEq, Repr

/-- One inner vector per goal, holding that goal's sampled states
(`multigoal::GoalApproachTable`). -/
abbrev multigoal.GoalApproachTable (State : Type) := List (List State)

/-- An entry of the table together with a path to that state
(`multigoal::GoalApproach`). -/
structure multigoal.GoalApproach (State : Type) where
  visitation : multigoal.Visitation
  approach_path : PathGeometric State
  deriving DecidableEq, Repr

/-- A range of an `ATSolution` with the visitations to put there
(`multigoal::Replacement`); the end of the range is inclusive. -/
structure multigoal.Replacement where
  first_segment : Nat
  last_segment : Nat
  visitations : List multigoal.Visitation
  deriving DecidableEq, Repr

/-- A single point-to-point movement of an `ATSolution` with the computed
`GoalApproach` to replace it with (`NewApproachAt`). -/
structure multigoal.NewApproachAt (State : Type) where
  index : Nat
  ga : multigoal.GoalApproach State
  deriving DecidableEq, Repr

/-- The segments of an `ATSolution` (its `solution_` vector). -/
abbrev multigoal.ATSolution (State : Type) := List (multigoal.GoalApproach State)

open multigoal

/-- The expression `table[viz.target_idx][viz.approach_idx]->get()`. -/
def multigoal.tableState {State : Type} (table : GoalApproachTable State)
    (viz : Visitation) : Except Fault State :=
  match vecAt table viz.target_idx with
  | .ok row => vecAt row viz.approach_idx
  | .error e => .error e

/-- The expression `solution.getSegments()[k].visitation`. -/
def multigoal.visitationAt {State : Type} (solution : ATSolution State)
    (k : Nat) : Except Fault Visitation :=
  match vecAt solution k with
  | .ok seg => .ok seg.visitation
  | .error e => .error e

/-- The replacement list built by `AT2Opt::plan` for the pair `(i, j)`
(AT2Opt.cpp lines 35-73). -/
def AT2Opt.plan_replacements {State : Type} (solution : ATSolution State)
    (i j : Nat) : Except Fault (List Replacement) :=
  if j = i + 1 then
    match visitationAt solution j with
    | .error e => .error e
    | .ok vj =>
      match visitationAt solution i with
      | .error e => .error e
      | .ok vi =>
        if i + 2 < solution.length then
          match visitationAt solution (i + 2) with
          | .error e => .error e
          | .ok vi2 =>
            .ok [{ first_segment := i
                   last_segment := min (i + 2) (solution.length - 1)
                   visitations := [vj, vi, vi2] }]
        else
          .ok [{ first_segment := i
                 last_segment := min (i + 2) (solution.length - 1)
                 visitations := [vj, vi] }]
  else
    match visitationAt solution j with
    | .error e => .error e
    | .ok vj =>
      match visitationAt solution (i + 1) with
      | .error e => .error e
      | .ok vi1 =>
        match visitationAt solution i with
        | .error e => .error e
        | .ok vi =>
          if i + 2 < solution.length then
            match visitationAt solution (j + 1) with
            | .error e => .error e
            | .ok vj1 =>
              .ok [{ first_segment := i, last_segment := i + 1, visitations := [vj, vi1] },
                   { first_segment := j
                     last_segment := min (j + 2) (solution.length - 1)
                     visitations := [vi, vj1] }]
          else
            .ok [{ first_segment := i, last_segment := i + 1, visitations := [vj, vi1] },
                 { first_segment := j
                   last_segment := min (j + 2) (solution.length - 1)
                   visitations := [vi] }]

/-- The conjunction of the assertions of `AT2Opt::check_replacements_validity`
(AT2Opt.cpp lines 136-147): `true` exactly when no assertion fires.  When
`last_segment < first_segment` the unsigned difference of the first assertion
wraps, and the second assertion fires whatever the first one did. -/
def AT2Opt.check_replacements_validity : List Replacement → Bool
  | [] => true
  | r :: rest =>
    decide (r.visitations.length = (r.last_segment - r.first_segment) + 1)
      && decide (r.first_segment ≤ r.last_segment)
      && (match rest with
          | [] => true
          | next :: _ => decide (r.last_segment < next.first_segment))
      && AT2Opt.check_replacements_validity rest

/-- The point-to-point capability `PointToPointPlanner::planToOmplState(maxTime,
a, b)`: from a planner state, a time budget and two states it returns a path
or nothing, and the next planner state. -/
abbrev PointToPointPlanner (σ State : Type) :=
  σ → ℚ → State → State → Option (PathGeometric State) × σ

/-- The loop over `repl.visitations` of `AT2Opt::plan` (AT2Opt.cpp lines 89-108),
entered at index `vidx` with the visitations that remain.  It returns the entries
pushed onto `computed_replacements` and the planner state; a failed connection
leaves this loop (`break`). -/
def AT2Opt.plan_visitations {σ State : Type} (ptp : PointToPointPlanner σ State)
    (table : GoalApproachTable State) (first_segment : Nat) :
    List Visitation → Nat → State → σ → Except Fault (List (NewApproachAt State) × σ)
  | [], _, _, s => .ok ([], s)
  | viz :: rest, vidx, from_state, s =>
    match tableState table viz with
    | .error e => .error e
    | .ok goal =>
      match ptp s (1 / 10) from_state goal with
      | (none, s1) => .ok ([], s1)
      | (some ptp_path, s1) =>
        match AT2Opt.plan_visitations ptp table first_segment rest (vidx + 1) goal s1 with
        | .error e => .error e
        | .ok (more, s2) =>
          .ok ({ index := first_segment + vidx
                 ga := { visitation := viz, approach_path := ptp_path } } :: more, s2)

/-- The state a replacement is planned from (AT2Opt.cpp lines 86-88). -/
def AT2Opt.plan_from_state {State : Type} (start_state : State)
    (solution : ATSolution State) (repl : Replacement) : Except Fault State :=
  if repl.first_segment = 0 then .ok start_state
  else
    match vecAt solution repl.first_segment with
    | .error e => .error e
    | .ok seg => vecAt seg.approach_path 0

/-- The loop over `replacements` of `AT2Opt::plan` (AT2Opt.cpp lines 85-109):
the final content of `computed_replacements`. -/
def AT2Opt.plan_computed {σ State : Type} (ptp : PointToPointPlanner σ State)
    (table : GoalApproachTable State) (start_state : State) (solution : ATSolution State) :
    List Replacement → σ → Except Fault (List (NewApproachAt State) × σ)
  | [], s => .ok ([], s)
  | repl :: rest, s =>
    match AT2Opt.plan_from_state start_state solution repl with
    | .error e => .error e
    | .ok from_state =>
      match AT2Opt.plan_visitations ptp table repl.first_segment repl.visitations 0
          from_state s with
      | .error e => .error e
      | .ok (here, s1) =>
        match AT2Opt.plan_computed ptp table start_state solution rest s1 with
        | .error e => .error e
        | .ok (more, s2) => .ok (here ++ more, s2)

/-- The cost loop of `AT2Opt::plan` (AT2Opt.cpp lines 111-116): starting from the
accumulators `(old_cost, new_cost)` it adds, for every computed replacement, the
length of the tour's current path at that index and the length of the new path.
`C` is the type of the lengths and `+` its addition: `double` in the source, so
that every `+=` rounds. -/
def AT2Opt.plan_costs {C State : Type} [Add C]
    (length : PathGeometric State → C) (solution : ATSolution State) :
    List (NewApproachAt State) → C × C → Except Fault (C × C)
  | [], acc => .ok acc
  | cr :: rest, (old_cost, new_cost) =>
    match vecAt solution cr.index with
    | .error e => .error e
    | .ok seg =>
      AT2Opt.plan_costs length solution rest
        (old_cost + length seg.approach_path, new_cost + length cr.ga.approach_path)

/-- The overwriting loop of `AT2Opt::plan` (AT2Opt.cpp lines 119-121):
`solution.getSegments()[cr.index] = cr.ga` for every computed replacement. -/
def AT2Opt.plan_overwrite {State : Type} :
    ATSolution State → List (NewApproachAt State) → Except Fault (ATSolution State)
  | solution, [] => .ok solution
  | solution, cr :: rest =>
    if cr.index < solution.length then
      AT2Opt.plan_overwrite (solution.set cr.index cr.ga) rest
    else .error .outOfRange

/-- The body of the two `for` loops of `AT2Opt::plan` for one pair `(i, j)`
(AT2Opt.cpp lines 35-124): build the replacements, plan the connections, compare
the costs and overwrite the tour when the new cost is strictly lower.  The two
sums start at the zero of `C` (`0.0`) and are compared with the comparison of
`C` (`old_cost > new_cost` on doubles). -/
def AT2Opt.plan_candidate {σ C State : Type} [Zero C] [Add C] [LT C]
    [∀ a b : C, Decidable (a < b)]
    (ptp : PointToPointPlanner σ State) (length : PathGeometric State → C)
    (table : GoalApproachTable State) (start_state : State)
    (solution : ATSolution State) (i j : Nat) (s : σ) :
    Except Fault (ATSolution State × σ) :=
  match AT2Opt.plan_replacements solution i j with
  | .error e => .error e
  | .ok replacements =>
    match AT2Opt.plan_computed ptp table start_state solution replacements s with
    | .error e => .error e
    | .ok (computed_replacements, s1) =>
      match AT2Opt.plan_costs length solution computed_replacements (0, 0) with
      | .error e => .error e
      | .ok (old_cost, new_cost) =>
        if old_cost > new_cost then
          match AT2Opt.plan_overwrite solution computed_replacements with
          | .error e => .error e
          | .ok solution1 => .ok (solution1, s1)
        else .ok (solution, s1)

/-- The loop `for (j = i + 1; j < size; j++)` of `AT2Opt::plan` over the values
of `j` that remain. -/
def AT2Opt.plan_for_j {σ C State : Type} [Zero C] [Add C] [LT C]
    [∀ a b : C, Decidable (a < b)]
    (ptp : PointToPointPlanner σ State) (length : PathGeometric State → C)
    (table : GoalApproachTable State) (start_state : State) (i : Nat) :
    List Nat → ATSolution State → σ → Except Fault (ATSolution State × σ)
  | [], solution, s => .ok (solution, s)
  | j :: js, solution, s =>
    match AT2Opt.plan_candidate ptp length table start_state solution i j s with
    | .error e => .error e
    | .ok (solution1, s1) =>
      AT2Opt.plan_for_j ptp length table start_state i js solution1 s1

/-- The loop `for (i = 0; i < size; i++)` of `AT2Opt::plan` over the values of
`i` that remain; `size` is the number of segments, which overwriting a segment
does not change. -/
def AT2Opt.plan_for_i {σ C State : Type} [Zero C] [Add C] [LT C]
    [∀ a b : C, Decidable (a < b)]
    (ptp : PointToPointPlanner σ State) (length : PathGeometric State → C)
    (table : GoalApproachTable State) (start_state : State) (size : Nat) :
    List Nat → ATSolution State → σ → Except Fault (ATSolution State × σ)
  | [], solution, s => .ok (solution, s)
  | i :: is, solution, s =>
    match AT2Opt.plan_for_j ptp length table start_state i
        (List.range' (i + 1) (size - (i + 1))) solution s with
    | .error e => .error e
    | .ok (solution1, s1) =>
      AT2Opt.plan_for_i ptp length table start_state size is solution1 s1

/-- The loop `while (!ptc)` of `AT2Opt::plan` (AT2Opt.cpp lines 31-130), where
`rounds` is the number of times the termination condition is found not yet
reached. -/
def AT2Opt.plan_search {σ C State : Type} [Zero C] [Add C] [LT C]
    [∀ a b : C, Decidable (a < b)]
    (ptp : PointToPointPlanner σ State) (length : PathGeometric State → C)
    (table : GoalApproachTable State) (start_state : State) :
    Nat → ATSolution State → σ → Except Fault (ATSolution State × σ)
  | 0, solution, s => .ok (solution, s)
  | rounds + 1, solution, s =>
    match AT2Opt.plan_for_i ptp length table start_state solution.length
        (List.range solution.length) solution s with
    | .error e => .error e
    | .ok (solution1, s1) =>
      AT2Opt.plan_search ptp length table start_state rounds solution1 s1

/-- Modelled from the spec: `ATSolution::getLastState` is declared in
approach_table.h without a body in the sources.  Its declaration documents it
as "the state at the end of the trajectory, or none if the solution is empty":
the last state of the last segment's path. -/
def multigoal.ATSolution.getLastState {State : Type} (solution : ATSolution State) :
    Except Fault (Option State) :=
  match solution.getLast? with
  | none => .ok none
  | some seg =>
    match seg.approach_path.getLast? with
    | none => .error .outOfRange
    | some st => .ok (some st)

/-- The loop of `AT2Opt::random_initial_solution` (AT2Opt.cpp lines 156-166) over
the visitations that remain of `random_initial_order(table)`; `max_time` is the
constant `MAX_TIME_PER_TARGET_SECONDS`. -/
def AT2Opt.random_initial_solution_loop {σ State : Type} (ptp : PointToPointPlanner σ State)
    (max_time : ℚ) (table : GoalApproachTable State) (start_state : State) :
    List Visitation → ATSolution State → σ → Except Fault (ATSolution State × σ)
  | [], solution, s => .ok (solution, s)
  | v :: rest, solution, s =>
    match ATSolution.getLastState solution with
    | .error e => .error e
    | .ok last =>
      match tableState table v with
      | .error e => .error e
      | .ok goal =>
        match ptp s max_time (last.getD start_state) goal with
        | (some ptp_result, s1) =>
          AT2Opt.random_initial_solution_loop ptp max_time table start_state rest
            (solution ++ [{ visitation := v, approach_path := ptp_result }]) s1
        | (none, s1) =>
          AT2Opt.random_initial_solution_loop ptp max_time table start_state rest solution s1

/-- The function `AT2Opt::random_initial_solution` (AT2Opt.cpp lines 149-169);
`order` is the value of `random_initial_order(table)`, a random sequence of
visitations whose generator is not part of the sources. -/
def AT2Opt.random_initial_solution {σ State : Type} (ptp : PointToPointPlanner σ State)
    (max_time : ℚ) (table : GoalApproachTable State) (order : List Visitation)
    (start_state : State) (s : σ) : Except Fault (ATSolution State × σ) :=
  AT2Opt.random_initial_solution_loop ptp max_time table start_state order [] s

/-- The result type of `AT2Opt::plan`: the ordered path segments, each with the
index of the goal it ends at. -/
abbrev MultiGoalPlanResult (State : Type) := List (Nat × PathGeometric State)

/-- Modelled from the spec: `ATSolution::toMultiGoalResult` is declared in
approach_table.h without a body in the sources.  The spec has the tour
"flattened into the externally-visible result type", an ordered list of path
segments each tagged with the goal index it terminates at. -/
def multigoal.ATSolution.toMultiGoalResult {State : Type} (solution : ATSolution State) :
    MultiGoalPlanResult State :=
  solution.map fun seg => (seg.visitation.target_idx, seg.approach_path)

/-- The function `AT2Opt::plan` (AT2Opt.cpp lines 9-134).  `table` is the goal
approach table after `takeGoalSamples` and `keepBest`, `order` the value of
`random_initial_order(table)` and `rounds` the number of passes of the
`while (!ptc)` loop that start before the time budget is used up. -/
def AT2Opt.plan {σ C State : Type} [Zero C] [Add C] [LT C]
    [∀ a b : C, Decidable (a < b)]
    (ptp : PointToPointPlanner σ State) (length : PathGeometric State → C)
    (max_time : ℚ) (table : GoalApproachTable State) (order : List Visitation)
    (rounds : Nat) (start_state : State) (s : σ) :
    Except Fault (MultiGoalPlanResult State × σ) :=
  match AT2Opt.random_initial_solution ptp max_time table order start_state s with
  | .error e => .error e
  | .ok (solution, s1) =>
    match AT2Opt.plan_search ptp length table start_state rounds solution s1 with
    | .error e => .error e
    | .ok (solution1, s2) => .ok (ATSolution.toMultiGoalResult solution1, s2)

/-- A path segment of a plan result with the goal it leads to
(`NewMultiGoalPlanner::PathSegment`). -/
structure MultiGoalPlanner.PathSegment (State : Type) where
  to_goal_id_ : Nat
  path_ : PathGeometric State
  deriving DecidableEq, Repr

/-- The result of a multi-goal planner (`NewMultiGoalPlanner::PlanResult`). -/
structure MultiGoalPlanner.PlanResult (State : Type) where
  segments_ : List (MultiGoalPlanner.PathSegment State)
  deriving DecidableEq, Repr

open MultiGoalPlanner

/-- The collaborators of `ShellPathPlanner` whose code is outside the planner:
the shell, the single-goal planning methods, the path optimiser and the
ordering heuristic.  `σ` is the state shared by the randomised ones. -/
structure ShellPathPlanner.Env (σ Goal State : Type) where
  /-- The flag `apply_shellstate_optimization` of the planner. -/
  apply_shellstate_optimization : Bool
  /-- The call `ompl_shell.state_on_shell(goal, state)`. -/
  state_on_shell : Goal → State
  /-- The call `ompl_shell.path_on_shell(a, b)`. -/
  path_on_shell : Goal → Goal → PathGeometric State
  /-- The call `methods->state_to_goal(a, goal)`. -/
  state_to_goal : σ → State → Goal → Option (PathGeometric State) × σ
  /-- The call `methods->state_to_state(a, b)`. -/
  state_to_state : σ → State → State → Option (PathGeometric State) × σ
  /-- The call `optimizeExit(goal, path, objective, shell, si)`. -/
  optimizeExit : σ → Goal → PathGeometric State → PathGeometric State × σ
  /-- The call `optimize(path, objective, si)`. -/
  optimize : σ → PathGeometric State → PathGeometric State × σ
  /-- The call `tsp_open_end(...)` made by `computeApproachOrdering`. -/
  computeApproachOrdering :
    σ → State → List Goal → List (Nat × PathGeometric State) → List Nat × σ
  /-- Whether `checkPtc(ptc)` raises its exception in the given state. -/
  checkPtc : σ → Bool

/-- The function `ShellPathPlanner::planApproachForGoal`
(ShellPathPlanner.cpp lines 161-192), without its diagnostic output. -/
def ShellPathPlanner.planApproachForGoal {σ Goal State : Type}
    (env : ShellPathPlanner.Env σ Goal State) (goal : Goal) (s : σ) :
    Option (PathGeometric State) × σ :=
  match env.state_to_goal s (env.state_on_shell goal) goal with
  | (some approach_path, s1) =>
    if env.apply_shellstate_optimization then
      match env.optimizeExit s1 goal approach_path with
      | (optimized, s2) => (some optimized, s2)
    else (some approach_path, s1)
  | (none, s1) => (none, s1)

/-- The loop of `ShellPathPlanner::planApproaches` (ShellPathPlanner.cpp lines
145-156) over the goals that remain, `goal_i` being the index of the first of
them. -/
def ShellPathPlanner.planApproaches_loop {σ Goal State : Type}
    (env : ShellPathPlanner.Env σ Goal State) :
    List Goal → Nat → List (Nat × PathGeometric State) → σ →
      Except Fault (List (Nat × PathGeometric State) × σ)
  | [], _, approaches, s => .ok (approaches, s)
  | goal :: rest, goal_i, approaches, s =>
    match ShellPathPlanner.planApproachForGoal env goal s with
    | (some approach, s1) =>
      if env.checkPtc s1 then .error .timeout
      else ShellPathPlanner.planApproaches_loop env rest (goal_i + 1)
        (approaches ++ [(goal_i, approach)]) s1
    | (none, s1) =>
      if env.checkPtc s1 then .error .timeout
      else ShellPathPlanner.planApproaches_loop env rest (goal_i + 1) approaches s1

/-- The function `ShellPathPlanner::planApproaches` (ShellPathPlanner.cpp lines
137-159). -/
def ShellPathPlanner.planApproaches {σ Goal State : Type}
    (env : ShellPathPlanner.Env σ Goal State) (goals : List Goal) (s : σ) :
    Except Fault (List (Nat × PathGeometric State) × σ) :=
  ShellPathPlanner.planApproaches_loop env goals 0 [] s

/-- The function `ShellPathPlanner::planFirstApproach` (ShellPathPlanner.cpp
lines 101-115). -/
def ShellPathPlanner.planFirstApproach {σ Goal State : Type}
    (env : ShellPathPlanner.Env σ Goal State) (start : State)
    (approach_path : PathGeometric State) (s : σ) :
    Except Fault (Option (PathGeometric State) × σ) :=
  match vecAt approach_path 0 with
  | .error e => .error e
  | .ok shell_state =>
    match env.state_to_state s start shell_state with
    | (some start_to_shell, s1) => .ok (some (start_to_shell ++ approach_path), s1)
    | (none, s1) => .ok (none, s1)

/-- The function `ShellPathPlanner::retreat_move_probe` (ShellPathPlanner.cpp
lines 81-99). -/
def ShellPathPlanner.retreat_move_probe {σ Goal State : Type}
    (env : ShellPathPlanner.Env σ Goal State) (goals : List Goal)
    (goal_to_goal : PathGeometric State)
    (approach_a approach_b : Nat × PathGeometric State) :
    Except Fault (PathGeometric State) :=
  match vecAt goals approach_a.1 with
  | .error e => .error e
  | .ok a =>
    match vecAt goals approach_b.1 with
    | .error e => .error e
    | .ok b =>
      .ok ((goal_to_goal ++ approach_a.2).reverse ++ env.path_on_shell a b ++ approach_b.2)

/-- The loop of `ShellPathPlanner::assembleFullPath` (ShellPathPlanner.cpp lines
54-76) over the values of `i` that remain. -/
def ShellPathPlanner.assembleFullPath_loop {σ Goal State : Type}
    (env : ShellPathPlanner.Env σ Goal State) (goals : List Goal)
    (approaches : List (Nat × PathGeometric State)) (ordering : List Nat) :
    List Nat → PlanResult State → σ → Except Fault (PlanResult State × σ)
  | [], result, s => .ok (result, s)
  | i :: is, result, s =>
    match vecAt ordering (i - 1) with
    | .error e => .error e
    | .ok o_prev =>
      match vecAt approaches o_prev with
      | .error e => .error e
      | .ok approach_a =>
        match vecAt ordering i with
        | .error e => .error e
        | .ok o_i =>
          match vecAt approaches o_i with
          | .error e => .error e
          | .ok approach_b =>
            match ShellPathPlanner.retreat_move_probe env goals [] approach_a approach_b with
            | .error e => .error e
            | .ok segment_path =>
              match env.optimize s segment_path with
              | (optimized, s1) =>
                match vecAt ordering 0 with
                | .error e => .error e
                | .ok o_0 =>
                  match vecAt approaches o_0 with
                  | .error e => .error e
                  | .ok approach_0 =>
                    ShellPathPlanner.assembleFullPath_loop env goals approaches ordering is
                      { segments_ := result.segments_ ++
                          [{ to_goal_id_ := approach_0.1, path_ := optimized }] } s1

/-- The function `ShellPathPlanner::assembleFullPath` (ShellPathPlanner.cpp
lines 43-79). -/
def ShellPathPlanner.assembleFullPath {σ Goal State : Type}
    (env : ShellPathPlanner.Env σ Goal State) (goals : List Goal)
    (approaches : List (Nat × PathGeometric State)) (ordering : List Nat)
    (result : PlanResult State) (initial_approach : PathGeometric State) (s : σ) :
    Except Fault (PlanResult State × σ) :=
  match vecAt ordering 0 with
  | .error e => .error e
  | .ok o_0 =>
    match vecAt approaches o_0 with
    | .error e => .error e
    | .ok approach_0 =>
      ShellPathPlanner.assembleFullPath_loop env goals approaches ordering
        (List.range' 1 (ordering.length - 1))
        { segments_ := result.segments_ ++
            [{ to_goal_id_ := approach_0.1, path_ := initial_approach }] } s

/-- The function `ShellPathPlanner::plan` (ShellPathPlanner.cpp lines 15-41). -/
def ShellPathPlanner.plan {σ Goal State : Type}
    (env : ShellPathPlanner.Env σ Goal State) (start : State) (goals : List Goal) (s : σ) :
    Except Fault (PlanResult State × σ) :=
  match ShellPathPlanner.planApproaches env goals s with
  | .error e => .error e
  | .ok (approaches, s1) =>
    if approaches.isEmpty then .ok ({ segments_ := [] }, s1)
    else
      match env.computeApproachOrdering s1 start goals approaches with
      | (ordering, s2) =>
        match vecAt ordering 0 with
        | .error e => .error e
        | .ok o_0 =>
          match vecAt approaches o_0 with
          | .error e => .error e
          | .ok approach_0 =>
            match ShellPathPlanner.planFirstApproach env start approach_0.2 s2 with
            | .error e => .error e
            | .ok (none, s3) => .ok ({ segments_ := [] }, s3)
            | .ok (some first_approach, s3) =>
              ShellPathPlanner.assembleFullPath env goals approaches ordering
                { segments_ := [] } first_approach s3

/-! ## Specification predicates -/

/-- The chaining invariant of a tour: the first segment's path starts at
`start_state` and every other segment's path starts at the end state of the
previous segment's path. -/
def multigoal.ATSolution.chains {State : Type} [DecidableEq State] :
    State → ATSolution State → Bool
  | _, [] => true
  | start_state, seg :: rest =>
    match seg.approach_path.head?, seg.approach_path.getLast? with
    | some first, some last =>
      decide (first = start_state) && multigoal.ATSolution.chains last rest
    | _, _ => false

/-- The no-revisit invariant of a tour: no two positions reference the same
goal. -/
def multigoal.ATSolution.noRevisit {State : Type} (solution : ATSolution State) : Prop :=
  (solution.map fun seg => seg.visitation.target_idx).Nodup

/-- The contract assumed of the point-to-point planner: every path it returns
runs from the given from-state to the given goal state. -/
def PointToPointPlanner.connects {σ State : Type} (ptp : PointToPointPlanner σ State) :
    Prop :=
  ∀ s t a b p, (ptp s t a b).1 = some p → p.head? = some a ∧ p.getLast? = some b

/-- The tour positions a replacement list names, with the visitation meant for
each: visitation `k` of a replacement goes to position `first_segment + k`. -/
def multigoal.Replacement.writes : List Replacement → List (Nat × Visitation)
  | [] => []
  | r :: rest =>
    (r.visitations.enum.map fun kv => (r.first_segment + kv.1, kv.2))
      ++ multigoal.Replacement.writes rest

/-- Writing named visitations over a visitation sequence: each `(k, v)` puts `v`
at position `k`, in order. -/
def multigoal.Replacement.applyWrites (ws : List (Nat × Visitation))
    (vs : List Visitation) : List Visitation :=
  ws.foldl (fun acc w => acc.set w.1 w.2) vs

/-- A visitation sequence with the entries at positions `i` and `j` exchanged
and every other position unchanged. -/
def multigoal.swapAt (i j : Nat) (vs : List Visitation) : List Visitation :=
  match vs[i]?, vs[j]? with
  | some a, some b => (vs.set i b).set j a
  | _, _ => vs

/-- The length of the tour's path at a position, and zero outside the tour. -/
def AT2Opt.oldLength {C State : Type} [Zero C] (length : PathGeometric State → C)
    (solution : ATSolution State) (cr : NewApproachAt State) : C :=
  match solution[cr.index]? with
  | some seg => length seg.approach_path
  | none => 0

/-- The summed length of the tour's paths at the positions of the computed
replacements: the lengths are added one by one, in the order of the computed
replacements, to the zero of `C`. -/
def AT2Opt.oldCost {C State : Type} [Zero C] [Add C]
    (length : PathGeometric State → C) (solution : ATSolution State)
    (computed : List (NewApproachAt State)) : C :=
  computed.foldl (fun acc cr => acc + AT2Opt.oldLength length solution cr) 0

/-- The summed length of the newly planned paths of the computed replacements:
the lengths are added one by one, in the order of the computed replacements, to
the zero of `C`. -/
def AT2Opt.newCost {C State : Type} [Zero C] [Add C]
    (length : PathGeometric State → C) (computed : List (NewApproachAt State)) : C :=
  computed.foldl (fun acc cr => acc + length cr.ga.approach_path) 0

/-- Every connection required by the replacements succeeded: the planning loop
pushes one computed entry per successful connection and leaves a replacement at
its first failed connection, so it ends with one entry per named visitation
exactly when no connection failed. -/
def AT2Opt.allConnected {State : Type} (replacements : List Replacement)
    (computed : List (NewApproachAt State)) : Prop :=
  computed.length = (Replacement.writes replacements).length

/-- The exact length of a path in units of `2 ^ (-1074)`. -/
def AT2Opt.lengthUnits {State : Type} (length : PathGeometric State → Double)
    (path : PathGeometric State) : Int :=
  Double.units (length path)

/-- The length of a path on the integer line from an accumulator on: the
distances between consecutive states are added to it one by one. -/
def lineLength_from : Double → PathGeometric Int → Double
  | acc, a :: b :: rest => lineLength_from (acc + Double.ofNat (b - a).natAbs) (b :: rest)
  | acc, _ => acc

/-- The length of a path on the integer line, a double: the distances between
consecutive states are added one by one, starting from `0.0`. -/
def lineLength (path : PathGeometric Int) : Double :=
  lineLength_from 0 path

/-- A tour of `n` segments on the integer line: segment `k` visits goal `k`
through its approach `0` along the path `[k, k + 1]`. -/
def lineTour (n : Nat) : ATSolution Int :=
  (List.range n).map fun k =>
    { visitation := ⟨k, 0⟩, approach_path := [(k : Int), (k : Int) + 1] }

/-- A table of two goals with one approach state each: goal `0` at `20` and goal
`1` at `10`. -/
def farNearTable : GoalApproachTable Int := [[20], [10]]

/-- The tour that starts at `0`, visits goal `0` (at `20`) and then goal `1`
(at `10`). -/
def farNearTour : ATSolution Int :=
  [{ visitation := ⟨0, 0⟩, approach_path := [0, 20] },
   { visitation := ⟨1, 0⟩, approach_path := [20, 10] }]

/-- The tour `farNearTour` with position `0` overwritten by an approach of goal
`1` along the path `[0, 10]`. -/
def nearNearTour : ATSolution Int :=
  [{ visitation := ⟨1, 0⟩, approach_path := [0, 10] },
   { visitation := ⟨1, 0⟩, approach_path := [20, 10] }]

/-- The tour that starts at `0`, visits goal `1` (at `10`) and then goal `0`
(at `20`): `farNearTour` with its two visitations exchanged. -/
def nearFarTour : ATSolution Int :=
  [{ visitation := ⟨1, 0⟩, approach_path := [0, 10] },
   { visitation := ⟨0, 0⟩, approach_path := [10, 20] }]

/-- A table of two goals with one approach state each: goal `0` at `2 ^ 53` and
goal `1` at `2 ^ 53 - 1`. -/
def tieTable : GoalApproachTable Int := [[9007199254740992], [9007199254740991]]

/-- The tour that starts at `0`, visits goal `0` (at `2 ^ 53`) and then goal `1`
(at `2 ^ 53 - 1`): its paths have the lengths `2 ^ 53` and `1`. -/
def tieTour : ATSolution Int :=
  [{ visitation := ⟨0, 0⟩, approach_path := [0, 9007199254740992] },
   { visitation := ⟨1, 0⟩, approach_path := [9007199254740992, 9007199254740991] }]

/-- A planner that connects any two states by the straight path between them
and fails from its fourth call on; its state counts the calls made. -/
def threeCallPlanner : PointToPointPlanner Nat Int :=
  fun calls _ a b => (if calls < 3 then some [a, b] else none, calls + 1)

/-- A planner that connects any two states by the straight path between them
and never fails. -/
def straightPlanner : PointToPointPlanner Unit Int :=
  fun s _ a b => (some [a, b], s)

/-- A planner that fails on every call. -/
def failingPlanner : PointToPointPlanner Unit Int :=
  fun s _ _ _ => (none, s)

/-- A shell planner environment on the integer line: goal `g` sits at state
`10 * g + 10`, the shell is the point `0`, and every capability answers with
the straight path; `connect` tells whether `state_to_state` succeeds. -/
def lineEnv (connect : Bool) : ShellPathPlanner.Env Unit Nat Int where
  apply_shellstate_optimization := false
  state_on_shell := fun _ => 0
  path_on_shell := fun _ _ => [0]
  state_to_goal := fun s a g => (some [a, 10 * (g : Int) + 10], s)
  state_to_state := fun s a b => (if connect then some [a, b] else none, s)
  optimizeExit := fun s _ p => (p, s)
  optimize := fun s p => (p, s)
  computeApproachOrdering := fun s _ _ approaches => (List.range approaches.length, s)
  checkPtc := fun _ => false

/-! ## Specification predicates of the shell planner -/

/-- The chaining property of a plan result: segment `0` starts at `start`, and for
every `k` the last state of segment `k` is the first state of segment `k + 1`. -/
def MultiGoalPlanner.PlanResult.chains {State : Type} (start : State)
    (result : PlanResult State) : Prop :=
  (∀ seg, result.segments_[0]? = some seg → seg.path_.head? = some start) ∧
  (∀ k seg next, result.segments_[k]? = some seg → result.segments_[k + 1]? = some next →
    ∃ st, seg.path_.getLast? = some st ∧ next.path_.head? = some st)

/-- Paths that chain from `start` and end in the state `last`: each path starts
where the previous one ended, the first one at `start`. -/
def pathsChainTo {State : Type} : State → List (PathGeometric State) → State → Prop
  | start, [], last => last = start
  | start, p :: rest, last =>
    p.head? = some start ∧ ∃ st, p.getLast? = some st ∧ pathsChainTo st rest last

/-- The outcome of `planApproachForGoal` for every goal in turn, each call made in
the state the previous call left. -/
def ShellPathPlanner.approachOutcomes {σ Goal State : Type}
    (env : ShellPathPlanner.Env σ Goal State) :
    List Goal → σ → List (Option (PathGeometric State))
  | [], _ => []
  | goal :: rest, s =>
    (ShellPathPlanner.planApproachForGoal env goal s).1 ::
      ShellPathPlanner.approachOutcomes env rest
        (ShellPathPlanner.planApproachForGoal env goal s).2

/-- One `(goal index, path)` pair for every successful outcome, in goal order,
the first outcome belonging to goal `goal_i`. -/
def ShellPathPlanner.successfulApproaches {State : Type} :
    Nat → List (Option (PathGeometric State)) → List (Nat × PathGeometric State)
  | _, [] => []
  | goal_i, some approach :: rest =>
    (goal_i, approach) :: ShellPathPlanner.successfulApproaches (goal_i + 1) rest
  | goal_i, none :: rest => ShellPathPlanner.successfulApproaches (goal_i + 1) rest

/-- A shell planner environment on the integer line that differs from `lineEnv
true` in one point: no approach path is found for goal `1`. -/
def gapEnv : ShellPathPlanner.Env Unit Nat Int where
  apply_shellstate_optimization := false
  state_on_shell := fun _ => 0
  path_on_shell := fun _ _ => [0]
  state_to_goal := fun s a g => (if g = 1 then none else some [a, 10 * (g : Int) + 10], s)
  state_to_state := fun s a b => (some [a, b], s)
  optimizeExit := fun s _ p => (p, s)
  optimize := fun s p => (p, s)
  computeApproachOrdering := fun s _ _ approaches => (List.range approaches.length, s)
  checkPtc := fun _ => false

/-! ## Forward kinematics (`src/planning/RobotModel.cpp`) -/

/-- The variable part of a joint (`RobotModel::JointTypeSpecific`, a variant of
`RevoluteJoint` and `FixedJoint`). -/
inductive RobotModel.JointTypeSpecific (Axis : Type) where
  /-- A revolute joint with its axis (variant index `0`). -/
  | revolute (axis : Axis)
  /-- A fixed joint (variant index `1`). -/
  | fixed
  deriving DecidableEq, Repr

/-- A joint of a robot model (`RobotModel::Joint`), without its name. -/
structure RobotModel.Joint (T Axis : Type) where
  attachmentA : T
  attachmentB : T
  linkA : Nat
  linkB : Nat
  type_specific : RobotModel.JointTypeSpecific Axis
  deriving DecidableEq, Repr

/-- A link of a robot model (`RobotModel::Link`): the joints attached to it. -/
structure RobotModel.Link where
  joints : List Nat
  deriving DecidableEq, Repr

/-- A robot model (`RobotModel`): its links and its joints. -/
structure RobotModel (T Axis : Type) where
  links : List RobotModel.Link
  joints : List (RobotModel.Joint T Axis)
  deriving DecidableEq, Repr

/-- The operations on `math::Transformd` and on joints that forward kinematics
uses and whose code is outside RobotModel.cpp.  `T` is the type of transforms,
`V` the type of joint values. -/
structure RobotModel.Ops (T Axis V : Type) where
  /-- The transform `Transformd::identity()`. -/
  identity : T
  /-- The composition `a.then(b)`. -/
  then_ : T → T → T
  /-- The inverse `a.inverse()`. -/
  inverse : T → T
  /-- The transform `Transformd::fromRotation(Quaterniond::fromAxisAngle(axis,
  value))`. -/
  fromAxisAngle : Axis → V → T
  /-- The function `RobotModel::n_variables`. -/
  n_variables : RobotModel.JointTypeSpecific Axis → Nat

/-- The function `RobotModel::variableTransform` (RobotModel.cpp lines 121-139);
`offset` is the position in `joint_values` that the pointer argument points to. -/
def RobotModel.variableTransform {T Axis V : Type} (ops : RobotModel.Ops T Axis V)
    (variablePart : RobotModel.JointTypeSpecific Axis) (joint_values : List V)
    (offset : Nat) : Except Fault T :=
  match variablePart with
  | .revolute axis =>
    match vecAt joint_values offset with
    | .error e => .error e
    | .ok value => .ok (ops.fromAxisAngle axis value)
  | .fixed => .ok ops.identity

/-- The loop over the joints of a link in `forwardKinematics` (RobotModel.cpp
lines 52-84) over the joints that remain.  The stack is a list whose head is
its top; the loop returns the stack and `variable_index`. -/
def RobotModel.forwardKinematics_joints {T Axis V : Type} (ops : RobotModel.Ops T Axis V)
    (model : RobotModel T Axis) (joint_values : List V) (link : Nat) (transform : T)
    (visited : List Bool) :
    List Nat → List (Nat × T) → Nat → Except Fault (List (Nat × T) × Nat)
  | [], stack, variable_index => .ok (stack, variable_index)
  | joint :: rest, stack, variable_index =>
    match vecAt model.joints joint with
    | .error e => .error e
    | .ok jt =>
      match vecAt visited jt.linkB with
      | .error e => .error e
      | .ok true =>
        RobotModel.forwardKinematics_joints ops model joint_values link transform visited
          rest stack variable_index
      | .ok false =>
        match RobotModel.variableTransform ops jt.type_specific joint_values variable_index with
        | .error e => .error e
        | .ok variable_transform =>
          let local_to_joint := if jt.linkA = link then jt.attachmentA else jt.attachmentB
          let joint_transform := if jt.linkB = link then ops.inverse variable_transform else variable_transform
          let after_joint_frame :=
            ops.inverse (if jt.linkA = link then jt.attachmentB else jt.attachmentA)
          let next_link_transform :=
            ops.then_ (ops.then_ (ops.then_ transform local_to_joint) joint_transform)
              after_joint_frame
          RobotModel.forwardKinematics_joints ops model joint_values link transform visited
            rest
            ((if jt.linkA = link then jt.linkB else jt.linkA, next_link_transform) :: stack)
            (variable_index + ops.n_variables jt.type_specific)

/-- The variables of the `while` loop of `forwardKinematics`. -/
structure RobotModel.WalkState (T : Type) where
  link_transforms : List T
  visited : List Bool
  stack : List (Nat × T)
  variable_index : Nat
  deriving DecidableEq, Repr

/-- The loop `while (!stack.empty())` of `forwardKinematics` (RobotModel.cpp lines
35-85), run for at most `fuel` tests of its condition.  It returns the variables
as they are when the stack is found empty. -/
def RobotModel.forwardKinematics_while {T Axis V : Type} (ops : RobotModel.Ops T Axis V)
    (model : RobotModel T Axis) (joint_values : List V) :
    Nat → RobotModel.WalkState T → Except Fault (RobotModel.WalkState T)
  | 0, _ => .error .outOfFuel
  | fuel + 1, st =>
    match st.stack with
    | [] => .ok st
    | (link, transform) :: stack =>
      match vecAt st.visited link with
      | .error e => .error e
      | .ok true =>
        RobotModel.forwardKinematics_while ops model joint_values fuel { st with stack := stack }
      | .ok false =>
        match vecAt model.links link with
        | .error e => .error e
        | .ok lk =>
          match RobotModel.forwardKinematics_joints ops model joint_values link transform
              (st.visited.set link true) lk.joints stack st.variable_index with
          | .error e => .error e
          | .ok (stack1, variable_index1) =>
            RobotModel.forwardKinematics_while ops model joint_values fuel
              { link_transforms := st.link_transforms.set link transform
                visited := st.visited.set link true
                stack := stack1
                variable_index := variable_index1 }

/-- The number of tests of the loop condition given to the model of the `while`
loop: every link is expanded at most once and pushes at most one entry per joint
attached to it, so at most `1 + Σ |joints of a link|` entries are ever popped. -/
def RobotModel.forwardKinematics_fuel {T Axis : Type} (model : RobotModel T Axis) : Nat :=
  2 + (model.links.map fun lk => lk.joints.length).sum

/-- The variables of `forwardKinematics` when its `while` loop is entered
(RobotModel.cpp lines 18-33). -/
def RobotModel.forwardKinematics_init {T Axis V : Type} (ops : RobotModel.Ops T Axis V)
    (model : RobotModel T Axis) (root_link : Nat) (root_link_transform : T) :
    RobotModel.WalkState T :=
  { link_transforms := List.replicate model.links.length root_link_transform
    visited := List.replicate model.links.length false
    stack := [(root_link, ops.identity)]
    variable_index := 0 }

/-- The function `forwardKinematics` (RobotModel.cpp lines 13-90): the
`link_transforms` of its result. -/
def RobotModel.forwardKinematics {T Axis V : Type} (ops : RobotModel.Ops T Axis V)
    (model : RobotModel T Axis) (joint_values : List V) (root_link : Nat)
    (root_link_transform : T) : Except Fault (List T) :=
  match RobotModel.forwardKinematics_while ops model joint_values
      (RobotModel.forwardKinematics_fuel model)
      (RobotModel.forwardKinematics_init ops model root_link root_link_transform) with
  | .error e => .error e
  | .ok st => .ok st.link_transforms

/-! ## Concrete robot models

Transforms are translations along a line, written as integers: the identity is
`0`, `a.then(b)` is `a + b`, the inverse of `a` is `-a`, and a revolute joint with
value `v` translates by `v`. -/

/-- The operations on translations along a line. -/
def lineOps : RobotModel.Ops Int Unit Int where
  identity := 0
  then_ := fun a b => a + b
  inverse := fun a => -a
  fromAxisAngle := fun _ v => v
  n_variables := fun part =>
    match part with
    | .revolute _ => 1
    | .fixed => 0

/-- Two links joined by one revolute joint whose `linkA` is link `1` and whose
`linkB` is link `0`; the attachments are the translations by `1` on link `1` and
by `2` on link `0`. -/
def backwardJointModel : RobotModel Int Unit where
  links := [{ joints := [0] }, { joints := [0] }]
  joints := [{ attachmentA := 1, attachmentB := 2, linkA := 1, linkB := 0,
               type_specific := .revolute () }]

/-- The same two links with the joint turned around: its `linkA` is link `0` and
its `linkB` is link `1`. -/
def forwardJointModel : RobotModel Int Unit where
  links := [{ joints := [0] }, { joints := [0] }]
  joints := [{ attachmentA := 2, attachmentB := 1, linkA := 0, linkB := 1,
               type_specific := .revolute () }]

/-- A robot model with a single link and no joint. -/
def singleLinkModel : RobotModel Int Unit where
  links := [{ joints := [] }]
  joints := []

/-! ## Measures for the loop of forward kinematics -/

/-- The sum of `f l lk` over the links `lk` at positions `l` that are not marked
as visited, the first link of the list being at position `k`. -/
def RobotModel.sumUnvisited (f : Nat → RobotModel.Link → Nat) :
    Nat → List RobotModel.Link → List Bool → Nat
  | k, lk :: links, v :: visited =>
    (if v then 0 else f k lk) + RobotModel.sumUnvisited f (k + 1) links visited
  | _, _, _ => 0

/-- The number of joints attached to links that are not yet visited: a bound on
the entries that can still be pushed on the stack. -/
def RobotModel.pendingJoints {T Axis : Type} (model : RobotModel T Axis)
    (visited : List Bool) : Nat :=
  RobotModel.sumUnvisited (fun _ lk => lk.joints.length) 0 model.links visited

/-- The joint variables read while the joints `js` of `link` are followed, at
most: those of the joints that do not have `link` as their `linkB`. -/
def RobotModel.variablesAt {T Axis V : Type} (ops : RobotModel.Ops T Axis V)
    (model : RobotModel T Axis) (link : Nat) : List Nat → Nat
  | [] => 0
  | joint :: rest =>
    (match model.joints[joint]? with
      | some jt => if jt.linkB = link then 0 else ops.n_variables jt.type_specific
      | none => 0) + RobotModel.variablesAt ops model link rest

/-- The joint variables that can still be read, at most: those of the links not
yet visited. -/
def RobotModel.pendingVariables {T Axis V : Type} (ops : RobotModel.Ops T Axis V)
    (model : RobotModel T Axis) (visited : List Bool) : Nat :=
  RobotModel.sumUnvisited (fun l lk => RobotModel.variablesAt ops model l lk.joints) 0
    model.links visited

/-- The number of joint values a model needs: one group of variables for every
joint listed by a link other than its `linkB`. -/
def RobotModel.variablesNeeded {T Axis V : Type} (ops : RobotModel.Ops T Axis V)
    (model : RobotModel T Axis) : Nat :=
  RobotModel.pendingVariables ops model (List.replicate model.links.length false)

/-- A model whose indices are in range: the joints listed by the links exist and
the links named by the joints exist. -/
def RobotModel.wellFormed {T Axis : Type} (model : RobotModel T Axis) : Prop :=
  (∀ lk ∈ model.links, ∀ joint ∈ lk.joints, joint < model.joints.length) ∧
  (∀ jt ∈ model.joints, jt.linkA < model.links.length ∧ jt.linkB < model.links.length)

/-- Three links joined in a cycle by revolute joints from link `0` to link `1`,
from link `0` to link `2` and from link `2` to link `1`; every attachment is the
identity. -/
def cycleModel : RobotModel Int Unit where
  links := [{ joints := [0, 1] }, { joints := [0, 2] }, { joints := [1, 2] }]
  joints := [{ attachmentA := 0, attachmentB := 0, linkA := 0, linkB := 1,
               type_specific := .revolute () },
             { attachmentA := 0, attachmentB := 0, linkA := 0, linkB := 2,
               type_specific := .revolute () },
             { attachmentA := 0, attachmentB := 0, linkA := 2, linkB := 1,
               type_specific := .revolute () }]

/-! ## Segmented robot paths (`src/exploration/SegmentedRobotPath.cpp`)

The fields of an index are `size_t` values; increments and decrements are
taken modulo `2^64`, so that decrementing `0` gives the largest `size_t`. -/

/-- The increment `n++` of a `size_t`. -/
def size_t_inc (n : Nat) : Nat := (n + 1) % 18446744073709551616

/-- The decrement `n--`, and the difference `n - 1`, of a `size_t`. -/
def size_t_dec (n : Nat) : Nat := (n + 18446744073709551616 - 1) % 18446744073709551616

/-- A position in a segmented path (`SegmentedRobotPath::Index`). -/
structure SegmentedRobotPath.Index where
  segment_index : Nat
  waypoint_index : Nat
  deriving DecidableEq, Repr

/-- One segment of a segmented path: its waypoints (`RobotPath`). -/
structure RobotPath (W : Type) where
  waypoints : List W
  deriving DecidableEq, Repr

/-- A path made of segments (`SegmentedRobotPath`). -/
structure SegmentedRobotPath (W : Type) where
  segments : List (RobotPath W)
  deriving DecidableEq, Repr

/-- The function `SegmentedRobotPath::next_waypoint_index`
(SegmentedRobotPath.cpp lines 12-20). -/
def SegmentedRobotPath.next_waypoint_index {W : Type} (path : SegmentedRobotPath W)
    (idx : SegmentedRobotPath.Index) : Except Fault SegmentedRobotPath.Index :=
  match vecAt path.segments idx.segment_index with
  | .error e => .error e
  | .ok seg =>
    if idx.waypoint_index < size_t_dec seg.waypoints.length then
      .ok { idx with waypoint_index := size_t_inc idx.waypoint_index }
    else
      .ok { segment_index := size_t_inc idx.segment_index, waypoint_index := 0 }

/-- The function `SegmentedRobotPath::prev_waypoint_index`
(SegmentedRobotPath.cpp lines 22-30). -/
def SegmentedRobotPath.prev_waypoint_index {W : Type} (path : SegmentedRobotPath W)
    (idx : SegmentedRobotPath.Index) : Except Fault SegmentedRobotPath.Index :=
  if idx.waypoint_index > 0 then
    .ok { idx with waypoint_index := size_t_dec idx.waypoint_index }
  else
    match vecAt path.segments (size_t_dec idx.segment_index) with
    | .error e => .error e
    | .ok seg =>
      .ok { segment_index := size_t_dec idx.segment_index
            waypoint_index := size_t_dec seg.waypoints.length }

/-- The function `SegmentedRobotPath::first_waypoint_index`
(SegmentedRobotPath.cpp lines 32-34). -/
def SegmentedRobotPath.first_waypoint_index : SegmentedRobotPath.Index :=
  { segment_index := 0, waypoint_index := 0 }

/-- The function `SegmentedRobotPath::last_waypoint_index`
(SegmentedRobotPath.cpp lines 36-38); `segments.back()` faults on a path without
segments. -/
def SegmentedRobotPath.last_waypoint_index {W : Type} (path : SegmentedRobotPath W) :
    Except Fault SegmentedRobotPath.Index :=
  match path.segments.getLast? with
  | none => .error .outOfRange
  | some seg =>
    .ok { segment_index := size_t_dec path.segments.length
          waypoint_index := size_t_dec seg.waypoints.length }

/-- The function `SegmentedRobotPath::pop_first` (SegmentedRobotPath.cpp lines
48-56), without its assertion: `segments.front()` faults on a path without
segments and erasing `begin()` faults on a segment without waypoints. -/
def SegmentedRobotPath.pop_first {W : Type} (path : SegmentedRobotPath W) :
    Except Fault (SegmentedRobotPath W) :=
  match path.segments with
  | [] => .error .outOfRange
  | front :: rest =>
    match front.waypoints with
    | [] => .error .outOfRange
    | _ :: waypoints =>
      if waypoints.isEmpty then .ok { segments := rest }
      else .ok { segments := { waypoints := waypoints } :: rest }

/-- The function `SegmentedRobotPath::empty` (SegmentedRobotPath.cpp lines
58-60). -/
def SegmentedRobotPath.empty {W : Type} (path : SegmentedRobotPath W) : Bool :=
  path.segments.isEmpty

/-- The comparison `SegmentedRobotPath::Index::operator<` (SegmentedRobotPath.cpp
lines 70-73). -/
def SegmentedRobotPath.Index.lt (a other : SegmentedRobotPath.Index) : Bool :=
  decide (a.segment_index < other.segment_index) ||
    (decide (a.segment_index = other.segment_index) &&
      decide (a.waypoint_index < other.waypoint_index))

/-- Applying `next_waypoint_index` a number of times. -/
def SegmentedRobotPath.next_waypoint_index_iterate {W : Type} (path : SegmentedRobotPath W) :
    Nat → SegmentedRobotPath.Index → Except Fault SegmentedRobotPath.Index
  | 0, idx => .ok idx
  | k + 1, idx =>
    match SegmentedRobotPath.next_waypoint_index path idx with
    | .error e => .error e
    | .ok idx1 => SegmentedRobotPath.next_waypoint_index_iterate path k idx1

/-- A valid index: its segment exists and its waypoint exists in that segment. -/
def SegmentedRobotPath.validIndex {W : Type} (path : SegmentedRobotPath W)
    (idx : SegmentedRobotPath.Index) : Prop :=
  ∃ seg, path.segments[idx.segment_index]? = some seg ∧
    idx.waypoint_index < seg.waypoints.length

/-- A path none of whose segments is empty. -/
def SegmentedRobotPath.noEmptySegment {W : Type} (path : SegmentedRobotPath W) : Prop :=
  ∀ seg ∈ path.segments, seg.waypoints ≠ []

/-- The sizes of a path fit in a `size_t`, as the sizes of vectors do. -/
def SegmentedRobotPath.fits {W : Type} (path : SegmentedRobotPath W) : Prop :=
  path.segments.length < 18446744073709551616 ∧
    ∀ seg ∈ path.segments, seg.waypoints.length < 18446744073709551616

/-- All waypoints of a path in order. -/
def SegmentedRobotPath.allWaypoints {W : Type} (path : SegmentedRobotPath W) : List W :=
  (path.segments.map fun seg => seg.waypoints).flatten

/-- The number of waypoints before an index: those of the earlier segments and
the earlier ones of its own segment. -/
def SegmentedRobotPath.position {W : Type} (path : SegmentedRobotPath W)
    (idx : SegmentedRobotPath.Index) : Nat :=
  ((path.segments.take idx.segment_index).map fun seg => seg.waypoints.length).sum +
    idx.waypoint_index

/-- A path of three segments with `2`, `1` and `3` waypoints. -/
def samplePath : SegmentedRobotPath Nat :=
  { segments := [{ waypoints := [10, 11] }, { waypoints := [20] },
                 { waypoints := [30, 31, 32] }] }

/-! ## The maximum-y cycle (`src/visualizations/scanning_motions.cpp`) -/

/-- The loop that finds `max_y[x]` in `maximum_y_cycle` (scanning_motions.cpp
lines 395-398), run from `y` for at most `fuel` steps; the loop makes at most
`y_range` steps. -/
def maximum_y_cycle_climb (y_range : Int) (can_move : Int × Int → Int × Int → Bool)
    (x : Int) : Nat → Int → Int
  | 0, y => y
  | fuel + 1, y =>
    if y < y_range && can_move (x, y) (x, y + 1) then
      maximum_y_cycle_climb y_range can_move x fuel (y + 1)
    else y

/-- The loop that finds `shift_y[x]` in `maximum_y_cycle` (scanning_motions.cpp
lines 408-410), run from `y` for at most `fuel` steps; the loop makes at most `y`
steps. -/
def maximum_y_cycle_descend (x_range : Int) (can_move : Int × Int → Int × Int → Bool)
    (x : Int) : Nat → Int → Int
  | 0, y => y
  | fuel + 1, y =>
    if y > 0 && !can_move (x, y) ((x + 1) % x_range, y) then
      maximum_y_cycle_descend x_range can_move x fuel (y - 1)
    else y

/-- The points `(x, y), (x, y + 1), ...` pushed by a loop `for (y = ...; y < top;
y++)`, at most `fuel` of them. -/
def maximum_y_cycle_up (x : Int) (top : Int) : Nat → Int → List (Int × Int)
  | 0, _ => []
  | fuel + 1, y =>
    if y < top then (x, y) :: maximum_y_cycle_up x top fuel (y + 1) else []

/-- The points `(x, y), (x, y - 1), ...` pushed by a loop `for (y = ...; y > bottom;
y--)`, at most `fuel` of them. -/
def maximum_y_cycle_down (x : Int) (bottom : Int) : Nat → Int → List (Int × Int)
  | 0, _ => []
  | fuel + 1, y =>
    if y > bottom then (x, y) :: maximum_y_cycle_down x bottom fuel (y - 1) else []

/-- The loop that builds the path in `maximum_y_cycle` (scanning_motions.cpp
lines 422-436) over the values of `x` that remain. -/
def maximum_y_cycle_build (x_range : Int) (max_y shift_y : List Int) :
    List Nat → List (Int × Int) → Except Fault (List (Int × Int))
  | [], path => .ok path
  | x :: xs, path =>
    match path.getLast? with
    | none => .error .outOfRange
    | some back =>
      match vecAt max_y x with
      | .error e => .error e
      | .ok top =>
        match vecAt shift_y x with
        | .error e => .error e
        | .ok shift =>
          maximum_y_cycle_build x_range max_y shift_y xs
            (path ++ maximum_y_cycle_up x top (top - back.2).toNat back.2
              ++ maximum_y_cycle_down x shift (top - shift).toNat top
              ++ [(((x : Int) + 1) % x_range, shift)])

/-- The function `maximum_y_cycle` (scanning_motions.cpp lines 387-444).  The
vectors `max_y` and `shift_y` have `x_range` entries. -/
def maximum_y_cycle (x_range y_range : Int) (can_move : Int × Int → Int × Int → Bool) :
    Except Fault (List (Int × Int)) :=
  let max_y : List Int := (List.range x_range.toNat).map fun x =>
    maximum_y_cycle_climb y_range can_move x y_range.toNat 0
  let shift_y : Except Fault (List Int) := (List.range x_range.toNat).mapM fun x =>
    match vecAt max_y x with
    | .error e => .error e
    | .ok here =>
      match vecAt max_y (((x : Int) + 1) % x_range).toNat with
      | .error e => .error e
      | .ok beside =>
        .ok (maximum_y_cycle_descend x_range can_move x (min here beside).toNat
          (min here beside))
  match shift_y with
  | .error e => .error e
  | .ok shift_y =>
    match maximum_y_cycle_build x_range max_y shift_y (List.range x_range.toNat) [(0, 0)] with
    | .error e => .error e
    | .ok path =>
      match vecAt shift_y 0 with
      | .error e => .error e
      | .ok shift_0 =>
        .ok (path ++ maximum_y_cycle_down 0 (-1) (shift_0 + 1).toNat shift_0)

/-- Two grid points that are equal or grid neighbours: they differ by one in `y`
with equal `x`, or by one step in `x` modulo `x_range` with equal `y`. -/
def gridStep (x_range : Int) (a b : Int × Int) : Bool :=
  decide (a = b) ||
    (decide (a.1 = b.1) && (decide (b.2 = a.2 + 1) || decide (a.2 = b.2 + 1))) ||
    (decide (a.2 = b.2) &&
      (decide (b.1 = (a.1 + 1) % x_range) || decide (a.1 = (b.1 + 1) % x_range)))

/-! ## Splitting a mesh into connected components (`src/utilities/mesh_utils.cpp`) -/

/-- A triangle of a mesh (`shape_msgs::msg::MeshTriangle`): its three vertex
indices, which are `uint32_t` values. -/
structure shape_msgs.MeshTriangle where
  vertex_indices : Nat × Nat × Nat
  deriving DecidableEq, Repr

/-- A triangle mesh (`shape_msgs::msg::Mesh`) with vertex positions of type
`P`. -/
structure shape_msgs.Mesh (P : Type) where
  triangles : List shape_msgs.MeshTriangle
  vertices : List P
  deriving DecidableEq, Repr

open shape_msgs

/-- The loop over the vertices of component `i` in
`break_down_to_connected_components` (mesh_utils.cpp lines 41-46) over the
vertices that remain, `j` being the position of the first of them. -/
def break_down_vertices {P : Type} (combined_mesh : Mesh P) (i : Nat) :
    List Nat → Nat → List (Nat × Nat) → List (Mesh P) →
      Except Fault (List (Nat × Nat) × List (Mesh P))
  | [], _, index_map, mesh_components => .ok (index_map, mesh_components)
  | v :: rest, j, index_map, mesh_components =>
    if v < index_map.length then
      match vecAt mesh_components i with
      | .error e => .error e
      | .ok mesh =>
        match vecAt combined_mesh.vertices v with
        | .error e => .error e
        | .ok p =>
          break_down_vertices combined_mesh i rest (j + 1) (index_map.set v (i, j))
            (mesh_components.set i { mesh with vertices := mesh.vertices ++ [p] })
    else .error .outOfRange

/-- The loop over the connected components in
`break_down_to_connected_components` (mesh_utils.cpp lines 39-47) over the
components that remain, `i` being the index of the first of them. -/
def break_down_components {P : Type} (combined_mesh : Mesh P) :
    List (List Nat) → Nat → List (Nat × Nat) → List (Mesh P) →
      Except Fault (List (Nat × Nat) × List (Mesh P))
  | [], _, index_map, mesh_components => .ok (index_map, mesh_components)
  | component :: rest, i, index_map, mesh_components =>
    match break_down_vertices combined_mesh i component 0 index_map mesh_components with
    | .error e => .error e
    | .ok (index_map1, mesh_components1) =>
      break_down_components combined_mesh rest (i + 1) index_map1 mesh_components1

/-- The loop over the triangles in `break_down_to_connected_components`
(mesh_utils.cpp lines 50-65) over the triangles that remain.  The new vertex
indices are stored as `uint32_t` values. -/
def break_down_triangles {P : Type} (index_map : List (Nat × Nat)) :
    List MeshTriangle → List (Mesh P) → Except Fault (List (Mesh P))
  | [], mesh_components => .ok mesh_components
  | triangle :: rest, mesh_components =>
    match vecAt index_map triangle.vertex_indices.1 with
    | .error e => .error e
    | .ok v0 =>
      match vecAt index_map triangle.vertex_indices.2.1 with
      | .error e => .error e
      | .ok v1 =>
        match vecAt index_map triangle.vertex_indices.2.2 with
        | .error e => .error e
        | .ok v2 =>
          match vecAt mesh_components v0.1 with
          | .error e => .error e
          | .ok mesh =>
            break_down_triangles index_map rest
              (mesh_components.set v0.1
                { mesh with
                  triangles := mesh.triangles ++
                    [{ vertex_indices := (v0.2 % 4294967296, v1.2 % 4294967296,
                        v2.2 % 4294967296) }] })

/-- The function `break_down_to_connected_components` (mesh_utils.cpp lines
27-67); `cc` is the value of `connected_vertex_components(combined_mesh)`, whose
code is not part of the sources. -/
def break_down_to_connected_components {P : Type} (combined_mesh : Mesh P)
    (cc : List (List Nat)) : Except Fault (List (Mesh P)) :=
  match break_down_components combined_mesh cc 0
      (List.replicate combined_mesh.vertices.length (0, 0))
      (List.replicate cc.length { triangles := [], vertices := [] }) with
  | .error e => .error e
  | .ok (index_map, mesh_components) =>
    break_down_triangles index_map combined_mesh.triangles mesh_components

/-- The writes to `index_map` made for the vertices of component `i` from
position `j` on: the vertex index and the pair stored for it. -/
def indexWrites (i : Nat) : Nat → List Nat → List (Nat × Nat × Nat)
  | _, [] => []
  | j, v :: rest => (v, (i, j)) :: indexWrites i (j + 1) rest

/-- The writes to `index_map` made for the components from index `i` on. -/
def allIndexWrites : Nat → List (List Nat) → List (Nat × Nat × Nat)
  | _, [] => []
  | i, component :: rest => indexWrites i 0 component ++ allIndexWrites (i + 1) rest

/-- An index map after a list of writes. -/
def applyIndexWrites (index_map : List (Nat × Nat)) (writes : List (Nat × Nat × Nat)) :
    List (Nat × Nat) :=
  writes.foldl (fun m w => m.set w.1 w.2) index_map

/-- The vertex indices of a triangle of a component mesh, translated back to
vertex indices of the combined mesh through the component. -/
def globalTriangle (component : List Nat) (triangle : MeshTriangle) :
    Option Nat × Option Nat × Option Nat :=
  (component[triangle.vertex_indices.1]?, component[triangle.vertex_indices.2.1]?,
    component[triangle.vertex_indices.2.2]?)

/-- A mesh of five vertices, named by the numbers `100` to `104`, with one
triangle on the vertices `0, 2, 4` and two on the vertices `1, 3`. -/
def twoPieceMesh : Mesh Nat where
  vertices := [100, 101, 102, 103, 104]
  triangles := [{ vertex_indices := (0, 2, 4) }, { vertex_indices := (3, 1, 3) },
                { vertex_indices := (4, 2, 0) }]

/-- The connected components of `twoPieceMesh`. -/
def twoPieceComponents : List (List Nat) := [[4, 0, 2], [1, 3]]

/-! ## Vector access -/

theorem vecAt_ok_iff {α : Type} (v : List α) (i : Nat) (x : α) :
    vecAt v i = .ok x ↔ v[i]? = some x := by
  unfold vecAt
  cases h : v[i]? <;> simp

theorem vecAt_ok_lt {α : Type} {v : List α} {i : Nat} {x : α}
    (h : vecAt v i = .ok x) : i < v.length := by
  rw [vecAt_ok_iff] at h
  exact (List.getElem?_eq_some.1 h).1

theorem vecAt_of_lt {α : Type} {v : List α} {i : Nat} (h : i < v.length) :
    vecAt v i = .ok v[i] := by
  rw [vecAt_ok_iff]
  exact List.getElem?_eq_getElem h

theorem multigoal.visitationAt_ok {State : Type} {solution : ATSolution State} {k : Nat}
    {v : Visitation} (h : visitationAt solution k = .ok v) :
    ∃ seg, solution[k]? = some seg ∧ seg.visitation = v := by
  unfold visitationAt at h
  split at h
  · rename_i seg hseg
    cases h
    exact ⟨seg, (vecAt_ok_iff _ _ _).1 hseg, rfl⟩
  · cases h

theorem multigoal.visitationAt_ok_lt {State : Type} {solution : ATSolution State} {k : Nat}
    {v : Visitation} (h : visitationAt solution k = .ok v) : k < solution.length := by
  obtain ⟨seg, hseg, _⟩ := visitationAt_ok h
  exact (List.getElem?_eq_some.1 hseg).1

/-! ## Replacement construction -/

/-- C1: on the tour of five segments and the pair `(0, 2)` the replacement list
that `AT2Opt::plan` builds makes an assertion of `check_replacements_validity`
fire: its second replacement covers the range `[2, 4]` and carries two
visitations. -/
theorem AT2Opt.plan_replacements_assertion_fires :
    (2 ≤ (lineTour 5).length ∧ 0 < 2 ∧ 2 < (lineTour 5).length) ∧
    AT2Opt.plan_replacements (lineTour 5) 0 2 =
      .ok [{ first_segment := 0, last_segment := 1, visitations := [⟨2, 0⟩, ⟨1, 0⟩] },
           { first_segment := 2, last_segment := 4, visitations := [⟨0, 0⟩, ⟨3, 0⟩] }] ∧
    AT2Opt.check_replacements_validity
      [{ first_segment := 0, last_segment := 1, visitations := [⟨2, 0⟩, ⟨1, 0⟩] },
       { first_segment := 2, last_segment := 4, visitations := [⟨0, 0⟩, ⟨3, 0⟩] }] = false := by
  refine ⟨by decide, rfl, by decide⟩

/-- C9: on the tour of three segments and the pair `(0, 2)` the construction of
the replacements reads the visitation of segment `3`, which does not exist: no
replacement list is produced. -/
theorem AT2Opt.plan_replacements_reads_past_end :
    (0 < 2 ∧ 2 < (lineTour 3).length) ∧
    visitationAt (lineTour 3) (2 + 1) = .error .outOfRange ∧
    AT2Opt.plan_replacements (lineTour 3) 0 2 = .error .outOfRange := by
  refine ⟨by decide, rfl, rfl⟩

/-- Every position named by the replacements that `AT2Opt::plan` builds is a
position of the tour, and for `i < j` no position is named twice. -/
theorem AT2Opt.plan_replacements_writes {State : Type} {solution : ATSolution State}
    {i j : Nat} {rs : List Replacement} (h : AT2Opt.plan_replacements solution i j = .ok rs) :
    (∀ w ∈ Replacement.writes rs, w.1 < solution.length) ∧
    (i < j → ((Replacement.writes rs).map Prod.fst).Nodup) := by
  unfold AT2Opt.plan_replacements at h
  split at h
  · -- adjacent
    rename_i hj
    subst hj
    split at h
    · cases h
    · rename_i vj hvj
      split at h
      · cases h
      · rename_i vi hvi
        have hjlt := visitationAt_ok_lt hvj
        split at h
        · rename_i h2
          split at h
          · cases h
          · cases h
            simp [Replacement.writes, List.enum, List.enumFrom]
            omega
        · cases h
          simp [Replacement.writes, List.enum, List.enumFrom]
          omega
  · rename_i hj
    split at h
    · cases h
    · rename_i vj hvj
      split at h
      · cases h
      · rename_i vi1 hvi1
        split at h
        · cases h
        · rename_i vi hvi
          have hjlt := visitationAt_ok_lt hvj
          have hi1lt := visitationAt_ok_lt hvi1
          split at h
          · split at h
            · cases h
            · rename_i vj1 hvj1
              have hj1lt := visitationAt_ok_lt hvj1
              cases h
              simp [Replacement.writes, List.enum, List.enumFrom]
              omega
          · cases h
            simp [Replacement.writes, List.enum, List.enumFrom]
            omega

/-- Reading the visitation of a position of the tour returns it. -/
theorem multigoal.visitationAt_of_lt {State : Type} {solution : ATSolution State} {k : Nat}
    (h : k < solution.length) : visitationAt solution k = .ok solution[k].visitation := by
  simp [visitationAt, vecAt_of_lt h]

/-- For an adjacent pair the replacement list is built and passes every
assertion of `check_replacements_validity`. -/
theorem AT2Opt.plan_replacements_valid_of_adjacent {State : Type} (solution : ATSolution State)
    (i : Nat) (h : i + 1 < solution.length) :
    ∃ rs, AT2Opt.plan_replacements solution i (i + 1) = .ok rs ∧
      AT2Opt.check_replacements_validity rs = true := by
  have hi : i < solution.length := by omega
  unfold AT2Opt.plan_replacements
  simp only [if_true, visitationAt_of_lt h, visitationAt_of_lt hi]
  by_cases h2 : i + 2 < solution.length
  · simp only [h2, if_true, visitationAt_of_lt h2]
    refine ⟨_, rfl, ?_⟩
    simp [AT2Opt.check_replacements_validity]
    omega
  · simp only [h2, if_false]
    refine ⟨_, rfl, ?_⟩
    simp [AT2Opt.check_replacements_validity]
    omega

/-- Writing to a position the value it already holds changes nothing. -/
theorem vecSet_of_getElem_eq_some {α : Type} (l : List α) (n : Nat) (a : α)
    (h : l[n]? = some a) : l.set n a = l := by
  apply List.ext_getElem?
  intro k
  by_cases hk : n = k
  · subst hk
    have hlt := (List.getElem?_eq_some.1 h).1
    rw [h]
    simp [hlt]
  · rw [List.getElem?_set_ne hk]

/-- Whenever the replacement list for `i < j` is built, writing its visitations
over their ranges exchanges the entries at positions `i` and `j` of the tour's
visitation sequence and changes nothing else. -/
theorem AT2Opt.plan_replacements_swap {State : Type} (solution : ATSolution State)
    (i j : Nat) (hij : i < j) (rs : List Replacement)
    (h : AT2Opt.plan_replacements solution i j = .ok rs) :
    Replacement.applyWrites (Replacement.writes rs) (solution.map fun seg => seg.visitation) =
      swapAt i j (solution.map fun seg => seg.visitation) := by
  have key : ∀ (k : Nat) (v : Visitation), visitationAt solution k = .ok v →
      (solution.map fun seg => seg.visitation)[k]? = some v := by
    intro k v hv
    obtain ⟨seg, hseg, rfl⟩ := visitationAt_ok hv
    simp [hseg]
  generalize (solution.map fun seg => seg.visitation) = vs at key ⊢
  unfold AT2Opt.plan_replacements at h
  split at h
  · rename_i hj
    subst hj
    split at h
    · cases h
    · rename_i vj hvj
      split at h
      · cases h
      · rename_i vi hvi
        have hj := key _ _ hvj
        have hi := key _ _ hvi
        split at h
        · split at h
          · cases h
          · rename_i vi2 hvi2
            have h2 := key _ _ hvi2
            cases h
            simp only [Replacement.applyWrites, Replacement.writes, List.enum, List.enumFrom,
              List.map_cons, List.map_nil, List.append_nil, List.foldl_cons, List.foldl_nil,
              swapAt, hi, hj, Nat.add_zero, Nat.zero_add, Nat.add_assoc, Nat.reduceAdd]
            apply vecSet_of_getElem_eq_some
            rw [List.getElem?_set_ne (by omega), List.getElem?_set_ne (by omega)]
            exact h2
        · cases h
          simp only [Replacement.applyWrites, Replacement.writes, List.enum, List.enumFrom,
            List.map_cons, List.map_nil, List.append_nil, List.foldl_cons, List.foldl_nil,
            swapAt, hi, hj, Nat.add_zero, Nat.zero_add]
  · rename_i hne
    split at h
    · cases h
    · rename_i vj hvj
      split at h
      · cases h
      · rename_i vi1 hvi1
        split at h
        · cases h
        · rename_i vi hvi
          have hj := key _ _ hvj
          have hi := key _ _ hvi
          have hi1 := key _ _ hvi1
          have hset1 : (vs.set i vj).set (i + 1) vi1 = vs.set i vj := by
            apply vecSet_of_getElem_eq_some
            rw [List.getElem?_set_ne (by omega)]
            exact hi1
          split at h
          · split at h
            · cases h
            · rename_i vj1 hvj1
              have hj1 := key _ _ hvj1
              cases h
              simp only [Replacement.applyWrites, Replacement.writes, List.enum, List.enumFrom,
                List.map_cons, List.map_nil, List.append_nil, List.foldl_cons, List.foldl_nil,
                List.cons_append, List.nil_append,
                swapAt, hi, hj, Nat.add_zero, Nat.zero_add, hset1]
              apply vecSet_of_getElem_eq_some
              rw [List.getElem?_set_ne (by omega), List.getElem?_set_ne (by omega)]
              exact hj1
          · cases h
            simp only [Replacement.applyWrites, Replacement.writes, List.enum, List.enumFrom,
              List.map_cons, List.map_nil, List.append_nil, List.foldl_cons, List.foldl_nil,
              List.cons_append, List.nil_append,
              swapAt, hi, hj, Nat.add_zero, Nat.zero_add, hset1]

/-- For `i < j < n` the replacement list is built and passes every assertion of
`check_replacements_validity` exactly when the pair is adjacent or `j` is the
position before the last one. -/
theorem AT2Opt.plan_replacements_valid_iff {State : Type} (solution : ATSolution State)
    (i j : Nat) (hij : i < j) (hj : j < solution.length) :
    (∃ rs, AT2Opt.plan_replacements solution i j = .ok rs ∧
      AT2Opt.check_replacements_validity rs = true) ↔
    (j = i + 1 ∨ j + 2 = solution.length) := by
  have hi : i < solution.length := by omega
  have hi1 : i + 1 < solution.length := by omega
  unfold AT2Opt.plan_replacements
  by_cases hadj : j = i + 1
  · subst hadj
    simp only [if_true, visitationAt_of_lt hj, visitationAt_of_lt hi, true_or, iff_true]
    by_cases h2 : i + 2 < solution.length
    · simp only [h2, if_true, visitationAt_of_lt h2]
      refine ⟨_, rfl, ?_⟩
      simp [AT2Opt.check_replacements_validity]
      omega
    · simp only [h2, if_false]
      refine ⟨_, rfl, ?_⟩
      simp [AT2Opt.check_replacements_validity]
      omega
  · have h2 : i + 2 < solution.length := by omega
    simp only [hadj, if_false, false_or, visitationAt_of_lt hj, visitationAt_of_lt hi,
      visitationAt_of_lt hi1, h2, if_true]
    by_cases hj1 : j + 1 < solution.length
    · simp only [visitationAt_of_lt hj1, Except.ok.injEq, exists_eq_left']
      simp [AT2Opt.check_replacements_validity]
      omega
    · have hnone : visitationAt solution (j + 1) = .error .outOfRange := by
        have : solution[j + 1]? = none := List.getElem?_eq_none (by omega)
        simp [visitationAt, vecAt, this]
      simp only [hnone]
      constructor
      · rintro ⟨rs, h, _⟩
        cases h
      · intro h
        omega

/-! ## Candidate evaluation with a failed connection -/

/-- C2: `farNearTour` is the initial tour built with a planner whose first two
calls succeed.  Evaluating the swap `(0, 1)` on it, the planner connects `0` to
goal `1` and then fails to connect goal `1` to goal `0`: position `0` of the tour
is overwritten although a required connection failed. -/
theorem AT2Opt.plan_candidate_overwrites_after_failure :
    AT2Opt.random_initial_solution threeCallPlanner 5 farNearTable [⟨0, 0⟩, ⟨1, 0⟩] 0 0 =
      .ok (farNearTour, 2) ∧
    (threeCallPlanner 2 (1 / 10) 0 10).1 = some [0, 10] ∧
    (threeCallPlanner 3 (1 / 10) 10 20).1 = none ∧
    AT2Opt.plan_candidate threeCallPlanner lineLength farNearTable 0 farNearTour 0 1 2 =
      .ok (nearNearTour, 4) ∧
    nearNearTour ≠ farNearTour := by
  refine ⟨rfl, rfl, rfl, rfl, by decide⟩

/-- C4: `farNearTour` chains from the start state `0` and the planner only
returns paths that run from the from-state to the goal state, yet after the swap
`(0, 1)` is evaluated with a failed second connection the tour no longer chains:
segment `0` ends at `10` and segment `1` starts at `20`. -/
theorem AT2Opt.plan_candidate_breaks_chain :
    PointToPointPlanner.connects threeCallPlanner ∧
    ATSolution.chains 0 farNearTour = true ∧
    AT2Opt.plan_candidate threeCallPlanner lineLength farNearTable 0 farNearTour 0 1 2 =
      .ok (nearNearTour, 4) ∧
    ATSolution.chains 0 nearNearTour = false := by
  refine ⟨?_, by decide, rfl, by decide⟩
  intro s t a b p h
  unfold threeCallPlanner at h
  split at h
  · cases h
    exact ⟨rfl, rfl⟩
  · cases h

/-- C6: no goal is visited twice in `farNearTour`, yet after the swap `(0, 1)` is
evaluated with a failed second connection both positions of the tour reference
goal `1`. -/
theorem AT2Opt.plan_candidate_revisits_goal :
    ATSolution.noRevisit farNearTour ∧
    AT2Opt.plan_candidate threeCallPlanner lineLength farNearTable 0 farNearTour 0 1 2 =
      .ok (nearNearTour, 4) ∧
    ¬ ATSolution.noRevisit nearNearTour := by
  refine ⟨?_, rfl, ?_⟩
  · unfold ATSolution.noRevisit
    decide
  · unfold ATSolution.noRevisit
    decide

/-! ## Goal tags of the shell planner's result -/

/-- C3: with two approaches, to goal `0` and to goal `1`, visited in that order,
`assembleFullPath` tags segment `1` with goal `0`, the goal of the first
approach, and not with goal `1`, the goal of `approaches[ordering[1]]`. -/
theorem ShellPathPlanner.assembleFullPath_tags_first_goal :
    ∃ result s,
      ShellPathPlanner.assembleFullPath (lineEnv true) [0, 1]
          [(0, [0, 10]), (1, [0, 20])] [0, 1] { segments_ := [] } [-5, 0, 10] () =
        .ok (result, s) ∧
      (result.segments_.map fun seg => seg.to_goal_id_) = [0, 0] ∧
      ([0, 1].map fun o => (([(0, [0, 10]), (1, [0, 20])] :
          List (Nat × PathGeometric Int)).map Prod.fst)[o]?) = [some 0, some 1] := by
  exact ⟨_, _, rfl, rfl, rfl⟩

/-! ## The computed replacements -/

/-- The entries computed for one replacement are, position by position and
visitation by visitation, an initial part of what the replacement names. -/
theorem AT2Opt.plan_visitations_prefix {σ State : Type} (ptp : PointToPointPlanner σ State)
    (table : GoalApproachTable State) (first_segment : Nat) (vs : List Visitation) :
    ∀ (vidx : Nat) (from_state : State) (s s1 : σ) (cs : List (NewApproachAt State)),
      AT2Opt.plan_visitations ptp table first_segment vs vidx from_state s = .ok (cs, s1) →
      (cs.map fun cr => (cr.index, cr.ga.visitation)) <+:
        ((vs.enumFrom vidx).map fun kv => (first_segment + kv.1, kv.2)) := by
  induction vs with
  | nil =>
    intro vidx from_state s s1 cs h
    simp only [AT2Opt.plan_visitations] at h
    cases h
    simp
  | cons viz rest ih =>
    intro vidx from_state s s1 cs h
    simp only [AT2Opt.plan_visitations] at h
    split at h
    · cases h
    · rename_i goal hgoal
      split at h
      · cases h
        simp
      · rename_i ptp_path s2 hptp
        split at h
        · cases h
        · rename_i more s3 hmore
          have := ih (vidx + 1) goal s2 s3 more hmore
          cases h
          simpa [List.enumFrom] using this

/-- The computed replacements of a candidate are, in order, a selection of what
its replacements name. -/
theorem AT2Opt.plan_computed_sublist {σ State : Type} (ptp : PointToPointPlanner σ State)
    (table : GoalApproachTable State) (start_state : State) (solution : ATSolution State)
    (rs : List Replacement) :
    ∀ (s s1 : σ) (cs : List (NewApproachAt State)),
      AT2Opt.plan_computed ptp table start_state solution rs s = .ok (cs, s1) →
      (cs.map fun cr => (cr.index, cr.ga.visitation)).Sublist (Replacement.writes rs) := by
  induction rs with
  | nil =>
    intro s s1 cs h
    simp only [AT2Opt.plan_computed] at h
    cases h
    simp [Replacement.writes]
  | cons repl rest ih =>
    intro s s1 cs h
    simp only [AT2Opt.plan_computed] at h
    split at h
    · cases h
    · rename_i from_state hfrom
      split at h
      · cases h
      · rename_i here s2 hhere
        split at h
        · cases h
        · rename_i more s3 hmore
          have h1 := (AT2Opt.plan_visitations_prefix ptp table repl.first_segment
            repl.visitations 0 from_state s s2 here hhere).sublist
          have h2 := ih s2 s3 more hmore
          cases h
          simp only [List.map_append, Replacement.writes, List.enum]
          exact h1.append h2

/-! ## Costs and overwriting -/

/-- The cost loop returns the two accumulators with the old and the new lengths
of the computed replacements added to them one by one, in order, provided their
positions are in the tour. -/
theorem AT2Opt.plan_costs_eq {C State : Type} [Zero C] [Add C]
    (length : PathGeometric State → C) (solution : ATSolution State) :
    ∀ (cs : List (NewApproachAt State)) (old_cost new_cost : C),
      (∀ cr ∈ cs, cr.index < solution.length) →
      AT2Opt.plan_costs length solution cs (old_cost, new_cost) =
        .ok (cs.foldl (fun acc cr => acc + AT2Opt.oldLength length solution cr) old_cost,
             cs.foldl (fun acc cr => acc + length cr.ga.approach_path) new_cost) := by
  intro cs
  induction cs with
  | nil => intro o n _; simp [AT2Opt.plan_costs]
  | cons cr rest ih =>
    intro o n h
    have hlt : cr.index < solution.length := h cr (List.mem_cons_self _ _)
    simp only [AT2Opt.plan_costs, vecAt_of_lt hlt]
    rw [ih _ _ (fun c hc => h c (List.mem_cons_of_mem _ hc))]
    simp only [List.foldl_cons, AT2Opt.oldLength, List.getElem?_eq_getElem hlt]

/-- The cost loop only returns when the positions of the computed replacements
are in the tour. -/
theorem AT2Opt.plan_costs_ok_lt {C State : Type} [Add C]
    (length : PathGeometric State → C) (solution : ATSolution State) :
    ∀ (cs : List (NewApproachAt State)) (acc res : C × C),
      AT2Opt.plan_costs length solution cs acc = .ok res →
      ∀ cr ∈ cs, cr.index < solution.length := by
  intro cs
  induction cs with
  | nil => intro _ _ _ cr hcr; simp at hcr
  | cons c rest ih =>
    intro acc res h cr hcr
    obtain ⟨o, n⟩ := acc
    simp only [AT2Opt.plan_costs] at h
    split at h
    · cases h
    · rename_i seg hseg
      rcases List.mem_cons.1 hcr with rfl | hmem
      · exact vecAt_ok_lt hseg
      · exact ih _ _ h cr hmem

/-- Overwriting never changes the number of segments. -/
theorem AT2Opt.plan_overwrite_length {State : Type} :
    ∀ (cs : List (NewApproachAt State)) (solution solution1 : ATSolution State),
      AT2Opt.plan_overwrite solution cs = .ok solution1 →
      solution1.length = solution.length := by
  intro cs
  induction cs with
  | nil =>
    intro solution solution1 h
    simp only [AT2Opt.plan_overwrite, Except.ok.injEq] at h
    rw [h]
  | cons c rest ih =>
    intro solution solution1 h
    simp only [AT2Opt.plan_overwrite] at h
    split at h
    · simpa using ih _ _ h
    · cases h

/-- Evaluating a candidate never changes the number of segments, so the bounds of
the two `for` loops are the same at every test. -/
theorem AT2Opt.plan_candidate_length {σ C State : Type} [Zero C] [Add C] [LT C]
    [∀ a b : C, Decidable (a < b)]
    (ptp : PointToPointPlanner σ State) (length : PathGeometric State → C)
    (table : GoalApproachTable State) (start_state : State)
    {solution solution1 : ATSolution State} {i j : Nat} {s s1 : σ}
    (h : AT2Opt.plan_candidate ptp length table start_state solution i j s =
      .ok (solution1, s1)) :
    solution1.length = solution.length := by
  unfold AT2Opt.plan_candidate at h
  split at h
  · cases h
  · split at h
    · cases h
    · split at h
      · cases h
      · split at h
        · split at h
          · cases h
          · rename_i sol2 hsol2
            simp only [Except.ok.injEq, Prod.mk.injEq] at h
            rw [← h.1]
            exact AT2Opt.plan_overwrite_length _ _ _ hsol2
        · simp only [Except.ok.injEq, Prod.mk.injEq] at h
          rw [← h.1]

/-- Overwriting at pairwise distinct positions of the tour succeeds, keeps the
number of segments, puts every new approach at its position and leaves all other
positions as they were. -/
theorem AT2Opt.plan_overwrite_spec {State : Type} :
    ∀ (cs : List (NewApproachAt State)) (solution : ATSolution State),
      (cs.map fun cr => cr.index).Nodup →
      (∀ cr ∈ cs, cr.index < solution.length) →
      ∃ solution1, AT2Opt.plan_overwrite solution cs = .ok solution1 ∧
        solution1.length = solution.length ∧
        (∀ cr ∈ cs, solution1[cr.index]? = some cr.ga) ∧
        (∀ k, k ∉ (cs.map fun cr => cr.index) → solution1[k]? = solution[k]?) := by
  intro cs
  induction cs with
  | nil => intro solution _ _; exact ⟨solution, rfl, rfl, by simp, by simp⟩
  | cons c rest ih =>
    intro solution hnd hlt
    rw [List.map_cons, List.nodup_cons] at hnd
    have hc : c.index < solution.length := hlt c (List.mem_cons_self _ _)
    obtain ⟨sol1, h1, hlen, hin, hout⟩ := ih (solution.set c.index c.ga) hnd.2
      (fun cr hcr => by simpa using hlt cr (List.mem_cons_of_mem _ hcr))
    refine ⟨sol1, by simp [AT2Opt.plan_overwrite, hc, h1], by simpa using hlen, ?_, ?_⟩
    · intro cr hcr
      rcases List.mem_cons.1 hcr with rfl | hmem
      · rw [hout _ hnd.1]
        simp [hc]
      · exact hin cr hmem
    · intro k hk
      simp only [List.map_cons, List.mem_cons, not_or] at hk
      rw [hout k hk.2]
      exact List.getElem?_set_ne (Ne.symm hk.1)

/-- The positions of the computed replacements of a candidate with `i < j` are
pairwise distinct. -/
theorem AT2Opt.plan_computed_nodup {σ State : Type} (ptp : PointToPointPlanner σ State)
    (table : GoalApproachTable State) (start_state : State) {solution : ATSolution State}
    {i j : Nat} (hij : i < j) {rs : List Replacement}
    (hrs : AT2Opt.plan_replacements solution i j = .ok rs) {s s1 : σ}
    {cs : List (NewApproachAt State)}
    (hcs : AT2Opt.plan_computed ptp table start_state solution rs s = .ok (cs, s1)) :
    (cs.map fun cr => cr.index).Nodup := by
  have hsub := (AT2Opt.plan_computed_sublist ptp table start_state solution rs s s1 cs hcs).map
    Prod.fst
  rw [List.map_map] at hsub
  exact ((AT2Opt.plan_replacements_writes hrs).2 hij).sublist hsub

/-- The positions of the computed replacements of a candidate are positions of
the tour. -/
theorem AT2Opt.plan_computed_lt {σ State : Type} (ptp : PointToPointPlanner σ State)
    (table : GoalApproachTable State) (start_state : State) {solution : ATSolution State}
    {i j : Nat} {rs : List Replacement}
    (hrs : AT2Opt.plan_replacements solution i j = .ok rs) {s s1 : σ}
    {cs : List (NewApproachAt State)}
    (hcs : AT2Opt.plan_computed ptp table start_state solution rs s = .ok (cs, s1)) :
    ∀ cr ∈ cs, cr.index < solution.length := by
  intro cr hcr
  have hsub := AT2Opt.plan_computed_sublist ptp table start_state solution rs s s1 cs hcs
  have hmem : (cr.index, cr.ga.visitation) ∈ Replacement.writes rs :=
    hsub.subset (List.mem_map_of_mem (fun cr => (cr.index, cr.ga.visitation)) hcr)
  exact (AT2Opt.plan_replacements_writes hrs).1 _ hmem

/-- The evaluation of a candidate `(i, j)` with `i < j` in terms of its computed
replacements: the tour is overwritten at their positions when the sum of the new
lengths is below the sum of the old lengths, both added one by one from zero, and
it is returned unchanged otherwise. -/
theorem AT2Opt.plan_candidate_eq {σ C State : Type} [Zero C] [Add C] [LT C]
    [∀ a b : C, Decidable (a < b)]
    (ptp : PointToPointPlanner σ State) (length : PathGeometric State → C)
    (table : GoalApproachTable State) (start_state : State) {solution : ATSolution State}
    {i j : Nat} (hij : i < j) {rs : List Replacement}
    (hrs : AT2Opt.plan_replacements solution i j = .ok rs) {s s1 : σ}
    {computed : List (NewApproachAt State)}
    (hcomputed : AT2Opt.plan_computed ptp table start_state solution rs s = .ok (computed, s1)) :
    (AT2Opt.newCost length computed < AT2Opt.oldCost length solution computed →
      ∃ solution1,
        AT2Opt.plan_candidate ptp length table start_state solution i j s =
          .ok (solution1, s1) ∧
        solution1.length = solution.length ∧
        (∀ cr ∈ computed, solution1[cr.index]? = some cr.ga) ∧
        (∀ k, k ∉ (computed.map fun cr => cr.index) → solution1[k]? = solution[k]?) ∧
        AT2Opt.plan_overwrite solution computed = .ok solution1) ∧
    (¬ AT2Opt.newCost length computed < AT2Opt.oldCost length solution computed →
      AT2Opt.plan_candidate ptp length table start_state solution i j s =
        .ok (solution, s1)) := by
  have hnd := AT2Opt.plan_computed_nodup ptp table start_state hij hrs hcomputed
  have hlt := AT2Opt.plan_computed_lt ptp table start_state hrs hcomputed
  have hcost : AT2Opt.plan_costs length solution computed (0, 0) =
      .ok (AT2Opt.oldCost length solution computed, AT2Opt.newCost length computed) :=
    AT2Opt.plan_costs_eq length solution computed 0 0 hlt
  refine ⟨?_, ?_⟩
  · intro hcheaper
    obtain ⟨sol1, h1, hlen, hin, hout⟩ := AT2Opt.plan_overwrite_spec computed solution hnd hlt
    refine ⟨sol1, ?_, hlen, hin, hout, h1⟩
    unfold AT2Opt.plan_candidate
    simp only [hrs, hcomputed, hcost, gt_iff_lt, hcheaper, if_true, h1]
  · intro hnot
    unfold AT2Opt.plan_candidate
    simp only [hrs, hcomputed, hcost, gt_iff_lt, hnot, if_false]

/-! ## The model of `double` -/

/-- The bisection finds the position of the highest set binary digit. -/
theorem Double.highestBit_spec (k : Nat) :
    ∀ (n b : Nat), 2 ^ b ≤ k → k < 2 ^ (b + 2 ^ n) →
      2 ^ Double.highestBit k n b ≤ k ∧ k < 2 ^ (Double.highestBit k n b + 1) := by
  intro n
  induction n with
  | zero =>
    intro b hlo hhi
    exact ⟨hlo, by simpa using hhi⟩
  | succ n ih =>
    intro b hlo hhi
    unfold Double.highestBit
    rw [Nat.one_shiftLeft, Nat.shiftRight_eq_div_pow]
    by_cases hlt : k < 2 ^ (b + 2 ^ n)
    · rw [if_pos (Nat.div_eq_of_lt hlt)]
      exact ih b hlo hlt
    · have hne : k / 2 ^ (b + 2 ^ n) ≠ 0 := by
        intro h0
        have := (Nat.div_eq_zero_iff (Nat.pos_pow_of_pos _ (by decide))).1 h0
        exact hlt this
      rw [if_neg hne]
      refine ih (b + 2 ^ n) (Nat.le_of_not_lt hlt) ?_
      have e : b + 2 ^ n + 2 ^ n = b + 2 ^ (n + 1) := by rw [pow_succ]; omega
      rw [e]
      exact hhi

/-- The number of binary digits of a positive `k` below `2 ^ 4096`. -/
theorem Double.bitLength_spec (k : Nat) (hpos : 0 < k) (hlt : k < 2 ^ 4096) :
    2 ^ (Double.bitLength k - 1) ≤ k ∧ k < 2 ^ Double.bitLength k := by
  unfold Double.bitLength
  rw [if_neg (by omega)]
  have h12 : 0 + 2 ^ 12 = 4096 := by norm_num
  have := Double.highestBit_spec k 12 0 (by simpa using hpos) (by rw [h12]; exact hlt)
  simpa using this

/-- A number whose binary digits from position `p` on are all zero is below
`2 ^ q` for every `q ≥ p`. -/
theorem Double.lt_pow_of_shiftRight (k p q : Nat) (hpq : p ≤ q) (h : k >>> p = 0) :
    k < 2 ^ q := by
  rw [Nat.shiftRight_eq_div_pow] at h
  have hp : k < 2 ^ p := (Nat.div_eq_zero_iff (Nat.pos_pow_of_pos _ (by decide))).1 h
  exact lt_of_lt_of_le hp (Nat.pow_le_pow_right (by decide) hpq)

/-- Rounding leaves a magnitude of at most 53 significant binary digits below
`2 ^ 1024` (`2 ^ 2098` units) as it is. -/
theorem Double.round_exact (negative : Bool) (m e : Nat) (hm : m < 2 ^ 53)
    (hover : (m <<< e) >>> 2098 = 0) :
    Double.round negative (m <<< e) = .finite negative (m <<< e) := by
  rw [Nat.shiftLeft_eq] at hover ⊢
  by_cases hm0 : m = 0
  · subst hm0
    simp [Double.round, Double.bitLength]
  · have hpos : 0 < m * 2 ^ e :=
      Nat.mul_pos (Nat.pos_of_ne_zero hm0) (Nat.pos_pow_of_pos _ (by decide))
    have h4096 := Double.lt_pow_of_shiftRight _ 2098 4096 (by decide) hover
    obtain ⟨hlo, -⟩ := Double.bitLength_spec _ hpos h4096
    have hke : m * 2 ^ e < 2 ^ (53 + e) := by
      rw [pow_add]
      exact Nat.mul_lt_mul_of_pos_right hm (Nat.pos_pow_of_pos _ (by decide))
    have hble : Double.bitLength (m * 2 ^ e) - 1 < 53 + e :=
      (Nat.pow_lt_pow_iff_right (by decide)).1 (lt_of_le_of_lt hlo hke)
    have hshift : Double.bitLength (m * 2 ^ e) - 53 ≤ e := by omega
    unfold Double.round
    dsimp only
    generalize Double.bitLength (m * 2 ^ e) - 53 = shift at hshift ⊢
    have hk : m * 2 ^ e = m * 2 ^ (e - shift) * 2 ^ shift := by
      rw [Nat.mul_assoc, ← pow_add, Nat.sub_add_cancel hshift]
    have hq : (m * 2 ^ e) >>> shift = m * 2 ^ (e - shift) := by
      rw [Nat.shiftRight_eq_div_pow]
      nth_rewrite 1 [hk]
      exact Nat.mul_div_cancel _ (Nat.pos_pow_of_pos _ (by decide))
    have hqs : (m * 2 ^ (e - shift)) <<< shift = m * 2 ^ e := by
      rw [Nat.shiftLeft_eq, ← hk]
    simp only [hq, hqs, Nat.sub_self]
    by_cases hs : shift = 0
    · rw [if_pos hs, hqs, if_pos hover]
    · have hhalf : 0 < (1 <<< shift) / 2 := by
        rw [Nat.one_shiftLeft]
        obtain ⟨t, rfl⟩ : ∃ t, shift = t + 1 := ⟨shift - 1, by omega⟩
        rw [pow_succ, Nat.mul_div_cancel _ (by decide)]
        exact Nat.pos_pow_of_pos _ (by decide)
      have hcond : ¬ ((1 <<< shift) / 2 < 0 ∨
          (0 = (1 <<< shift) / 2 ∧ m * 2 ^ (e - shift) % 2 = 1)) := by
        intro h
        rcases h with h | h
        · omega
        · omega
      rw [if_neg hs, if_neg hcond, hqs, if_pos hover]

/-- A number below `2 ^ p`, moved up by `e` binary digits, has no binary digit
from position `e + p` on. -/
theorem Double.shiftRight_shiftLeft (c e p : Nat) (h : c < 2 ^ p) :
    (c <<< e) >>> (e + p) = 0 := by
  rw [Nat.shiftLeft_eq, Nat.shiftRight_add, Nat.shiftRight_eq_div_pow (c * 2 ^ e),
    Nat.mul_div_cancel _ (Nat.pos_pow_of_pos _ (by decide)), Nat.shiftRight_eq_div_pow]
  exact Nat.div_eq_of_lt h

/-- A number without binary digits from position `p` on has none from any later
position on. -/
theorem Double.shiftRight_eq_zero_of_le (k p q : Nat) (hpq : p ≤ q) (h : k >>> p = 0) :
    k >>> q = 0 := by
  rw [Nat.shiftRight_eq_div_pow]
  exact Nat.div_eq_of_lt (Double.lt_pow_of_shiftRight k p q hpq h)

/-- Moving up by `e` binary digits distributes over a sum. -/
theorem Double.shiftLeft_add (a b e : Nat) : a <<< e + b <<< e = (a + b) <<< e := by
  rw [Nat.shiftLeft_eq, Nat.shiftLeft_eq, Nat.shiftLeft_eq, Nat.add_mul]

/-- The sum of two finite doubles of the same sign is their exact sum, rounded. -/
theorem Double.add_finite (negative : Bool) (ka kb : Nat) :
    Double.finite negative ka + Double.finite negative kb =
      Double.round negative (ka + kb) := by
  show Double.add _ _ = _
  simp [Double.add]

/-- A whole number below `2 ^ 53` is a double. -/
theorem Double.ofNat_exact (c : Nat) (hc : c < 2 ^ 53) :
    Double.ofNat c = .finite false (c <<< 1074) :=
  Double.round_exact false c 1074 hc
    (Double.shiftRight_eq_zero_of_le _ (1074 + 53) 2098 (by decide)
      (Double.shiftRight_shiftLeft c 1074 53 hc))

/-- Adding two whole numbers whose sum is below `2 ^ 53` is exact in doubles. -/
theorem Double.ofNat_add_ofNat (a b : Nat) (h : a + b < 2 ^ 53) :
    Double.ofNat a + Double.ofNat b = Double.ofNat (a + b) := by
  rw [Double.ofNat_exact a (by omega), Double.ofNat_exact b (by omega)]
  rw [Double.add_finite, Double.shiftLeft_add]
  unfold Double.ofNat
  rfl

/-- Some sums and comparisons of doubles: `1 + 2 ^ (-53)` is a tie and rounds to
the even neighbour `1`; `1 + 3 * 2 ^ (-53)` is a tie and rounds to the even
neighbour `1 + 2 ^ (-51)`; `2 ^ 53 + 1` rounds to `2 ^ 53`; the sum of the
largest double and half the distance to its neighbour is an infinity; opposite
values add up to `+0`; the smallest doubles add without rounding; `-0` is not
below `+0`; an infinity minus itself is a NaN, which is below nothing. -/
theorem Double.add_examples :
    Double.ofNat 1 + Double.finite false (1 <<< 1021) = Double.ofNat 1 ∧
    Double.ofNat 1 + Double.finite false (3 <<< 1021) =
      Double.finite false ((1 <<< 1074) + (1 <<< 1023)) ∧
    Double.ofNat 9007199254740992 + Double.ofNat 1 = Double.ofNat 9007199254740992 ∧
    Double.finite false (9007199254740991 <<< 2045) + Double.finite false (1 <<< 2044) =
      Double.infinite false ∧
    Double.ofNat 5 + Double.finite true (5 <<< 1074) = Double.finite false 0 ∧
    Double.finite false 1 + Double.finite false 2 = Double.finite false 3 ∧
    ¬ (Double.finite true 0 < Double.finite false 0) ∧
    Double.infinite false + Double.infinite true = Double.nan ∧
    ¬ (Double.nan < Double.infinite false) := by
  decide

/-- When every connection of a candidate succeeds, the computed replacements
cover exactly the positions and visitations its replacements name. -/
theorem AT2Opt.plan_computed_eq_writes {σ State : Type} (ptp : PointToPointPlanner σ State)
    (table : GoalApproachTable State) (start_state : State) (solution : ATSolution State)
    {rs : List Replacement} {s s1 : σ} {cs : List (NewApproachAt State)}
    (hcs : AT2Opt.plan_computed ptp table start_state solution rs s = .ok (cs, s1))
    (hall : AT2Opt.allConnected rs cs) :
    (cs.map fun cr => (cr.index, cr.ga.visitation)) = Replacement.writes rs :=
  (AT2Opt.plan_computed_sublist ptp table start_state solution rs s s1 cs hcs).eq_of_length
    (by simpa [AT2Opt.allConnected] using hall)

/-- C10, amended: when all connections of a candidate `(i, j)` with `i < j`
succeed, the computed replacements are one newly planned approach for each named
position.  If the sum of their lengths compares strictly lower than the sum of
the lengths of the tour's paths at those positions, both sums being added one by
one in the order of the positions, starting from zero, in the arithmetic of the
length type (for the program: in doubles, with the comparison of doubles), the
candidate evaluation returns the tour with exactly those positions overwritten
by the new approaches; otherwise it returns the tour unchanged. -/
theorem AT2Opt.plan_candidate_accepts_iff_cheaper {σ C State : Type} [Zero C] [Add C] [LT C]
    [∀ a b : C, Decidable (a < b)]
    (ptp : PointToPointPlanner σ State) (length : PathGeometric State → C)
    (table : GoalApproachTable State) (start_state : State) (solution : ATSolution State)
    (i j : Nat) (hij : i < j) (rs : List Replacement)
    (hrs : AT2Opt.plan_replacements solution i j = .ok rs) (s s1 : σ)
    (computed : List (NewApproachAt State))
    (hcomputed : AT2Opt.plan_computed ptp table start_state solution rs s = .ok (computed, s1))
    (hall : AT2Opt.allConnected rs computed) :
    (computed.map fun cr => (cr.index, cr.ga.visitation)) = Replacement.writes rs ∧
    (AT2Opt.newCost length computed < AT2Opt.oldCost length solution computed →
      ∃ solution1,
        AT2Opt.plan_candidate ptp length table start_state solution i j s =
          .ok (solution1, s1) ∧
        solution1.length = solution.length ∧
        (∀ cr ∈ computed, solution1[cr.index]? = some cr.ga) ∧
        (∀ k, k ∉ (computed.map fun cr => cr.index) → solution1[k]? = solution[k]?)) ∧
    (¬ AT2Opt.newCost length computed < AT2Opt.oldCost length solution computed →
      AT2Opt.plan_candidate ptp length table start_state solution i j s =
        .ok (solution, s1)) := by
  have heq := AT2Opt.plan_computed_eq_writes ptp table start_state solution hcomputed hall
  obtain ⟨hacc, hrej⟩ := AT2Opt.plan_candidate_eq ptp length table start_state hij hrs hcomputed
  refine ⟨heq, ?_, hrej⟩
  intro hcheaper
  obtain ⟨sol1, hrun, hlen, hin, hout, -⟩ := hacc hcheaper
  exact ⟨sol1, hrun, hlen, hin, hout⟩

/-- The witness of C10, amended: on `farNearTour` with a planner that never
fails, both connections of the swap `(0, 1)` succeed and the new lengths `10` and
`10` add up to less than the old lengths `20` and `10`, in doubles, so both
positions are overwritten. -/
theorem AT2Opt.plan_candidate_accepts_iff_cheaper_witness :
    AT2Opt.plan_replacements farNearTour 0 1 =
      .ok [{ first_segment := 0, last_segment := 1, visitations := [⟨1, 0⟩, ⟨0, 0⟩] }] ∧
    AT2Opt.plan_computed straightPlanner farNearTable 0 farNearTour
        [{ first_segment := 0, last_segment := 1, visitations := [⟨1, 0⟩, ⟨0, 0⟩] }] () =
      .ok ([{ index := 0, ga := { visitation := ⟨1, 0⟩, approach_path := [0, 10] } },
            { index := 1, ga := { visitation := ⟨0, 0⟩, approach_path := [10, 20] } }], ()) ∧
    ∃ solution1,
      AT2Opt.plan_candidate straightPlanner lineLength farNearTable 0 farNearTour 0 1 () =
        .ok (solution1, ()) ∧
      solution1.length = farNearTour.length ∧
      (∀ cr ∈ ([{ index := 0, ga := { visitation := ⟨1, 0⟩, approach_path := [0, 10] } },
                { index := 1, ga := { visitation := ⟨0, 0⟩, approach_path := [10, 20] } }] :
            List (NewApproachAt Int)),
        solution1[cr.index]? = some cr.ga) ∧
      (∀ k, k ∉ (([{ index := 0, ga := { visitation := ⟨1, 0⟩, approach_path := [0, 10] } },
                   { index := 1, ga := { visitation := ⟨0, 0⟩, approach_path := [10, 20] } }] :
            List (NewApproachAt Int)).map fun cr => cr.index) →
        solution1[k]? = farNearTour[k]?) :=
  ⟨rfl, rfl,
    (AT2Opt.plan_candidate_accepts_iff_cheaper straightPlanner lineLength farNearTable 0
      farNearTour 0 1 (by decide) _ rfl () () _ rfl rfl).2.1 (by decide)⟩

/-- C10 as stated fails: on `tieTour`, whose paths have the lengths `2 ^ 53` and
`1`, both connections of the swap `(0, 1)` succeed and the new paths have the
lengths `2 ^ 53 - 1` and `1`.  The summed length of the new paths, `2 ^ 53`, is
strictly lower than the summed length of the original paths, `2 ^ 53 + 1`, but
in doubles both sums are `2 ^ 53` and the tour is left unchanged. -/
theorem AT2Opt.plan_candidate_keeps_longer_tour :
    AT2Opt.plan_replacements tieTour 0 1 =
      .ok [{ first_segment := 0, last_segment := 1, visitations := [⟨1, 0⟩, ⟨0, 0⟩] }] ∧
    AT2Opt.plan_computed straightPlanner tieTable 0 tieTour
        [{ first_segment := 0, last_segment := 1, visitations := [⟨1, 0⟩, ⟨0, 0⟩] }] () =
      .ok ([{ index := 0,
              ga := { visitation := ⟨1, 0⟩, approach_path := [0, 9007199254740991] } },
            { index := 1,
              ga := { visitation := ⟨0, 0⟩,
                      approach_path := [9007199254740991, 9007199254740992] } }], ()) ∧
    tieTour.map (fun seg => lineLength seg.approach_path) =
      [Double.ofNat 9007199254740992, Double.ofNat 1] ∧
    [lineLength [0, 9007199254740991], lineLength [9007199254740991, 9007199254740992]] =
      [Double.ofNat 9007199254740991, Double.ofNat 1] ∧
    AT2Opt.allConnected
      [{ first_segment := 0, last_segment := 1, visitations := [⟨1, 0⟩, ⟨0, 0⟩] }]
      ([{ index := 0,
          ga := { visitation := ⟨1, 0⟩, approach_path := [0, 9007199254740991] } },
        { index := 1,
          ga := { visitation := ⟨0, 0⟩,
                  approach_path := [9007199254740991, 9007199254740992] } }] :
        List (NewApproachAt Int)) ∧
    AT2Opt.newCost (AT2Opt.lengthUnits lineLength)
        ([{ index := 0,
            ga := { visitation := ⟨1, 0⟩, approach_path := [0, 9007199254740991] } },
          { index := 1,
            ga := { visitation := ⟨0, 0⟩,
                    approach_path := [9007199254740991, 9007199254740992] } }] :
          List (NewApproachAt Int)) <
      AT2Opt.oldCost (AT2Opt.lengthUnits lineLength) tieTour
        ([{ index := 0,
            ga := { visitation := ⟨1, 0⟩, approach_path := [0, 9007199254740991] } },
          { index := 1,
            ga := { visitation := ⟨0, 0⟩,
                    approach_path := [9007199254740991, 9007199254740992] } }] :
          List (NewApproachAt Int)) ∧
    Double.ofNat 9007199254740991 + Double.ofNat 1 = Double.ofNat 9007199254740992 ∧
    Double.ofNat 9007199254740992 + Double.ofNat 1 = Double.ofNat 9007199254740992 ∧
    AT2Opt.plan_candidate straightPlanner lineLength tieTable 0 tieTour 0 1 () =
      .ok (tieTour, ()) := by
  refine ⟨rfl, rfl, by decide, by decide, rfl, by decide, by decide, by decide, rfl⟩

/-! ## Empty results -/

/-- C7: `ShellPathPlanner::plan` returns a result with no segments when
`planApproaches` yields no approach, and when `planFirstApproach`, called on the
first ordered approach, returns no path. -/
theorem ShellPathPlanner.plan_empty_result {σ Goal State : Type}
    (env : ShellPathPlanner.Env σ Goal State) (start : State) (goals : List Goal) (s : σ) :
    (∀ s1, ShellPathPlanner.planApproaches env goals s = .ok ([], s1) →
      ShellPathPlanner.plan env start goals s = .ok ({ segments_ := [] }, s1)) ∧
    (∀ approaches s1 ordering s2 o_0 approach_0 s3,
      ShellPathPlanner.planApproaches env goals s = .ok (approaches, s1) →
      approaches ≠ [] →
      env.computeApproachOrdering s1 start goals approaches = (ordering, s2) →
      vecAt ordering 0 = .ok o_0 →
      vecAt approaches o_0 = .ok approach_0 →
      ShellPathPlanner.planFirstApproach env start approach_0.2 s2 = .ok (none, s3) →
      ShellPathPlanner.plan env start goals s = .ok ({ segments_ := [] }, s3)) := by
  constructor
  · intro s1 h
    simp [ShellPathPlanner.plan, h]
  · intro approaches s1 ordering s2 o_0 approach_0 s3 h hne hord ho ha hfirst
    have hemp : approaches.isEmpty = false := by
      cases approaches with
      | nil => exact absurd rfl hne
      | cons a as => rfl
    simp [ShellPathPlanner.plan, h, hemp, hord, ho, ha, hfirst]

/-- The witness of C7: three goals on the integer line whose approaches are all
found, and a start state from which `state_to_state` fails. -/
theorem ShellPathPlanner.plan_empty_result_witness :
    ShellPathPlanner.planApproaches (lineEnv false) [0, 1, 2] () =
      .ok ([(0, [0, 10]), (1, [0, 20]), (2, [0, 30])], ()) ∧
    ShellPathPlanner.planFirstApproach (lineEnv false) (-5) [0, 10] () = .ok (none, ()) ∧
    ShellPathPlanner.plan (lineEnv false) (-5) [0, 1, 2] () = .ok ({ segments_ := [] }, ()) :=
  ⟨rfl, rfl,
    (ShellPathPlanner.plan_empty_result (lineEnv false) (-5) [0, 1, 2] ()).2
      [(0, [0, 10]), (1, [0, 20]), (2, [0, 30])] () [0, 1, 2] () 0 (0, [0, 10]) ()
      rfl (by decide) rfl rfl rfl rfl⟩

/-- With a planner that fails on every call the loop of `random_initial_solution`
leaves the tour as it is. -/
theorem AT2Opt.random_initial_solution_loop_all_fail {σ State : Type}
    (ptp : PointToPointPlanner σ State) (max_time : ℚ) (table : GoalApproachTable State)
    (start_state : State) (hfail : ∀ s t a b, (ptp s t a b).1 = none) :
    ∀ (order : List Visitation) (s : σ),
      (∀ v ∈ order, ∃ st, tableState table v = .ok st) →
      ∃ s1, AT2Opt.random_initial_solution_loop ptp max_time table start_state order [] s =
        .ok ([], s1) := by
  intro order
  induction order with
  | nil => intro s _; exact ⟨s, rfl⟩
  | cons v rest ih =>
    intro s horder
    obtain ⟨st, hst⟩ := horder v (List.mem_cons_self _ _)
    have hcall := hfail s max_time start_state st
    obtain ⟨s1, h1⟩ := ih (ptp s max_time start_state st).2
      (fun w hw => horder w (List.mem_cons_of_mem _ hw))
    refine ⟨s1, ?_⟩
    rcases hp : ptp s max_time start_state st with ⟨r, s2⟩
    rw [hp] at hcall h1
    simp only at hcall h1
    subst hcall
    simp [AT2Opt.random_initial_solution_loop, ATSolution.getLastState, hst, hp, h1]

/-- The local-search loop on the empty tour evaluates no candidate: it returns
the empty tour and the planner state it was given. -/
theorem AT2Opt.plan_search_nil {σ C State : Type} [Zero C] [Add C] [LT C]
    [∀ a b : C, Decidable (a < b)]
    (ptp : PointToPointPlanner σ State) (length : PathGeometric State → C)
    (table : GoalApproachTable State) (start_state : State) (s : σ) :
    ∀ rounds, AT2Opt.plan_search ptp length table start_state rounds [] s = .ok ([], s) := by
  intro rounds
  induction rounds with
  | zero => rfl
  | succ n ih => simp [AT2Opt.plan_search, AT2Opt.plan_for_i, ih]

/-- C8: if the point-to-point planner fails on every call, then for every table
and every order of visitations of that table `random_initial_solution` returns a
tour with no segments, the local-search loop on it returns without evaluating a
candidate, and `AT2Opt::plan` returns a result with no segments. -/
theorem AT2Opt.plan_empty_when_planner_fails {σ C State : Type} [Zero C] [Add C] [LT C]
    [∀ a b : C, Decidable (a < b)]
    (ptp : PointToPointPlanner σ State) (length : PathGeometric State → C)
    (max_time : ℚ) (table : GoalApproachTable State) (order : List Visitation)
    (start_state : State) (s : σ)
    (hfail : ∀ s t a b, (ptp s t a b).1 = none)
    (horder : ∀ v ∈ order, ∃ st, tableState table v = .ok st) :
    ∃ s1,
      AT2Opt.random_initial_solution ptp max_time table order start_state s = .ok ([], s1) ∧
      (∀ rounds,
        AT2Opt.plan_search ptp length table start_state rounds [] s1 = .ok ([], s1)) ∧
      (∀ rounds,
        AT2Opt.plan ptp length max_time table order rounds start_state s = .ok ([], s1)) := by
  obtain ⟨s1, h1⟩ := AT2Opt.random_initial_solution_loop_all_fail ptp max_time table
    start_state hfail order s horder
  refine ⟨s1, h1, AT2Opt.plan_search_nil ptp length table start_state s1, ?_⟩
  intro rounds
  have h1' : AT2Opt.random_initial_solution ptp max_time table order start_state s =
      .ok ([], s1) := h1
  simp [AT2Opt.plan, h1', AT2Opt.plan_search_nil ptp length table start_state s1 rounds,
    ATSolution.toMultiGoalResult]

/-- The witness of C8: the two goals of `farNearTable` and a planner that fails
on every call. -/
theorem AT2Opt.plan_empty_when_planner_fails_witness :
    ∃ s1,
      AT2Opt.random_initial_solution failingPlanner 5 farNearTable [⟨0, 0⟩, ⟨1, 0⟩] 0 () =
        .ok ([], s1) ∧
      (∀ rounds,
        AT2Opt.plan_search failingPlanner lineLength farNearTable 0 rounds [] s1 =
          .ok ([], s1)) ∧
      (∀ rounds,
        AT2Opt.plan failingPlanner lineLength 5 farNearTable [⟨0, 0⟩, ⟨1, 0⟩] rounds 0 () =
          .ok ([], s1)) :=
  AT2Opt.plan_empty_when_planner_fails failingPlanner lineLength 5 farNearTable
    [⟨0, 0⟩, ⟨1, 0⟩] 0 () (fun _ _ _ _ => rfl)
    (by
      intro v hv
      simp only [List.mem_cons, List.mem_singleton, List.not_mem_nil, or_false] at hv
      rcases hv with rfl | rfl
      · exact ⟨20, rfl⟩
      · exact ⟨10, rfl⟩)

/-! ## Paths assembled by the shell planner -/

/-- C11: called with an empty `goal_to_goal` path on approaches `a` and `b` whose
goals exist, `retreat_move_probe` returns, state by state, the reverse of `a`'s
approach path, then the shell path between the two goals, then `b`'s approach
path; that path starts at the last state of `a`'s approach path and ends at the
last state of `b`'s approach path. -/
theorem ShellPathPlanner.retreat_move_probe_spec {σ Goal State : Type}
    (env : ShellPathPlanner.Env σ Goal State) (goals : List Goal)
    (approach_a approach_b : Nat × PathGeometric State) (a b : Goal)
    (ha : vecAt goals approach_a.1 = .ok a) (hb : vecAt goals approach_b.1 = .ok b) :
    ShellPathPlanner.retreat_move_probe env goals [] approach_a approach_b =
      .ok (approach_a.2.reverse ++ env.path_on_shell a b ++ approach_b.2) ∧
    (∀ last_a, approach_a.2.getLast? = some last_a →
      (approach_a.2.reverse ++ env.path_on_shell a b ++ approach_b.2).head? = some last_a) ∧
    (∀ last_b, approach_b.2.getLast? = some last_b →
      (approach_a.2.reverse ++ env.path_on_shell a b ++ approach_b.2).getLast? =
        some last_b) := by
  refine ⟨by simp [ShellPathPlanner.retreat_move_probe, ha, hb], ?_, ?_⟩
  · intro last_a hlast
    have hrev : approach_a.2.reverse.head? = some last_a := by
      rw [List.head?_reverse]
      exact hlast
    simp [List.head?_append, hrev]
  · intro last_b hlast
    simp [List.getLast?_append, hlast]

/-- The witness of C11: the approaches of goals `0` and `1` on the integer line. -/
theorem ShellPathPlanner.retreat_move_probe_spec_witness :
    ShellPathPlanner.retreat_move_probe (lineEnv true) [0, 1] [] (0, [0, 10]) (1, [0, 20]) =
      .ok [10, 0, 0, 0, 20] ∧
    ([10, 0, 0, 0, 20] : PathGeometric Int).head? = some 10 ∧
    ([10, 0, 0, 0, 20] : PathGeometric Int).getLast? = some 20 :=
  have h := ShellPathPlanner.retreat_move_probe_spec (lineEnv true) [0, 1]
    (0, [0, 10]) (1, [0, 20]) 0 1 rfl rfl
  ⟨h.1, h.2.1 10 rfl, h.2.2 20 rfl⟩

/-- C15: `planFirstApproach` asks `state_to_state` for a path from `start` to the
first state of the approach path.  When that succeeds it returns the connecting
path followed by the whole approach path, which ends at the approach path's last
state and starts at `start` when the connecting path does; when it fails it
returns no path. -/
theorem ShellPathPlanner.planFirstApproach_spec {σ Goal State : Type}
    (env : ShellPathPlanner.Env σ Goal State) (start : State)
    (approach_path : PathGeometric State) (s : σ) (shell_state : State)
    (hfirst : vecAt approach_path 0 = .ok shell_state) :
    (∀ start_to_shell s1, env.state_to_state s start shell_state = (some start_to_shell, s1) →
      ShellPathPlanner.planFirstApproach env start approach_path s =
        .ok (some (start_to_shell ++ approach_path), s1) ∧
      (start_to_shell.head? = some start →
        (start_to_shell ++ approach_path).head? = some start) ∧
      (start_to_shell ++ approach_path).getLast? = approach_path.getLast? ∧
      (start_to_shell ++ approach_path).getLast?.isSome) ∧
    (∀ s1, env.state_to_state s start shell_state = (none, s1) →
      ShellPathPlanner.planFirstApproach env start approach_path s = .ok (none, s1)) := by
  have hne : approach_path ≠ [] := by
    intro h
    subst h
    simp [vecAt] at hfirst
  constructor
  · intro p s1 hp
    refine ⟨by simp [ShellPathPlanner.planFirstApproach, hfirst, hp], ?_, ?_, ?_⟩
    · intro hhead
      simp [List.head?_append, hhead]
    · rw [List.getLast?_append, List.getLast?_eq_getLast _ hne]
      rfl
    · rw [List.getLast?_append, List.getLast?_eq_getLast _ hne]
      rfl
  · intro s1 hp
    simp [ShellPathPlanner.planFirstApproach, hfirst, hp]

/-- The witness of C15: from the start state `-5` to the approach path `[0, 10]`
on the integer line. -/
theorem ShellPathPlanner.planFirstApproach_spec_witness :
    ShellPathPlanner.planFirstApproach (lineEnv true) (-5) [0, 10] () =
      .ok (some [-5, 0, 0, 10], ()) ∧
    ShellPathPlanner.planFirstApproach (lineEnv false) (-5) [0, 10] () = .ok (none, ()) :=
  ⟨((ShellPathPlanner.planFirstApproach_spec (lineEnv true) (-5) [0, 10] () 0 rfl).1
      [-5, 0] () rfl).1,
    (ShellPathPlanner.planFirstApproach_spec (lineEnv false) (-5) [0, 10] () 0 rfl).2 () rfl⟩

/-- An element read from a vector is one of its elements. -/
theorem vecAt_ok_mem {α : Type} {v : List α} {i : Nat} {x : α}
    (h : vecAt v i = .ok x) : x ∈ v := by
  rw [vecAt_ok_iff] at h
  exact List.getElem?_mem h

/-- Appending a path that starts where a chain ends gives a chain that ends where
the path ends. -/
theorem pathsChainTo_append {State : Type} (p : PathGeometric State) (last1 : State) :
    ∀ (paths : List (PathGeometric State)) (start last : State),
      pathsChainTo start paths last → p.head? = some last → p.getLast? = some last1 →
      pathsChainTo start (paths ++ [p]) last1 := by
  intro paths
  induction paths with
  | nil =>
    intro start last h hhead hlast
    simp only [pathsChainTo] at h
    subst h
    exact ⟨hhead, last1, hlast, rfl⟩
  | cons q rest ih =>
    intro start last h hhead hlast
    obtain ⟨hq, st, hst, hrest⟩ := h
    exact ⟨hq, st, hst, ih st last hrest hhead hlast⟩

/-- Paths that chain from `start` satisfy the chaining property position by
position. -/
theorem pathsChainTo_positions {State : Type} :
    ∀ (paths : List (PathGeometric State)) (start last : State),
      pathsChainTo start paths last →
      (∀ p, paths[0]? = some p → p.head? = some start) ∧
      (∀ k p q, paths[k]? = some p → paths[k + 1]? = some q →
        ∃ st, p.getLast? = some st ∧ q.head? = some st) := by
  intro paths
  induction paths with
  | nil =>
    intro start last _
    exact ⟨by simp, by simp⟩
  | cons p0 rest ih =>
    intro start last h
    obtain ⟨hp0, st, hst, hrest⟩ := h
    obtain ⟨ih0, ihk⟩ := ih st last hrest
    constructor
    · intro p hp
      simp only [List.getElem?_cons_zero, Option.some.injEq] at hp
      rw [← hp]
      exact hp0
    · intro k p q hp hq
      cases k with
      | zero =>
        simp only [List.getElem?_cons_zero, Option.some.injEq] at hp
        simp only [Nat.zero_add, List.getElem?_cons_succ] at hq
        rw [← hp]
        exact ⟨st, hst, ih0 q hq⟩
      | succ k =>
        simp only [List.getElem?_cons_succ] at hp hq
        exact ihk k p q hp hq

/-- A plan result whose paths chain from `start` has the chaining property. -/
theorem MultiGoalPlanner.PlanResult.chains_of_pathsChainTo {State : Type} (start last : State)
    (result : PlanResult State)
    (h : pathsChainTo start (result.segments_.map fun seg => seg.path_) last) :
    PlanResult.chains start result := by
  obtain ⟨h0, hk⟩ := pathsChainTo_positions _ start last h
  constructor
  · intro seg hseg
    exact h0 seg.path_ (by simp [hseg])
  · intro k seg next hseg hnext
    exact hk k seg.path_ next.path_ (by simp [hseg]) (by simp [hnext])

/-- The loop of `assembleFullPath` keeps the paths of the result chained: when
they chain up to the last state of the approach visited before position `i + 1`,
they chain after the loop has run over the positions from `i + 1` on. -/
theorem ShellPathPlanner.assembleFullPath_loop_chains {σ Goal State : Type}
    (env : ShellPathPlanner.Env σ Goal State) (goals : List Goal)
    (approaches : List (Nat × PathGeometric State)) (ordering : List Nat) (start : State)
    (hopt : ∀ s p, (env.optimize s p).1.head? = p.head? ∧
      (env.optimize s p).1.getLast? = p.getLast?)
    (happ : ∀ ap ∈ approaches, ap.2 ≠ []) :
    ∀ (m i : Nat) (result result1 : PlanResult State) (s s1 : σ) (o : Nat)
      (ap : Nat × PathGeometric State) (last : State),
      vecAt ordering i = .ok o → vecAt approaches o = .ok ap → ap.2.getLast? = some last →
      pathsChainTo start (result.segments_.map fun seg => seg.path_) last →
      ShellPathPlanner.assembleFullPath_loop env goals approaches ordering
        (List.range' (i + 1) m) result s = .ok (result1, s1) →
      ∃ last1, pathsChainTo start (result1.segments_.map fun seg => seg.path_) last1 := by
  intro m
  induction m with
  | zero =>
    intro i result result1 s s1 o ap last _ _ _ hchain h
    simp only [List.range'_zero, ShellPathPlanner.assembleFullPath_loop, Except.ok.injEq,
      Prod.mk.injEq] at h
    rw [← h.1]
    exact ⟨last, hchain⟩
  | succ m ih =>
    intro i result result1 s s1 o ap last ho hap hlast hchain h
    simp only [List.range'_succ, ShellPathPlanner.assembleFullPath_loop,
      Nat.add_sub_cancel, ho, hap] at h
    split at h
    · cases h
    · rename_i o_i ho_i
      split at h
      · cases h
      · rename_i approach_b hb
        split at h
        · cases h
        · rename_i segment_path hseg
          split at h
          · cases h
          · rename_i o_0 ho_0
            split at h
            · cases h
            · rename_i approach_0 h0
              have hbne : approach_b.2 ≠ [] := happ approach_b (vecAt_ok_mem hb)
              obtain ⟨last_b, hlast_b⟩ : ∃ st, approach_b.2.getLast? = some st :=
                ⟨_, List.getLast?_eq_getLast _ hbne⟩
              unfold ShellPathPlanner.retreat_move_probe at hseg
              split at hseg
              · cases hseg
              · rename_i ga hga
                split at hseg
                · cases hseg
                · rename_i gb hgb
                  simp only [List.nil_append, Except.ok.injEq] at hseg
                  have hhead : segment_path.head? = some last := by
                    rw [← hseg]
                    have hrev : ap.2.reverse.head? = some last := by
                      rw [List.head?_reverse]
                      exact hlast
                    simp [List.head?_append, hrev]
                  have hend : segment_path.getLast? = some last_b := by
                    rw [← hseg]
                    simp [List.getLast?_append, hlast_b]
                  have hopt1 := hopt s segment_path
                  refine ih (i + 1) _ result1 _ s1 o_i approach_b last_b ho_i hb hlast_b ?_ h
                  simp only [List.map_append, List.map_cons, List.map_nil]
                  exact pathsChainTo_append _ last_b _ start last hchain
                    (hopt1.1.trans hhead) (hopt1.2.trans hend)

/-- C12: the segments returned by `ShellPathPlanner::plan` chain, provided that
`state_to_state` returns paths from its first to its second argument, that the
path optimiser keeps the first and the last state of a path, and that every
approach path found by `planApproaches` has at least one state (which
`planApproaches` asserts). -/
theorem ShellPathPlanner.plan_segments_chain {σ Goal State : Type}
    (env : ShellPathPlanner.Env σ Goal State) (start : State) (goals : List Goal) (s s1 : σ)
    (result : PlanResult State)
    (hsts : ∀ s a b p, (env.state_to_state s a b).1 = some p →
      p.head? = some a ∧ p.getLast? = some b)
    (hopt : ∀ s p, (env.optimize s p).1.head? = p.head? ∧
      (env.optimize s p).1.getLast? = p.getLast?)
    (happ : ∀ approaches s0, ShellPathPlanner.planApproaches env goals s = .ok (approaches, s0) →
      ∀ ap ∈ approaches, ap.2 ≠ [])
    (h : ShellPathPlanner.plan env start goals s = .ok (result, s1)) :
    PlanResult.chains start result := by
  unfold ShellPathPlanner.plan at h
  split at h
  · cases h
  · rename_i approaches s0 happroaches
    have hne := happ approaches s0 happroaches
    split at h
    · simp only [Except.ok.injEq, Prod.mk.injEq] at h
      rw [← h.1]
      exact ⟨by simp, by simp⟩
    · split at h
      rename_i ordering s2 hordering
      split at h
      · cases h
      · rename_i o_0 ho_0
        split at h
        · cases h
        · rename_i approach_0 h0
          split at h
          · cases h
          · simp only [Except.ok.injEq, Prod.mk.injEq] at h
            rw [← h.1]
            exact ⟨by simp, by simp⟩
          · rename_i first_approach s3 hfirst
            unfold ShellPathPlanner.planFirstApproach at hfirst
            split at hfirst
            · cases hfirst
            · rename_i shell_state hshell
              split at hfirst
              · rename_i start_to_shell s4 hconnect
                simp only [Except.ok.injEq, Prod.mk.injEq, Option.some.injEq] at hfirst
                have hcontract := hsts s2 start shell_state start_to_shell (by rw [hconnect])
                have h0ne : approach_0.2 ≠ [] := hne approach_0 (vecAt_ok_mem h0)
                obtain ⟨last_0, hlast_0⟩ : ∃ st, approach_0.2.getLast? = some st :=
                  ⟨_, List.getLast?_eq_getLast _ h0ne⟩
                have hhead : first_approach.head? = some start := by
                  rw [← hfirst.1]
                  simp [List.head?_append, hcontract.1]
                have hend : first_approach.getLast? = some last_0 := by
                  rw [← hfirst.1]
                  simp [List.getLast?_append, hlast_0]
                unfold ShellPathPlanner.assembleFullPath at h
                simp only [ho_0, h0, List.nil_append] at h
                have hinit : pathsChainTo start
                    (([{ to_goal_id_ := approach_0.1, path_ := first_approach }] :
                      List (PathSegment State)).map fun seg => seg.path_) last_0 :=
                  ⟨hhead, last_0, hend, rfl⟩
                obtain ⟨last1, hchain⟩ := ShellPathPlanner.assembleFullPath_loop_chains env goals
                  approaches ordering start hopt hne (ordering.length - 1) 0
                  { segments_ := [{ to_goal_id_ := approach_0.1, path_ := first_approach }] }
                  result s3 s1 o_0 approach_0 last_0 ho_0 h0 hlast_0 hinit h
                exact PlanResult.chains_of_pathsChainTo start last1 result hchain
              · cases hfirst

/-- The witness of C12: three goals on the integer line, planned from the start
state `-5`. -/
theorem ShellPathPlanner.plan_segments_chain_witness :
    ShellPathPlanner.plan (lineEnv true) (-5) [0, 1, 2] () =
      .ok ({ segments_ := [{ to_goal_id_ := 0, path_ := [-5, 0, 0, 10] },
                           { to_goal_id_ := 0, path_ := [10, 0, 0, 0, 20] },
                           { to_goal_id_ := 0, path_ := [20, 0, 0, 0, 30] }] }, ()) ∧
    PlanResult.chains (-5)
      ({ segments_ := [{ to_goal_id_ := 0, path_ := [-5, 0, 0, 10] },
                       { to_goal_id_ := 0, path_ := [10, 0, 0, 0, 20] },
                       { to_goal_id_ := 0, path_ := [20, 0, 0, 0, 30] }] } : PlanResult Int) :=
  ⟨rfl, ShellPathPlanner.plan_segments_chain (lineEnv true) (-5) [0, 1, 2] () () _
    (by
      intro s a b p hp
      simp only [lineEnv, if_true, Option.some.injEq] at hp
      rw [← hp]
      exact ⟨rfl, rfl⟩)
    (fun _ _ => ⟨rfl, rfl⟩)
    (by
      intro approaches s0 happ ap hap
      have hval : ShellPathPlanner.planApproaches (lineEnv true) [0, 1, 2] () =
          .ok ([(0, [0, 10]), (1, [0, 20]), (2, [0, 30])], ()) := rfl
      rw [hval] at happ
      simp only [Except.ok.injEq, Prod.mk.injEq] at happ
      rw [← happ.1] at hap
      simp only [List.mem_cons, List.mem_singleton, List.not_mem_nil, or_false] at hap
      rcases hap with rfl | rfl | rfl <;> simp)
    rfl⟩

/-! ## The initial tour -/

/-- A pair is among the successful approaches exactly when its index is at or
after the first goal index and the outcome at that index is its path. -/
theorem ShellPathPlanner.mem_successfulApproaches {State : Type} :
    ∀ (outcomes : List (Option (PathGeometric State))) (goal_i k : Nat)
      (p : PathGeometric State),
      (k, p) ∈ ShellPathPlanner.successfulApproaches goal_i outcomes ↔
        goal_i ≤ k ∧ outcomes[k - goal_i]? = some (some p) := by
  intro outcomes
  induction outcomes with
  | nil => intro goal_i k p; simp [ShellPathPlanner.successfulApproaches]
  | cons o rest ih =>
    intro goal_i k p
    have hstep : goal_i + 1 ≤ k → (o :: rest)[k - goal_i]? = rest[k - (goal_i + 1)]? := by
      intro hk
      have : k - goal_i = (k - (goal_i + 1)) + 1 := by omega
      rw [this, List.getElem?_cons_succ]
    cases o with
    | none =>
      simp only [ShellPathPlanner.successfulApproaches, ih]
      constructor
      · rintro ⟨hk, h⟩
        exact ⟨by omega, by rw [hstep hk]; exact h⟩
      · rintro ⟨hk, h⟩
        by_cases hkg : k = goal_i
        · subst hkg
          simp at h
        · have hk1 : goal_i + 1 ≤ k := by omega
          exact ⟨hk1, by rw [← hstep hk1]; exact h⟩
    | some a =>
      simp only [ShellPathPlanner.successfulApproaches, List.mem_cons, Prod.mk.injEq, ih]
      constructor
      · rintro (⟨rfl, rfl⟩ | ⟨hk, h⟩)
        · simp
        · exact ⟨by omega, by rw [hstep hk]; exact h⟩
      · rintro ⟨hk, h⟩
        by_cases hkg : k = goal_i
        · subst hkg
          simp only [Nat.sub_self, List.getElem?_cons_zero, Option.some.injEq] at h
          exact Or.inl ⟨rfl, h.symm⟩
        · have hk1 : goal_i + 1 ≤ k := by omega
          exact Or.inr ⟨hk1, by rw [← hstep hk1]; exact h⟩

/-- The goal indices of the successful approaches are strictly increasing. -/
theorem ShellPathPlanner.successfulApproaches_pairwise {State : Type} :
    ∀ (outcomes : List (Option (PathGeometric State))) (goal_i : Nat),
      ((ShellPathPlanner.successfulApproaches goal_i outcomes).map Prod.fst).Pairwise
        (· < ·) := by
  intro outcomes
  induction outcomes with
  | nil => intro goal_i; simp [ShellPathPlanner.successfulApproaches]
  | cons o rest ih =>
    intro goal_i
    cases o with
    | none => exact ih (goal_i + 1)
    | some a =>
      simp only [ShellPathPlanner.successfulApproaches, List.map_cons, List.pairwise_cons]
      refine ⟨?_, ih (goal_i + 1)⟩
      intro k hk
      obtain ⟨⟨k1, p⟩, hmem, rfl⟩ := List.mem_map.1 hk
      have := ((ShellPathPlanner.mem_successfulApproaches rest (goal_i + 1) k1 p).1 hmem).1
      simp only
      omega

/-- The loop of `planApproaches` appends to the approaches found so far one pair
for every successful outcome of the goals that remain. -/
theorem ShellPathPlanner.planApproaches_loop_eq {σ Goal State : Type}
    (env : ShellPathPlanner.Env σ Goal State) :
    ∀ (goals : List Goal) (goal_i : Nat) (approaches approaches1 : List (Nat × PathGeometric State))
      (s s1 : σ),
      ShellPathPlanner.planApproaches_loop env goals goal_i approaches s =
        .ok (approaches1, s1) →
      approaches1 = approaches ++
        ShellPathPlanner.successfulApproaches goal_i
          (ShellPathPlanner.approachOutcomes env goals s) := by
  intro goals
  induction goals with
  | nil =>
    intro goal_i approaches approaches1 s s1 h
    simp only [ShellPathPlanner.planApproaches_loop, Except.ok.injEq, Prod.mk.injEq] at h
    simp [ShellPathPlanner.approachOutcomes, ShellPathPlanner.successfulApproaches, h.1]
  | cons goal rest ih =>
    intro goal_i approaches approaches1 s s1 h
    simp only [ShellPathPlanner.planApproaches_loop] at h
    split at h
    · rename_i approach s2 hcall
      split at h
      · cases h
      · have := ih _ _ _ _ _ h
        simp only [ShellPathPlanner.approachOutcomes, hcall,
          ShellPathPlanner.successfulApproaches]
        rw [this]
        simp
    · rename_i s2 hcall
      split at h
      · cases h
      · have := ih _ _ _ _ _ h
        simp only [ShellPathPlanner.approachOutcomes, hcall,
          ShellPathPlanner.successfulApproaches]
        exact this

/-- The loop of `planApproaches` returns when `checkPtc` never raises. -/
theorem ShellPathPlanner.planApproaches_loop_returns {σ Goal State : Type}
    (env : ShellPathPlanner.Env σ Goal State) (hptc : ∀ s, env.checkPtc s = false) :
    ∀ (goals : List Goal) (goal_i : Nat) (approaches : List (Nat × PathGeometric State))
      (s : σ),
      ∃ approaches1 s1,
        ShellPathPlanner.planApproaches_loop env goals goal_i approaches s =
          .ok (approaches1, s1) := by
  intro goals
  induction goals with
  | nil => intro goal_i approaches s; exact ⟨approaches, s, rfl⟩
  | cons goal rest ih =>
    intro goal_i approaches s
    simp only [ShellPathPlanner.planApproaches_loop]
    rcases hcall : ShellPathPlanner.planApproachForGoal env goal s with ⟨r, s2⟩
    cases r with
    | none => simpa [hptc s2] using ih (goal_i + 1) approaches s2
    | some p => simpa [hptc s2] using ih (goal_i + 1) (approaches ++ [(goal_i, p)]) s2

/-- The number of outcomes is the number of goals: every goal is planned for. -/
theorem ShellPathPlanner.approachOutcomes_length {σ Goal State : Type}
    (env : ShellPathPlanner.Env σ Goal State) :
    ∀ (goals : List Goal) (s : σ),
      (ShellPathPlanner.approachOutcomes env goals s).length = goals.length := by
  intro goals
  induction goals with
  | nil => intro s; rfl
  | cons goal rest ih => intro s; simp [ShellPathPlanner.approachOutcomes, ih]

/-- C14: `planApproaches` calls `planApproachForGoal` for every goal in turn,
whatever the earlier calls returned.  In the list it returns, the pair `(k, p)`
occurs exactly when the call for goal `k` returned the path `p`, and the goal
indices are strictly increasing, so there is one pair for each goal whose
approach planning succeeded and none for a goal whose planning failed.  It
returns whenever `checkPtc` does not raise. -/
theorem ShellPathPlanner.planApproaches_spec {σ Goal State : Type}
    (env : ShellPathPlanner.Env σ Goal State) (goals : List Goal) (s : σ) :
    (∀ approaches s1, ShellPathPlanner.planApproaches env goals s = .ok (approaches, s1) →
      (∀ k p, (k, p) ∈ approaches ↔
        (ShellPathPlanner.approachOutcomes env goals s)[k]? = some (some p)) ∧
      (approaches.map Prod.fst).Pairwise (· < ·)) ∧
    (ShellPathPlanner.approachOutcomes env goals s).length = goals.length ∧
    ((∀ s, env.checkPtc s = false) →
      ∃ approaches s1, ShellPathPlanner.planApproaches env goals s = .ok (approaches, s1)) := by
  refine ⟨?_, ShellPathPlanner.approachOutcomes_length env goals s, ?_⟩
  · intro approaches s1 h
    have heq := ShellPathPlanner.planApproaches_loop_eq env goals 0 [] approaches s s1 h
    simp only [List.nil_append] at heq
    subst heq
    refine ⟨?_, ShellPathPlanner.successfulApproaches_pairwise _ 0⟩
    intro k p
    rw [ShellPathPlanner.mem_successfulApproaches]
    simp
  · intro hptc
    exact ShellPathPlanner.planApproaches_loop_returns env hptc goals 0 [] s

/-- The witness of C14: three goals of which the second has no approach. -/
theorem ShellPathPlanner.planApproaches_spec_witness :
    ShellPathPlanner.approachOutcomes gapEnv [0, 1, 2] () =
      [some [0, 10], none, some [0, 30]] ∧
    ShellPathPlanner.planApproaches gapEnv [0, 1, 2] () =
      .ok ([(0, [0, 10]), (2, [0, 30])], ()) ∧
    (([(0, [0, 10]), (2, [0, 30])] : List (Nat × PathGeometric Int)).map Prod.fst).Pairwise
      (· < ·) :=
  ⟨rfl, rfl,
    ((ShellPathPlanner.planApproaches_spec gapEnv [0, 1, 2] ()).1
      [(0, [0, 10]), (2, [0, 30])] () rfl).2⟩

/-! ## The local search without time -/

/-- C16: when the time budget is used up at the first test of the `while` loop,
the local search returns the tour it is given with the planner state it is given,
and `AT2Opt::plan` returns the initial tour of `random_initial_solution`,
converted segment by segment into the result type. -/
theorem AT2Opt.plan_zero_budget {σ C State : Type} [Zero C] [Add C] [LT C]
    [∀ a b : C, Decidable (a < b)]
    (ptp : PointToPointPlanner σ State) (length : PathGeometric State → C)
    (max_time : ℚ) (table : GoalApproachTable State) (order : List Visitation)
    (start_state : State) (s : σ) :
    (∀ solution s1,
      AT2Opt.plan_search ptp length table start_state 0 solution s1 = .ok (solution, s1)) ∧
    (∀ solution s1,
      AT2Opt.random_initial_solution ptp max_time table order start_state s =
        .ok (solution, s1) →
      AT2Opt.plan ptp length max_time table order 0 start_state s =
        .ok (solution.map fun seg => (seg.visitation.target_idx, seg.approach_path), s1)) := by
  refine ⟨fun _ _ => rfl, ?_⟩
  intro solution s1 h
  simp [AT2Opt.plan, h, AT2Opt.plan_search, ATSolution.toMultiGoalResult]

/-- The witness of C16: the initial tour over `farNearTable` for the order goal
`0`, goal `1`. -/
theorem AT2Opt.plan_zero_budget_witness :
    AT2Opt.random_initial_solution threeCallPlanner 5 farNearTable [⟨0, 0⟩, ⟨1, 0⟩] 0 0 =
      .ok (farNearTour, 2) ∧
    AT2Opt.plan threeCallPlanner lineLength 5 farNearTable [⟨0, 0⟩, ⟨1, 0⟩] 0 0 0 =
      .ok ([(0, [0, 20]), (1, [20, 10])], 2) :=
  ⟨rfl, (AT2Opt.plan_zero_budget threeCallPlanner lineLength 5 farNearTable
    [⟨0, 0⟩, ⟨1, 0⟩] 0 0).2 farNearTour 2 rfl⟩

/-! ## Indexing of the tour by a candidate -/

/-- For `i < j < n` building the replacement list indexes the tour out of range
exactly when the pair is not adjacent and `j` is the last position. -/
theorem AT2Opt.plan_replacements_error_iff {State : Type} (solution : ATSolution State)
    (i j : Nat) (hij : i < j) (hj : j < solution.length) :
    AT2Opt.plan_replacements solution i j = .error .outOfRange ↔
      (j ≠ i + 1 ∧ j + 1 = solution.length) := by
  have hi : i < solution.length := by omega
  have hi1 : i + 1 < solution.length := by omega
  unfold AT2Opt.plan_replacements
  by_cases hadj : j = i + 1
  · subst hadj
    simp only [if_true, visitationAt_of_lt hj, visitationAt_of_lt hi, ne_eq, not_true_eq_false,
      false_and, iff_false]
    by_cases h2 : i + 2 < solution.length
    · simp [h2, visitationAt_of_lt h2]
    · simp [h2]
  · have h2 : i + 2 < solution.length := by omega
    simp only [hadj, if_false, visitationAt_of_lt hj, visitationAt_of_lt hi,
      visitationAt_of_lt hi1, h2, if_true, ne_eq, not_false_eq_true, true_and]
    by_cases hj1 : j + 1 < solution.length
    · simp only [visitationAt_of_lt hj1]
      constructor
      · intro h
        cases h
      · intro h
        omega
    · have hnone : visitationAt solution (j + 1) = .error .outOfRange := by
        have : solution[j + 1]? = none := List.getElem?_eq_none (by omega)
        simp [visitationAt, vecAt, this]
      simp only [hnone, true_iff]
      omega

/-- C18: on the tour of four segments and the pair `(1, 3)` the construction of
the replacements reads segment `j + 1 = 4`, one past the last segment, and the
evaluation of the candidate does not get past that read. -/
theorem AT2Opt.plan_candidate_indexes_past_end :
    (2 ≤ (lineTour 4).length ∧ 1 < 3 ∧ 3 < (lineTour 4).length) ∧
    ¬ (3 + 1 < (lineTour 4).length) ∧
    visitationAt (lineTour 4) (3 + 1) = .error .outOfRange ∧
    AT2Opt.plan_replacements (lineTour 4) 1 3 = .error .outOfRange ∧
    AT2Opt.plan_candidate straightPlanner lineLength (List.replicate 5 [0]) 0
      (lineTour 4) 1 3 () = .error .outOfRange := by
  refine ⟨by decide, by decide, rfl, rfl, rfl⟩

/-! ## Passes of the loop on tours of three or more segments -/

/-- The loop over `j` for `i = 0` does not complete when it reaches the last
position of a tour of three or more segments: the candidate `(0, n - 1)` indexes
the tour out of range. -/
theorem AT2Opt.plan_for_j_reaches_last {σ C State : Type} [Zero C] [Add C] [LT C]
    [∀ a b : C, Decidable (a < b)]
    (ptp : PointToPointPlanner σ State) (length : PathGeometric State → C)
    (table : GoalApproachTable State) (start_state : State) (n : Nat) (hn : 3 ≤ n) :
    ∀ (js : List Nat) (solution : ATSolution State) (s : σ),
      solution.length = n → n - 1 ∈ js →
      ∀ r, AT2Opt.plan_for_j ptp length table start_state 0 js solution s ≠ .ok r := by
  intro js
  induction js with
  | nil => intro solution s _ hmem; simp at hmem
  | cons j js ih =>
    intro solution s hlen hmem r h
    simp only [AT2Opt.plan_for_j] at h
    split at h
    · cases h
    · rename_i sol1 s1 hcand
      by_cases hj : j = n - 1
      · have herr : AT2Opt.plan_replacements solution 0 j = .error .outOfRange :=
          (AT2Opt.plan_replacements_error_iff solution 0 j (by omega) (by omega)).2
            ⟨by omega, by omega⟩
        unfold AT2Opt.plan_candidate at hcand
        rw [herr] at hcand
        cases hcand
      · have hlen1 := AT2Opt.plan_candidate_length ptp length table start_state hcand
        have hmem1 : n - 1 ∈ js := by
          rcases List.mem_cons.1 hmem with e | e
          · exact absurd e.symm hj
          · exact e
        exact ih sol1 s1 (by rw [hlen1, hlen]) hmem1 r h

/-- A pass of the `while` loop on a tour of three or more segments does not
complete: for `i = 0` the loop over `j` reaches the candidate `(0, n - 1)`. -/
theorem AT2Opt.plan_search_three_segments {σ C State : Type} [Zero C] [Add C] [LT C]
    [∀ a b : C, Decidable (a < b)]
    (ptp : PointToPointPlanner σ State) (length : PathGeometric State → C)
    (table : GoalApproachTable State) (start_state : State) (rounds : Nat)
    (solution : ATSolution State) (s : σ) (h3 : 3 ≤ solution.length) :
    ∀ r, AT2Opt.plan_search ptp length table start_state (rounds + 1) solution s ≠ .ok r := by
  intro r h
  simp only [AT2Opt.plan_search] at h
  split at h
  · cases h
  · rename_i sol1 s1 hpass
    obtain ⟨m, hm⟩ : ∃ m, solution.length = m + 1 := ⟨solution.length - 1, by omega⟩
    rw [hm, List.range_succ_eq_map] at hpass
    simp only [AT2Opt.plan_for_i] at hpass
    split at hpass
    · cases hpass
    · rename_i sol2 s2 hj
      refine AT2Opt.plan_for_j_reaches_last ptp length table start_state (m + 1) (by omega)
        _ solution s hm ?_ _ hj
      rw [List.mem_range']
      exact ⟨m - 1, by omega, by omega⟩

/-! ## Forward kinematics -/

/-- While a link is expanded, a joint whose `linkB` is that link is skipped: the
test `visited[model.joints[joint].linkB]` finds the link itself, which has just
been marked. -/
theorem RobotModel.forwardKinematics_joints_skips_linkB {T Axis V : Type}
    (ops : RobotModel.Ops T Axis V) (model : RobotModel T Axis) (joint_values : List V)
    (link : Nat) (transform : T) (visited : List Bool) (joint : Nat) (rest : List Nat)
    (stack : List (Nat × T)) (variable_index : Nat) (jt : RobotModel.Joint T Axis)
    (hjt : vecAt model.joints joint = .ok jt) (hB : jt.linkB = link)
    (hvisited : vecAt visited link = .ok true) :
    RobotModel.forwardKinematics_joints ops model joint_values link transform visited
        (joint :: rest) stack variable_index =
      RobotModel.forwardKinematics_joints ops model joint_values link transform visited
        rest stack variable_index := by
  simp only [RobotModel.forwardKinematics_joints, hjt, hB, hvisited]

/-- The loop of `forwardKinematics` never touches the transform of a link that
is marked as visited, and the link stays marked. -/
theorem RobotModel.forwardKinematics_while_keeps_visited {T Axis V : Type}
    (ops : RobotModel.Ops T Axis V) (model : RobotModel T Axis) (joint_values : List V)
    (l : Nat) (x : T) :
    ∀ (fuel : Nat) (st st1 : RobotModel.WalkState T),
      RobotModel.forwardKinematics_while ops model joint_values fuel st = .ok st1 →
      st.visited[l]? = some true → st.link_transforms[l]? = some x →
      st1.visited[l]? = some true ∧ st1.link_transforms[l]? = some x := by
  intro fuel
  induction fuel with
  | zero =>
    intro st st1 h
    simp only [RobotModel.forwardKinematics_while] at h
    cases h
  | succ fuel ih =>
    intro st st1 h hv hx
    simp only [RobotModel.forwardKinematics_while] at h
    split at h
    · simp only [Except.ok.injEq] at h
      rw [← h]
      exact ⟨hv, hx⟩
    · rename_i link transform stack hstack
      split at h
      · cases h
      · exact ih _ _ h hv hx
      · rename_i hlink
        have hne : link ≠ l := by
          intro e
          rw [e, vecAt_ok_iff, hv] at hlink
          cases hlink
        split at h
        · cases h
        · split at h
          · cases h
          · refine ih _ _ h ?_ ?_
            · simp only
              rw [List.getElem?_set_ne hne]
              exact hv
            · simp only
              rw [List.getElem?_set_ne hne]
              exact hx

/-- Whatever `root_link_transform` is given, the transform that
`forwardKinematics` reports for a root link of the model is the identity. -/
theorem RobotModel.forwardKinematics_root {T Axis V : Type}
    (ops : RobotModel.Ops T Axis V) (model : RobotModel T Axis) (joint_values : List V)
    (root_link : Nat) (root_link_transform : T) (link_transforms : List T)
    (hroot : root_link < model.links.length)
    (h : RobotModel.forwardKinematics ops model joint_values root_link root_link_transform =
      .ok link_transforms) :
    link_transforms[root_link]? = some ops.identity := by
  unfold RobotModel.forwardKinematics at h
  split at h
  · cases h
  · rename_i st hst
    simp only [Except.ok.injEq] at h
    rw [← h]
    have hfuel : RobotModel.forwardKinematics_fuel model =
        (1 + (model.links.map fun lk => lk.joints.length).sum) + 1 := by
      unfold RobotModel.forwardKinematics_fuel
      omega
    have hvis : vecAt (List.replicate model.links.length false) root_link = .ok false := by
      rw [vecAt_ok_iff]
      simp [hroot]
    rw [hfuel] at hst
    simp only [RobotModel.forwardKinematics_while, RobotModel.forwardKinematics_init,
      hvis] at hst
    split at hst
    · cases hst
    · split at hst
      · cases hst
      · refine (RobotModel.forwardKinematics_while_keeps_visited ops model joint_values
          root_link ops.identity _ _ st hst ?_ ?_).2
        · simp [hroot]
        · simp [hroot]

/-- C19: in the model of two links whose only joint has `linkA = 1` and
`linkB = 0`, forward kinematics from the root link `0` never reaches link `1`:
the joint is skipped, link `1` stays unvisited and keeps the transform the result
was allocated with, `0`, where following the joint backwards would give
`0 + 2 - 7 - 1 = -6`.  With the joint turned around link `1` is reached. -/
theorem RobotModel.forwardKinematics_skips_backward_joint :
    (backwardJointModel.joints.map fun jt => (jt.linkA, jt.linkB)) = [(1, 0)] ∧
    RobotModel.forwardKinematics_while lineOps backwardJointModel [7]
        (RobotModel.forwardKinematics_fuel backwardJointModel)
        (RobotModel.forwardKinematics_init lineOps backwardJointModel 0 0) =
      .ok { link_transforms := [0, 0], visited := [true, false], stack := [],
            variable_index := 0 } ∧
    RobotModel.forwardKinematics lineOps backwardJointModel [7] 0 0 = .ok [0, 0] ∧
    lineOps.then_ (lineOps.then_ (lineOps.then_ 0 2) (lineOps.inverse 7)) (lineOps.inverse 1) =
      -6 ∧
    RobotModel.forwardKinematics lineOps forwardJointModel [7] 0 0 = .ok [0, 8] := by
  refine ⟨rfl, rfl, rfl, rfl, rfl⟩

/-- C20: for the model with a single link, the root link `0` and the root link
transform `5`, the transform reported for the root link is the identity `0` and
not `5`. -/
theorem RobotModel.forwardKinematics_root_not_given_transform :
    (0 < singleLinkModel.links.length) ∧
    RobotModel.forwardKinematics lineOps singleLinkModel [] 0 5 = .ok [0] ∧
    ([0] : List Int)[0]? ≠ some 5 := by
  refine ⟨by decide, rfl, by decide⟩

/-! ## Indices of a segmented path -/

/-- C22: in a path without empty segment whose sizes fit in a `size_t`, for every
valid index `next_waypoint_index` returns an index from which
`prev_waypoint_index` leads back, and for every valid index other than the first
waypoint `prev_waypoint_index` returns an index from which `next_waypoint_index`
leads back. -/
theorem SegmentedRobotPath.next_prev_inverse {W : Type} (path : SegmentedRobotPath W)
    (hne : path.noEmptySegment) (hfits : path.fits) (idx : SegmentedRobotPath.Index)
    (hvalid : path.validIndex idx) :
    (path.last_waypoint_index ≠ .ok idx →
      ∃ idx1, path.next_waypoint_index idx = .ok idx1 ∧
        path.prev_waypoint_index idx1 = .ok idx) ∧
    (idx ≠ SegmentedRobotPath.first_waypoint_index →
      ∃ idx0, path.prev_waypoint_index idx = .ok idx0 ∧
        path.next_waypoint_index idx0 = .ok idx) := by
  obtain ⟨seg, hseg, hw⟩ := hvalid
  obtain ⟨s, w⟩ := idx
  simp only at hseg hw
  have hs : s < path.segments.length := (List.getElem?_eq_some.1 hseg).1
  have hsfit := hfits.1
  have hnfit := hfits.2 seg (List.getElem?_mem hseg)
  have hvec : vecAt path.segments s = .ok seg := (vecAt_ok_iff _ _ _).2 hseg
  constructor
  · intro _
    unfold SegmentedRobotPath.next_waypoint_index
    simp only [hvec]
    by_cases hlt : w < size_t_dec seg.waypoints.length
    · refine ⟨{ segment_index := s, waypoint_index := size_t_inc w }, by simp [hlt], ?_⟩
      have hinc : size_t_inc w = w + 1 := by
        unfold size_t_inc
        omega
      have hdec : size_t_dec (w + 1) = w := by
        unfold size_t_dec
        omega
      simp [SegmentedRobotPath.prev_waypoint_index, hinc, hdec]
    · refine ⟨{ segment_index := size_t_inc s, waypoint_index := 0 }, by simp [hlt], ?_⟩
      have hinc : size_t_inc s = s + 1 := by
        unfold size_t_inc
        omega
      have hdec : size_t_dec (s + 1) = s := by
        unfold size_t_dec
        omega
      have hw1 : size_t_dec seg.waypoints.length = w := by
        unfold size_t_dec at hlt ⊢
        omega
      simp [SegmentedRobotPath.prev_waypoint_index, hinc, hdec, hvec, hw1]
  · intro hfirst
    unfold SegmentedRobotPath.prev_waypoint_index
    by_cases hpos : w > 0
    · have hdec : size_t_dec w = w - 1 := by
        unfold size_t_dec
        omega
      refine ⟨{ segment_index := s, waypoint_index := w - 1 }, by simp [hpos, hdec], ?_⟩
      have hlt : w - 1 < size_t_dec seg.waypoints.length := by
        unfold size_t_dec
        omega
      have hinc : size_t_inc (w - 1) = w := by
        unfold size_t_inc
        omega
      simp [SegmentedRobotPath.next_waypoint_index, hvec, hlt, hinc]
    · have hw0 : w = 0 := by omega
      subst hw0
      have hs0 : s ≠ 0 := by
        intro h
        subst h
        exact hfirst rfl
      have hdec : size_t_dec s = s - 1 := by
        unfold size_t_dec
        omega
      have hprev : s - 1 < path.segments.length := by omega
      have hvec0 : vecAt path.segments (s - 1) = .ok path.segments[s - 1] := vecAt_of_lt hprev
      have hmem : path.segments[s - 1] ∈ path.segments := List.getElem_mem _
      have hne0 : path.segments[s - 1].waypoints ≠ [] := hne _ hmem
      have hlen0 : 0 < path.segments[s - 1].waypoints.length := List.length_pos.2 hne0
      have hfit0 := hfits.2 _ hmem
      refine ⟨{ segment_index := s - 1
                waypoint_index := size_t_dec path.segments[s - 1].waypoints.length },
        by simp [hdec, hvec0], ?_⟩
      have hinc : size_t_inc (s - 1) = s := by
        unfold size_t_inc
        omega
      simp [SegmentedRobotPath.next_waypoint_index, hvec0, hinc]

/-- The witness of C22: the last index of the first segment and the first index
of the second segment of `samplePath`. -/
theorem SegmentedRobotPath.next_prev_inverse_witness :
    (∃ idx1, samplePath.next_waypoint_index ⟨0, 1⟩ = .ok idx1 ∧
      samplePath.prev_waypoint_index idx1 = .ok ⟨0, 1⟩) ∧
    (∃ idx0, samplePath.prev_waypoint_index ⟨1, 0⟩ = .ok idx0 ∧
      samplePath.next_waypoint_index idx0 = .ok ⟨1, 0⟩) :=
  have hne : samplePath.noEmptySegment := by
    intro seg hseg
    simp only [samplePath, List.mem_cons, List.mem_singleton, List.not_mem_nil, or_false] at hseg
    rcases hseg with rfl | rfl | rfl <;> simp
  have hfits : samplePath.fits := by
    refine ⟨by decide, ?_⟩
    intro seg hseg
    simp only [samplePath, List.mem_cons, List.mem_singleton, List.not_mem_nil, or_false] at hseg
    rcases hseg with rfl | rfl | rfl <;> simp
  ⟨(SegmentedRobotPath.next_prev_inverse samplePath hne hfits ⟨0, 1⟩
      ⟨{ waypoints := [10, 11] }, rfl, by decide⟩).1
      (by
        intro h
        have hlast : samplePath.last_waypoint_index = .ok ⟨2, 2⟩ := rfl
        rw [hlast] at h
        simp at h),
    (SegmentedRobotPath.next_prev_inverse samplePath hne hfits ⟨1, 0⟩
      ⟨{ waypoints := [20] }, rfl, by decide⟩).2 (by decide)⟩

/-! ## Removing the first waypoint -/

/-- C24: on a path with at least one segment and no empty segment, `pop_first`
removes the first waypoint of the first segment and erases that segment when it
has become empty, leaving the other segments as they are: all other waypoints
are kept in order, the resulting path has no empty segment, and it is empty
exactly when the removed waypoint was the only waypoint of the path. -/
theorem SegmentedRobotPath.pop_first_spec {W : Type} (path : SegmentedRobotPath W)
    (hsome : path.segments ≠ []) (hne : path.noEmptySegment) :
    ∃ front rest first waypoints path1,
      path.segments = front :: rest ∧ front.waypoints = first :: waypoints ∧
      path.pop_first = .ok path1 ∧
      path1.segments =
        (if waypoints.isEmpty then rest else { waypoints := waypoints } :: rest) ∧
      path.allWaypoints = first :: path1.allWaypoints ∧
      path1.noEmptySegment ∧
      (path1.empty = true ↔ path.allWaypoints = [first]) := by
  obtain ⟨segments⟩ := path
  cases segments with
  | nil => exact absurd rfl hsome
  | cons front rest =>
    have hfront : front.waypoints ≠ [] := hne front (List.mem_cons_self _ _)
    have hrest : ∀ seg ∈ rest, seg.waypoints ≠ [] :=
      fun seg hseg => hne seg (List.mem_cons_of_mem _ hseg)
    obtain ⟨fw⟩ := front
    cases fw with
    | nil => exact absurd rfl hfront
    | cons first waypoints =>
      have hflat : (rest.map fun seg => seg.waypoints).flatten = [] ↔ rest = [] := by
        constructor
        · intro h
          cases rest with
          | nil => rfl
          | cons r rs =>
            have hr := hrest r (List.mem_cons_self _ _)
            simp only [List.map_cons, List.flatten_cons, List.append_eq_nil] at h
            exact absurd h.1 hr
        · intro h
          subst h
          rfl
      cases waypoints with
      | nil =>
        refine ⟨_, rest, first, [], { segments := rest }, rfl, rfl, rfl, by simp, ?_, ?_, ?_⟩
        · simp [SegmentedRobotPath.allWaypoints]
        · exact hrest
        · simp only [SegmentedRobotPath.empty, SegmentedRobotPath.allWaypoints, List.map_cons,
            List.flatten_cons, List.singleton_append, List.cons.injEq, true_and, hflat,
            List.isEmpty_iff]
      | cons w ws =>
        refine ⟨_, rest, first, w :: ws, { segments := { waypoints := w :: ws } :: rest },
          rfl, rfl, rfl, by simp, ?_, ?_, ?_⟩
        · simp [SegmentedRobotPath.allWaypoints]
        · intro seg hseg
          rcases List.mem_cons.1 hseg with rfl | hmem
          · simp
          · exact hrest seg hmem
        · simp [SegmentedRobotPath.empty, SegmentedRobotPath.allWaypoints]

/-- The witness of C24: removing the first waypoint of `samplePath`. -/
theorem SegmentedRobotPath.pop_first_spec_witness :
    ∃ front rest first waypoints path1,
      samplePath.segments = front :: rest ∧ front.waypoints = first :: waypoints ∧
      samplePath.pop_first = .ok path1 ∧
      path1.segments =
        (if waypoints.isEmpty then rest else { waypoints := waypoints } :: rest) ∧
      samplePath.allWaypoints = first :: path1.allWaypoints ∧
      path1.noEmptySegment ∧
      (path1.empty = true ↔ samplePath.allWaypoints = [first]) :=
  SegmentedRobotPath.pop_first_spec samplePath (by simp [samplePath])
    (by
      intro seg hseg
      simp only [samplePath, List.mem_cons, List.mem_singleton, List.not_mem_nil,
        or_false] at hseg
      rcases hseg with rfl | rfl | rfl <;> simp)

/-! ## The maximum-y cycle -/

/-- C25: for `x_range = 2`, `y_range = 1` and a `can_move` that allows every move,
the path returned by `maximum_y_cycle` steps from `(0, 0)` to `(1, 1)`, two points
that are neither equal nor grid neighbours. -/
theorem maximum_y_cycle_diagonal_step :
    ((1 : Int) ≤ 2 ∧ (0 : Int) ≤ 1) ∧
    maximum_y_cycle 2 1 (fun _ _ => true) =
      .ok [(0, 0), (0, 0), (1, 1), (0, 1), (0, 1), (0, 0)] ∧
    gridStep 2 (0, 0) (1, 1) = false := by
  refine ⟨by decide, rfl, by decide⟩

/-- With `x_range = 2`, `y_range = 3` and every move allowed except those from
column `0` to column `1` above the bottom row, the path returned by
`maximum_y_cycle` ends with a step from `(0, 3)` to `(0, 0)`: the closing descent
starts at `shift_y[0]` and not at the height at which column `0` was re-entered. -/
theorem maximum_y_cycle_closing_jump :
    maximum_y_cycle 2 3 (fun a b => !(a.1 == 0 && b.1 == 1 && decide (a.2 > 0))) =
      .ok [(0, 0), (0, 0), (0, 1), (0, 2), (0, 3), (0, 2), (0, 1), (1, 0), (1, 0), (1, 1),
           (1, 2), (0, 3), (0, 0)] ∧
    gridStep 2 (0, 3) (0, 0) = false := by
  refine ⟨rfl, by decide⟩

/-! ## Walking along a segmented path -/

/-- The number of waypoints of a path is the sum of the sizes of its segments. -/
theorem SegmentedRobotPath.length_allWaypoints {W : Type} (path : SegmentedRobotPath W) :
    path.allWaypoints.length = (path.segments.map fun seg => seg.waypoints.length).sum := by
  simp [SegmentedRobotPath.allWaypoints, List.length_flatten, List.map_map, Function.comp_def]

/-- The sizes of the first `s` segments and of segment `s` add up to the sizes of
the first `s + 1` segments. -/
theorem SegmentedRobotPath.sum_take_succ {W : Type} (segments : List (RobotPath W)) (s : Nat)
    (seg : RobotPath W) (hseg : segments[s]? = some seg) :
    ((segments.take (s + 1)).map fun seg => seg.waypoints.length).sum =
      ((segments.take s).map fun seg => seg.waypoints.length).sum + seg.waypoints.length := by
  rw [List.take_succ, hseg]
  simp

/-- The sizes of the first `s` segments add up to at most the number of
waypoints. -/
theorem SegmentedRobotPath.sum_take_le {W : Type} (segments : List (RobotPath W)) (s : Nat) :
    ((segments.take s).map fun seg => seg.waypoints.length).sum ≤
      (segments.map fun seg => seg.waypoints.length).sum := by
  conv => rhs; rw [← List.take_append_drop s segments]
  rw [List.map_append, List.sum_append]
  exact Nat.le_add_right _ _

/-- From a valid index that is not at the last position, `next_waypoint_index`
returns a valid index one position further, which is greater under
`operator<`. -/
theorem SegmentedRobotPath.next_waypoint_index_position {W : Type}
    (path : SegmentedRobotPath W) (hne : path.noEmptySegment) (hfits : path.fits)
    (idx : SegmentedRobotPath.Index) (hvalid : path.validIndex idx)
    (hpos : path.position idx + 1 < path.allWaypoints.length) :
    ∃ idx1, path.next_waypoint_index idx = .ok idx1 ∧ path.validIndex idx1 ∧
      path.position idx1 = path.position idx + 1 ∧
      SegmentedRobotPath.Index.lt idx idx1 = true := by
  obtain ⟨seg, hseg, hw⟩ := hvalid
  obtain ⟨s, w⟩ := idx
  simp only at hseg hw
  have hs : s < path.segments.length := (List.getElem?_eq_some.1 hseg).1
  have hsfit := hfits.1
  have hnfit := hfits.2 seg (List.getElem?_mem hseg)
  have hvec : vecAt path.segments s = .ok seg := (vecAt_ok_iff _ _ _).2 hseg
  rw [SegmentedRobotPath.length_allWaypoints] at hpos
  simp only [SegmentedRobotPath.position] at hpos ⊢
  unfold SegmentedRobotPath.next_waypoint_index
  simp only [hvec]
  by_cases hlt : w < size_t_dec seg.waypoints.length
  · have hinc : size_t_inc w = w + 1 := by
      unfold size_t_inc
      omega
    have hlt1 : w + 1 < seg.waypoints.length := by
      unfold size_t_dec at hlt
      omega
    refine ⟨{ segment_index := s, waypoint_index := w + 1 }, by simp [hlt, hinc],
      ⟨seg, hseg, hlt1⟩, by simp only; omega, by simp [SegmentedRobotPath.Index.lt]⟩
  · have hinc : size_t_inc s = s + 1 := by
      unfold size_t_inc
      omega
    have hw1 : w + 1 = seg.waypoints.length := by
      unfold size_t_dec at hlt
      omega
    have hsucc := SegmentedRobotPath.sum_take_succ path.segments s seg hseg
    have hs1 : s + 1 < path.segments.length := by
      by_contra hge
      have htake : path.segments.take (s + 1) = path.segments :=
        List.take_of_length_le (by omega)
      rw [htake] at hsucc
      omega
    have hseg1 : path.segments[s + 1]? = some path.segments[s + 1] :=
      List.getElem?_eq_getElem hs1
    have hne1 : path.segments[s + 1].waypoints ≠ [] := hne _ (List.getElem_mem _)
    refine ⟨{ segment_index := s + 1, waypoint_index := 0 }, by simp [hlt, hinc],
      ⟨_, hseg1, List.length_pos.2 hne1⟩, by simp only; omega,
      by simp [SegmentedRobotPath.Index.lt]⟩

/-- A valid index at the last position is the index that `last_waypoint_index`
returns. -/
theorem SegmentedRobotPath.last_waypoint_index_of_position {W : Type}
    (path : SegmentedRobotPath W) (hne : path.noEmptySegment) (hfits : path.fits)
    (idx : SegmentedRobotPath.Index) (hvalid : path.validIndex idx)
    (hpos : path.position idx + 1 = path.allWaypoints.length) :
    path.last_waypoint_index = .ok idx := by
  obtain ⟨seg, hseg, hw⟩ := hvalid
  obtain ⟨s, w⟩ := idx
  simp only at hseg hw
  have hs : s < path.segments.length := (List.getElem?_eq_some.1 hseg).1
  have hsfit := hfits.1
  have hnfit := hfits.2 seg (List.getElem?_mem hseg)
  rw [SegmentedRobotPath.length_allWaypoints] at hpos
  simp only [SegmentedRobotPath.position] at hpos
  have hsucc := SegmentedRobotPath.sum_take_succ path.segments s seg hseg
  have hle1 := SegmentedRobotPath.sum_take_le path.segments (s + 1)
  have hs1 : s + 1 = path.segments.length := by
    by_contra hneq
    have hs2 : s + 1 < path.segments.length := by omega
    have hseg1 : path.segments[s + 1]? = some path.segments[s + 1] :=
      List.getElem?_eq_getElem hs2
    have hne1 : path.segments[s + 1].waypoints ≠ [] := hne _ (List.getElem_mem _)
    have hlen1 := List.length_pos.2 hne1
    have hsucc2 := SegmentedRobotPath.sum_take_succ path.segments (s + 1) _ hseg1
    have hle2 := SegmentedRobotPath.sum_take_le path.segments (s + 1 + 1)
    omega
  have hlast : path.segments.getLast? = some seg := by
    rw [List.getLast?_eq_getElem?, ← hs1]
    simpa using hseg
  unfold SegmentedRobotPath.last_waypoint_index
  simp only [hlast]
  have h1 : size_t_dec path.segments.length = s := by
    unfold size_t_dec
    omega
  have h2 : size_t_dec seg.waypoints.length = w := by
    unfold size_t_dec
    omega
  rw [h1, h2]

/-- Applying `next_waypoint_index` once more after `k` applications. -/
theorem SegmentedRobotPath.next_waypoint_index_iterate_succ {W : Type}
    (path : SegmentedRobotPath W) :
    ∀ (k : Nat) (idx : SegmentedRobotPath.Index),
      path.next_waypoint_index_iterate (k + 1) idx =
        match path.next_waypoint_index_iterate k idx with
        | .error e => .error e
        | .ok idx1 => path.next_waypoint_index idx1 := by
  intro k
  induction k with
  | zero =>
    intro idx
    simp only [SegmentedRobotPath.next_waypoint_index_iterate]
    cases path.next_waypoint_index idx <;> rfl
  | succ k ih =>
    intro idx
    rw [SegmentedRobotPath.next_waypoint_index_iterate]
    cases h : path.next_waypoint_index idx with
    | error e => simp [SegmentedRobotPath.next_waypoint_index_iterate, h]
    | ok idx1 =>
      simp only
      rw [ih idx1]
      simp [SegmentedRobotPath.next_waypoint_index_iterate, h]

/-- After `k` applications of `next_waypoint_index` to the first index, with `k`
below the number of waypoints, the index is valid and at position `k`. -/
theorem SegmentedRobotPath.next_waypoint_index_iterate_position {W : Type}
    (path : SegmentedRobotPath W) (hsome : path.segments ≠ []) (hne : path.noEmptySegment)
    (hfits : path.fits) :
    ∀ k, k < path.allWaypoints.length →
      ∃ idx, path.next_waypoint_index_iterate k SegmentedRobotPath.first_waypoint_index =
          .ok idx ∧
        path.validIndex idx ∧ path.position idx = k := by
  intro k
  induction k with
  | zero =>
    intro _
    refine ⟨SegmentedRobotPath.first_waypoint_index, rfl, ?_, ?_⟩
    · cases hsegs : path.segments with
      | nil => exact absurd hsegs hsome
      | cons front rest =>
        have hfront : front.waypoints ≠ [] := hne front (by rw [hsegs]; exact List.mem_cons_self _ _)
        exact ⟨front, by simp [SegmentedRobotPath.first_waypoint_index, hsegs],
          List.length_pos.2 hfront⟩
    · simp [SegmentedRobotPath.position, SegmentedRobotPath.first_waypoint_index]
  | succ k ih =>
    intro hk
    obtain ⟨idx, hiter, hvalid, hposition⟩ := ih (by omega)
    obtain ⟨idx1, hnext, hvalid1, hposition1, _⟩ :=
      SegmentedRobotPath.next_waypoint_index_position path hne hfits idx hvalid (by omega)
    refine ⟨idx1, ?_, hvalid1, by omega⟩
    rw [SegmentedRobotPath.next_waypoint_index_iterate_succ, hiter]
    exact hnext

/-- C23: in a path with at least one segment, no empty segment and `N` waypoints
(sizes fitting in a `size_t`), `N - 1` applications of `next_waypoint_index` to
`first_waypoint_index()` yield `last_waypoint_index()`; the index reached after
any `k ≤ N - 1` applications is valid, and for `k < N - 1` the next index is
strictly greater under `operator<`. -/
theorem SegmentedRobotPath.next_waypoint_index_walk {W : Type} (path : SegmentedRobotPath W)
    (hsome : path.segments ≠ []) (hne : path.noEmptySegment) (hfits : path.fits) :
    (∃ last, path.last_waypoint_index = .ok last ∧
      path.next_waypoint_index_iterate (path.allWaypoints.length - 1)
        SegmentedRobotPath.first_waypoint_index = .ok last) ∧
    (∀ k, k ≤ path.allWaypoints.length - 1 →
      ∃ idx, path.next_waypoint_index_iterate k SegmentedRobotPath.first_waypoint_index =
          .ok idx ∧
        path.validIndex idx ∧
        (k < path.allWaypoints.length - 1 →
          ∃ idx1, path.next_waypoint_index idx = .ok idx1 ∧
            path.next_waypoint_index_iterate (k + 1)
              SegmentedRobotPath.first_waypoint_index = .ok idx1 ∧
            SegmentedRobotPath.Index.lt idx idx1 = true)) := by
  have hN : 0 < path.allWaypoints.length := by
    cases hsegs : path.segments with
    | nil => exact absurd hsegs hsome
    | cons front rest =>
      have hfront : front.waypoints ≠ [] := hne front (by rw [hsegs]; exact List.mem_cons_self _ _)
      have := List.length_pos.2 hfront
      rw [SegmentedRobotPath.length_allWaypoints, hsegs]
      simp only [List.map_cons, List.sum_cons]
      omega
  constructor
  · obtain ⟨idx, hiter, hvalid, hposition⟩ :=
      SegmentedRobotPath.next_waypoint_index_iterate_position path hsome hne hfits
        (path.allWaypoints.length - 1) (by omega)
    exact ⟨idx, SegmentedRobotPath.last_waypoint_index_of_position path hne hfits idx hvalid
      (by omega), hiter⟩
  · intro k hk
    obtain ⟨idx, hiter, hvalid, hposition⟩ :=
      SegmentedRobotPath.next_waypoint_index_iterate_position path hsome hne hfits k (by omega)
    refine ⟨idx, hiter, hvalid, ?_⟩
    intro hlt
    obtain ⟨idx1, hnext, _, _, hless⟩ :=
      SegmentedRobotPath.next_waypoint_index_position path hne hfits idx hvalid (by omega)
    refine ⟨idx1, hnext, ?_, hless⟩
    rw [SegmentedRobotPath.next_waypoint_index_iterate_succ, hiter]
    exact hnext

/-- The witness of C23: the six waypoints of `samplePath` are walked in five
steps. -/
theorem SegmentedRobotPath.next_waypoint_index_walk_witness :
    ∃ last, samplePath.last_waypoint_index = .ok last ∧
      samplePath.next_waypoint_index_iterate (samplePath.allWaypoints.length - 1)
        SegmentedRobotPath.first_waypoint_index = .ok last :=
  (SegmentedRobotPath.next_waypoint_index_walk samplePath (by simp [samplePath])
    (by
      intro seg hseg
      simp only [samplePath, List.mem_cons, List.mem_singleton, List.not_mem_nil,
        or_false] at hseg
      rcases hseg with rfl | rfl | rfl <;> simp)
    ⟨by decide, by
      intro seg hseg
      simp only [samplePath, List.mem_cons, List.mem_singleton, List.not_mem_nil,
        or_false] at hseg
      rcases hseg with rfl | rfl | rfl <;> simp⟩).1

/-! ## Termination of forward kinematics -/

/-- A failed vector access is an out-of-range access. -/
theorem vecAt_error {α : Type} {v : List α} {i : Nat} {e : Fault}
    (h : vecAt v i = .error e) : e = .outOfRange := by
  unfold vecAt at h
  split at h
  · cases h
  · cases h
    rfl

/-- Marking an unvisited link removes its term from a sum over the unvisited
links. -/
theorem RobotModel.sumUnvisited_set (f : Nat → RobotModel.Link → Nat) :
    ∀ (links : List RobotModel.Link) (visited : List Bool) (k l : Nat) (lk : RobotModel.Link),
      links[l]? = some lk → visited[l]? = some false →
      RobotModel.sumUnvisited f k links (visited.set l true) + f (k + l) lk =
        RobotModel.sumUnvisited f k links visited := by
  intro links
  induction links with
  | nil => intro visited k l lk h; simp at h
  | cons x xs ih =>
    intro visited k l lk hl hv
    cases visited with
    | nil => simp at hv
    | cons v vs =>
      cases l with
      | zero =>
        simp only [List.getElem?_cons_zero, Option.some.injEq] at hl hv
        subst hl
        subst hv
        simp [RobotModel.sumUnvisited]
        omega
      | succ l =>
        simp only [List.getElem?_cons_succ] at hl hv
        have := ih vs (k + 1) l lk hl hv
        simp only [List.set_cons_succ, RobotModel.sumUnvisited]
        have hk : k + 1 + l = k + (l + 1) := by omega
        rw [hk] at this
        omega

/-- Over a model none of whose links is visited, the sum over the unvisited links
is the sum over all links. -/
theorem RobotModel.pendingJoints_replicate {T Axis : Type} (model : RobotModel T Axis) :
    RobotModel.pendingJoints model (List.replicate model.links.length false) =
      (model.links.map fun lk => lk.joints.length).sum := by
  unfold RobotModel.pendingJoints
  generalize model.links = links
  generalize (0 : Nat) = k
  induction links generalizing k with
  | nil => rfl
  | cons x xs ih =>
    simp only [List.length_cons, List.replicate_succ, RobotModel.sumUnvisited, List.map_cons,
      List.sum_cons, ih (k + 1)]
    simp

/-- The loop over the joints of a link pushes at most one entry per joint. -/
theorem RobotModel.forwardKinematics_joints_length {T Axis V : Type}
    (ops : RobotModel.Ops T Axis V) (model : RobotModel T Axis) (joint_values : List V)
    (link : Nat) (transform : T) (visited : List Bool) :
    ∀ (js : List Nat) (stack stack1 : List (Nat × T)) (vi vi1 : Nat),
      RobotModel.forwardKinematics_joints ops model joint_values link transform visited js
        stack vi = .ok (stack1, vi1) →
      stack1.length ≤ stack.length + js.length := by
  intro js
  induction js with
  | nil =>
    intro stack stack1 vi vi1 h
    simp only [RobotModel.forwardKinematics_joints, Except.ok.injEq, Prod.mk.injEq] at h
    rw [← h.1]
    simp
  | cons j rest ih =>
    intro stack stack1 vi vi1 h
    simp only [RobotModel.forwardKinematics_joints] at h
    split at h
    · cases h
    · split at h
      · cases h
      · have := ih _ _ _ _ h
        simp only [List.length_cons]
        omega
      · split at h
        · cases h
        · have := ih _ _ _ _ h
          simp only [List.length_cons] at this ⊢
          omega

/-- The loop over the joints of a link only fails by an out-of-range access. -/
theorem RobotModel.forwardKinematics_joints_error {T Axis V : Type}
    (ops : RobotModel.Ops T Axis V) (model : RobotModel T Axis) (joint_values : List V)
    (link : Nat) (transform : T) (visited : List Bool) :
    ∀ (js : List Nat) (stack : List (Nat × T)) (vi : Nat) (e : Fault),
      RobotModel.forwardKinematics_joints ops model joint_values link transform visited js
        stack vi = .error e →
      e = .outOfRange := by
  intro js
  induction js with
  | nil =>
    intro stack vi e h
    simp only [RobotModel.forwardKinematics_joints] at h
    cases h
  | cons j rest ih =>
    intro stack vi e h
    simp only [RobotModel.forwardKinematics_joints] at h
    split at h
    · rename_i e1 he1
      cases h
      exact vecAt_error he1
    · split at h
      · rename_i e1 he1
        cases h
        exact vecAt_error he1
      · exact ih _ _ _ h
      · split at h
        · rename_i e1 he1
          cases h
          unfold RobotModel.variableTransform at he1
          split at he1
          · split at he1
            · rename_i e2 he2
              cases he1
              exact vecAt_error he2
            · cases he1
          · cases he1
        · exact ih _ _ _ h

/-- The loop of `forwardKinematics` ends within the budget whenever the budget
exceeds the size of the stack plus the number of joints of the unvisited
links. -/
theorem RobotModel.forwardKinematics_while_within_fuel {T Axis V : Type}
    (ops : RobotModel.Ops T Axis V) (model : RobotModel T Axis) (joint_values : List V) :
    ∀ (fuel : Nat) (st : RobotModel.WalkState T),
      st.stack.length + RobotModel.pendingJoints model st.visited < fuel →
      RobotModel.forwardKinematics_while ops model joint_values fuel st ≠ .error .outOfFuel := by
  intro fuel
  induction fuel with
  | zero => intro st h; omega
  | succ fuel ih =>
    intro st hfuel
    simp only [RobotModel.forwardKinematics_while]
    split
    · intro h
      cases h
    · rename_i link transform stack hstack
      rw [hstack] at hfuel
      simp only [List.length_cons] at hfuel
      split
      · rename_i e he
        intro h
        have := vecAt_error he
        rw [this] at h
        cases h
      · exact ih _ (by simp only; omega)
      · rename_i hvis
        split
        · rename_i e he
          intro h
          have := vecAt_error he
          rw [this] at h
          cases h
        · rename_i lk hlk
          split
          · rename_i e he
            intro h
            have := RobotModel.forwardKinematics_joints_error ops model joint_values _ _ _ _ _ _
              _ he
            rw [this] at h
            cases h
          · rename_i stack1 vi1 hjoints
            have hlen := RobotModel.forwardKinematics_joints_length ops model joint_values _ _ _
              _ _ _ _ _ hjoints
            have hset := RobotModel.sumUnvisited_set (fun _ lk => lk.joints.length) model.links
              st.visited 0 link lk ((vecAt_ok_iff _ _ _).1 hlk) ((vecAt_ok_iff _ _ _).1 hvis)
            simp only [Nat.zero_add] at hset
            refine ih _ ?_
            simp only [RobotModel.pendingJoints] at hfuel ⊢
            omega

/-- The loop of `forwardKinematics` keeps the number of transforms. -/
theorem RobotModel.forwardKinematics_while_length {T Axis V : Type}
    (ops : RobotModel.Ops T Axis V) (model : RobotModel T Axis) (joint_values : List V) :
    ∀ (fuel : Nat) (st st1 : RobotModel.WalkState T),
      RobotModel.forwardKinematics_while ops model joint_values fuel st = .ok st1 →
      st1.link_transforms.length = st.link_transforms.length := by
  intro fuel
  induction fuel with
  | zero =>
    intro st st1 h
    simp only [RobotModel.forwardKinematics_while] at h
    cases h
  | succ fuel ih =>
    intro st st1 h
    simp only [RobotModel.forwardKinematics_while] at h
    split at h
    · simp only [Except.ok.injEq] at h
      rw [h]
    · split at h
      · cases h
      · have := ih _ _ h
        simpa using this
      · split at h
        · cases h
        · split at h
          · cases h
          · have := ih _ _ h
            simpa using this

/-- In a well-formed model with enough joint values, the loop over the joints of
a link that is marked as visited returns; the entries it pushes name links of the
model and it reads at most the variables counted by `variablesAt`. -/
theorem RobotModel.forwardKinematics_joints_returns {T Axis V : Type}
    (ops : RobotModel.Ops T Axis V) (model : RobotModel T Axis) (joint_values : List V)
    (link : Nat) (transform : T) (visited : List Bool)
    (hwf : model.wellFormed) (hvlen : visited.length = model.links.length)
    (hlink : visited[link]? = some true)
    (hrev : ∀ axis, 0 < ops.n_variables (.revolute axis)) :
    ∀ (js : List Nat) (stack : List (Nat × T)) (vi : Nat),
      (∀ j ∈ js, j < model.joints.length) →
      (∀ e ∈ stack, e.1 < model.links.length) →
      vi + RobotModel.variablesAt ops model link js ≤ joint_values.length →
      ∃ stack1 vi1,
        RobotModel.forwardKinematics_joints ops model joint_values link transform visited js
          stack vi = .ok (stack1, vi1) ∧
        (∀ e ∈ stack1, e.1 < model.links.length) ∧
        vi1 ≤ vi + RobotModel.variablesAt ops model link js := by
  intro js
  induction js with
  | nil =>
    intro stack vi _ hstack _
    exact ⟨stack, vi, rfl, hstack, by simp [RobotModel.variablesAt]⟩
  | cons j rest ih =>
    intro stack vi hjs hstack hvalues
    have hj : j < model.joints.length := hjs j (List.mem_cons_self _ _)
    have hrest : ∀ k ∈ rest, k < model.joints.length :=
      fun k hk => hjs k (List.mem_cons_of_mem _ hk)
    have hjt : model.joints[j]? = some model.joints[j] := List.getElem?_eq_getElem hj
    have hlinks := hwf.2 model.joints[j] (List.getElem_mem _)
    have hB : model.joints[j].linkB < visited.length := by rw [hvlen]; exact hlinks.2
    simp only [RobotModel.variablesAt, hjt] at hvalues ⊢
    simp only [RobotModel.forwardKinematics_joints, vecAt_of_lt hj, vecAt_of_lt hB]
    cases hb : visited[model.joints[j].linkB] with
    | true =>
      simp only
      obtain ⟨stack1, vi1, h1, h2, h3⟩ := ih stack vi hrest hstack (by omega)
      exact ⟨stack1, vi1, h1, h2, by omega⟩
    | false =>
      simp only
      have hopt : visited[model.joints[j].linkB]? = some false := by
        rw [List.getElem?_eq_getElem hB, hb]
      have hne : model.joints[j].linkB ≠ link := by
        intro e
        rw [e, hlink] at hopt
        cases hopt
      simp only [hne, if_false] at hvalues ⊢
      have hvar : ∃ t, RobotModel.variableTransform ops model.joints[j].type_specific
          joint_values vi = .ok t := by
        cases htype : model.joints[j].type_specific with
        | revolute axis =>
          have hpos := hrev axis
          rw [htype] at hvalues
          have hvi : vi < joint_values.length := by omega
          exact ⟨ops.fromAxisAngle axis joint_values[vi],
            by simp [RobotModel.variableTransform, vecAt_of_lt hvi]⟩
        | fixed => exact ⟨ops.identity, by simp [RobotModel.variableTransform]⟩
      obtain ⟨t, ht⟩ := hvar
      simp only [ht]
      obtain ⟨stack1, vi1, h1, h2, h3⟩ := ih
        ((if model.joints[j].linkA = link then model.joints[j].linkB
            else model.joints[j].linkA,
          ops.then_ (ops.then_ (ops.then_ transform
            (if model.joints[j].linkA = link then model.joints[j].attachmentA
              else model.joints[j].attachmentB))
            t)
            (ops.inverse (if model.joints[j].linkA = link then model.joints[j].attachmentB
              else model.joints[j].attachmentA))) :: stack)
        (vi + ops.n_variables model.joints[j].type_specific) hrest
        (by
          intro e he
          rcases List.mem_cons.1 he with rfl | hmem
          · simp only
            split
            · exact hlinks.2
            · exact hlinks.1
          · exact hstack e hmem)
        (by omega)
      exact ⟨stack1, vi1, h1, h2, by omega⟩

/-- In a well-formed model with enough joint values the loop of
`forwardKinematics` returns when it is given enough budget. -/
theorem RobotModel.forwardKinematics_while_returns {T Axis V : Type}
    (ops : RobotModel.Ops T Axis V) (model : RobotModel T Axis) (joint_values : List V)
    (hwf : model.wellFormed) (hrev : ∀ axis, 0 < ops.n_variables (.revolute axis)) :
    ∀ (fuel : Nat) (st : RobotModel.WalkState T),
      st.visited.length = model.links.length →
      (∀ e ∈ st.stack, e.1 < model.links.length) →
      st.variable_index + RobotModel.pendingVariables ops model st.visited ≤
        joint_values.length →
      st.stack.length + RobotModel.pendingJoints model st.visited < fuel →
      ∃ st1, RobotModel.forwardKinematics_while ops model joint_values fuel st = .ok st1 := by
  intro fuel
  induction fuel with
  | zero => intro st _ _ _ h; omega
  | succ fuel ih =>
    intro st hvlen hstack hvalues hfuel
    simp only [RobotModel.forwardKinematics_while]
    cases hst : st.stack with
    | nil => exact ⟨st, rfl⟩
    | cons top stack =>
      obtain ⟨link, transform⟩ := top
      rw [hst] at hstack hfuel
      simp only [List.length_cons] at hfuel
      have hlink : link < model.links.length := hstack (link, transform) (List.mem_cons_self _ _)
      have hrest : ∀ e ∈ stack, e.1 < model.links.length :=
        fun e he => hstack e (List.mem_cons_of_mem _ he)
      have hlv : link < st.visited.length := by rw [hvlen]; exact hlink
      simp only [vecAt_of_lt hlv, vecAt_of_lt hlink]
      cases hb : st.visited[link] with
      | true =>
        simp only
        exact ih _ hvlen hrest hvalues (by simp only; omega)
      | false =>
        simp only
        have hvis : st.visited[link]? = some false := by
          rw [← hb]
          exact List.getElem?_eq_getElem hlv
        have hlk : model.links[link]? = some model.links[link] :=
          List.getElem?_eq_getElem hlink
        have hsetJ := RobotModel.sumUnvisited_set (fun _ lk => lk.joints.length) model.links
          st.visited 0 link _ hlk hvis
        have hsetV := RobotModel.sumUnvisited_set
          (fun l lk => RobotModel.variablesAt ops model l lk.joints) model.links
          st.visited 0 link _ hlk hvis
        simp only [Nat.zero_add] at hsetJ hsetV
        simp only [RobotModel.pendingJoints, RobotModel.pendingVariables] at hfuel hvalues
        obtain ⟨stack1, vi1, hjoints, hstack1, hvi1⟩ :=
          RobotModel.forwardKinematics_joints_returns ops model joint_values link transform
            (st.visited.set link true) hwf (by simpa using hvlen) (by simp [hlv]) hrev
            model.links[link].joints stack st.variable_index
            (hwf.1 _ (List.getElem_mem _)) hrest (by omega)
        simp only [hjoints]
        have hlen := RobotModel.forwardKinematics_joints_length ops model joint_values _ _ _
          _ _ _ _ _ hjoints
        refine ih _ (by simpa using hvlen) hstack1 ?_ ?_
        · simp only [RobotModel.pendingVariables]
          omega
        · simp only [RobotModel.pendingJoints]
          omega

/-- C21: the loop of `forwardKinematics` ends within the step budget of the model
for every robot model, with or without cycles; a result has exactly one transform
per link; an entry popped for a link that is already visited is skipped, and the
transform of a visited link is never written again.  For a well-formed model, a
root link of the model and enough joint values, `forwardKinematics` returns a
result. -/
theorem RobotModel.forwardKinematics_terminates {T Axis V : Type}
    (ops : RobotModel.Ops T Axis V) (model : RobotModel T Axis) (joint_values : List V)
    (root_link : Nat) (root_link_transform : T) :
    RobotModel.forwardKinematics ops model joint_values root_link root_link_transform ≠
      .error .outOfFuel ∧
    (∀ link_transforms,
      RobotModel.forwardKinematics ops model joint_values root_link root_link_transform =
        .ok link_transforms →
      link_transforms.length = model.links.length) ∧
    (∀ fuel (st : RobotModel.WalkState T) link transform stack,
      st.stack = (link, transform) :: stack → vecAt st.visited link = .ok true →
      RobotModel.forwardKinematics_while ops model joint_values (fuel + 1) st =
        RobotModel.forwardKinematics_while ops model joint_values fuel
          { st with stack := stack }) ∧
    (∀ fuel (st st1 : RobotModel.WalkState T) (l : Nat) (x : T),
      RobotModel.forwardKinematics_while ops model joint_values fuel st = .ok st1 →
      st.visited[l]? = some true → st.link_transforms[l]? = some x →
      st1.link_transforms[l]? = some x) ∧
    (model.wellFormed → root_link < model.links.length →
      (∀ axis, 0 < ops.n_variables (.revolute axis)) →
      RobotModel.variablesNeeded ops model ≤ joint_values.length →
      ∃ link_transforms,
        RobotModel.forwardKinematics ops model joint_values root_link root_link_transform =
          .ok link_transforms) := by
  have hfuel : (RobotModel.forwardKinematics_init ops model root_link
        root_link_transform).stack.length +
      RobotModel.pendingJoints model
        (RobotModel.forwardKinematics_init ops model root_link root_link_transform).visited <
      RobotModel.forwardKinematics_fuel model := by
    simp only [RobotModel.forwardKinematics_init, RobotModel.pendingJoints_replicate,
      RobotModel.forwardKinematics_fuel, List.length_singleton]
    omega
  refine ⟨?_, ?_, ?_, ?_, ?_⟩
  · have h := RobotModel.forwardKinematics_while_within_fuel ops model joint_values _ _ hfuel
    unfold RobotModel.forwardKinematics
    split
    · rename_i e he
      intro h2
      simp only [Except.error.injEq] at h2
      rw [h2] at he
      exact h he
    · intro h2
      cases h2
  · intro link_transforms h
    unfold RobotModel.forwardKinematics at h
    split at h
    · cases h
    · rename_i st hst
      simp only [Except.ok.injEq] at h
      rw [← h, RobotModel.forwardKinematics_while_length ops model joint_values _ _ _ hst]
      simp [RobotModel.forwardKinematics_init]
  · intro fuel st link transform stack hstack hvisited
    simp only [RobotModel.forwardKinematics_while, hstack, hvisited]
  · intro fuel st st1 l x h hv hx
    exact (RobotModel.forwardKinematics_while_keeps_visited ops model joint_values l x fuel st
      st1 h hv hx).2
  · intro hwf hroot hrev hvalues
    obtain ⟨st1, hst1⟩ := RobotModel.forwardKinematics_while_returns ops model joint_values
      hwf hrev (RobotModel.forwardKinematics_fuel model)
      (RobotModel.forwardKinematics_init ops model root_link root_link_transform)
      (by simp [RobotModel.forwardKinematics_init])
      (by
        intro e he
        simp only [RobotModel.forwardKinematics_init, List.mem_singleton] at he
        rw [he]
        exact hroot)
      (by
        simp only [RobotModel.forwardKinematics_init, Nat.zero_add]
        exact hvalues)
      hfuel
    exact ⟨st1.link_transforms, by simp [RobotModel.forwardKinematics, hst1]⟩

/-- The witness of C21: three links joined in a cycle, where link `1` is pushed
twice and skipped the second time it is popped. -/
theorem RobotModel.forwardKinematics_terminates_witness :
    RobotModel.forwardKinematics lineOps cycleModel [1, 20, 300] 0 0 = .ok [0, 320, 20] ∧
    ∃ link_transforms,
      RobotModel.forwardKinematics lineOps cycleModel [1, 20, 300] 0 0 = .ok link_transforms :=
  ⟨rfl, (RobotModel.forwardKinematics_terminates lineOps cycleModel [1, 20, 300] 0 0).2.2.2.2
    (by
      constructor
      · intro lk hlk joint hjoint
        simp only [cycleModel, List.mem_cons, List.mem_singleton, List.not_mem_nil,
          or_false] at hlk
        rcases hlk with rfl | rfl | rfl <;>
          simp only [List.mem_cons, List.mem_singleton, List.not_mem_nil, or_false] at hjoint <;>
          rcases hjoint with rfl | rfl <;> decide
      · intro jt hjt
        simp only [cycleModel, List.mem_cons, List.mem_singleton, List.not_mem_nil,
          or_false] at hjt
        rcases hjt with rfl | rfl | rfl <;> decide)
    (by decide)
    (fun _ => Nat.zero_lt_one)
    (by decide)⟩

/-! ## Splitting a mesh into connected components -/

theorem applyIndexWrites_length (writes : List (Nat × Nat × Nat)) (index_map : List (Nat × Nat)) :
    (applyIndexWrites index_map writes).length = index_map.length := by
  induction writes generalizing index_map with
  | nil => rfl
  | cons w rest ih =>
    show (applyIndexWrites (index_map.set w.1 w.2) rest).length = _
    rw [ih, List.length_set]

theorem applyIndexWrites_append (index_map : List (Nat × Nat))
    (a b : List (Nat × Nat × Nat)) :
    applyIndexWrites index_map (a ++ b) = applyIndexWrites (applyIndexWrites index_map a) b := by
  unfold applyIndexWrites
  rw [List.foldl_append]

theorem applyIndexWrites_untouched (writes : List (Nat × Nat × Nat))
    (index_map : List (Nat × Nat)) (k : Nat) (hk : k ∉ writes.map Prod.fst) :
    (applyIndexWrites index_map writes)[k]? = index_map[k]? := by
  induction writes generalizing index_map with
  | nil => rfl
  | cons w rest ih =>
    show (applyIndexWrites (index_map.set w.1 w.2) rest)[k]? = _
    simp only [List.map_cons, List.mem_cons, not_or] at hk
    rw [ih _ hk.2, List.getElem?_set_ne (Ne.symm hk.1)]

theorem applyIndexWrites_get (writes : List (Nat × Nat × Nat))
    (index_map : List (Nat × Nat)) (k : Nat) (val : Nat × Nat)
    (hnodup : (writes.map Prod.fst).Nodup) (hmem : (k, val) ∈ writes)
    (hk : k < index_map.length) :
    (applyIndexWrites index_map writes)[k]? = some val := by
  induction writes generalizing index_map with
  | nil => cases hmem
  | cons w rest ih =>
    show (applyIndexWrites (index_map.set w.1 w.2) rest)[k]? = _
    simp only [List.map_cons, List.nodup_cons] at hnodup
    rcases List.mem_cons.1 hmem with h | h
    · subst h
      rw [applyIndexWrites_untouched _ _ _ hnodup.1]
      simp [hk]
    · exact ih _ hnodup.2 h (by rw [List.length_set]; exact hk)

theorem indexWrites_keys (i : Nat) (vs : List Nat) (j : Nat) :
    (indexWrites i j vs).map Prod.fst = vs := by
  induction vs generalizing j with
  | nil => rfl
  | cons v rest ih => simp [indexWrites, ih]

theorem allIndexWrites_keys (comps : List (List Nat)) (i : Nat) :
    (allIndexWrites i comps).map Prod.fst = comps.flatten := by
  induction comps generalizing i with
  | nil => rfl
  | cons c rest ih => simp [allIndexWrites, ih, indexWrites_keys]

theorem indexWrites_mem (i : Nat) (vs : List Nat) (j k v : Nat) (h : vs[k]? = some v) :
    (v, (i, j + k)) ∈ indexWrites i j vs := by
  induction vs generalizing j k with
  | nil => simp at h
  | cons v0 rest ih =>
    cases k with
    | zero =>
      simp at h
      subst h
      simp [indexWrites]
    | succ k =>
      simp at h
      have := ih (j + 1) k h
      simp only [indexWrites, List.mem_cons]
      right
      have e : j + (k + 1) = j + 1 + k := by omega
      rw [e]
      exact this

theorem allIndexWrites_mem (comps : List (List Nat)) (i k j v : Nat) (comp : List Nat)
    (hc : comps[k]? = some comp) (hv : comp[j]? = some v) :
    (v, (i + k, j)) ∈ allIndexWrites i comps := by
  induction comps generalizing i k with
  | nil => simp at hc
  | cons c rest ih =>
    cases k with
    | zero =>
      simp at hc
      subst hc
      simp only [allIndexWrites, List.mem_append]
      left
      have := indexWrites_mem i c 0 j v hv
      simpa using this
    | succ k =>
      simp at hc
      have := ih (i + 1) k hc
      simp only [allIndexWrites, List.mem_append]
      right
      have e : i + (k + 1) = i + 1 + k := by omega
      rw [e]
      exact this

theorem break_down_vertices_spec {P : Type} (combined_mesh : Mesh P) (i : Nat)
    (vs : List Nat) (j : Nat) (index_map : List (Nat × Nat)) (mesh_components : List (Mesh P))
    (mesh : Mesh P)
    (hvs : ∀ v ∈ vs, v < combined_mesh.vertices.length)
    (hlen : index_map.length = combined_mesh.vertices.length)
    (hi : mesh_components[i]? = some mesh) :
    ∃ mesh_components1,
      break_down_vertices combined_mesh i vs j index_map mesh_components =
          .ok (applyIndexWrites index_map (indexWrites i j vs), mesh_components1) ∧
        mesh_components1.length = mesh_components.length ∧
        (∀ k, k ≠ i → mesh_components1[k]? = mesh_components[k]?) ∧
        mesh_components1[i]? =
          some { mesh with
                 vertices := mesh.vertices ++
                   vs.filterMap (fun v => combined_mesh.vertices[v]?) } := by
  induction vs generalizing j index_map mesh_components mesh with
  | nil =>
    refine ⟨mesh_components, rfl, rfl, fun _ _ => rfl, ?_⟩
    simpa using hi
  | cons v rest ih =>
    have hv : v < combined_mesh.vertices.length := hvs v (List.mem_cons_self _ _)
    have hv1 : v < index_map.length := by rw [hlen]; exact hv
    have hil : i < mesh_components.length := (List.getElem?_eq_some.1 hi).1
    obtain ⟨ms1, hrun, hl, hother, hself⟩ :=
      ih (j + 1) (index_map.set v (i, j))
        (mesh_components.set i
          { mesh with vertices := mesh.vertices ++ [combined_mesh.vertices[v]] })
        { mesh with vertices := mesh.vertices ++ [combined_mesh.vertices[v]] }
        (fun w hw => hvs w (List.mem_cons_of_mem _ hw))
        (by rw [List.length_set]; exact hlen)
        (by simp [hil])
    refine ⟨ms1, ?_, ?_, ?_, ?_⟩
    · unfold break_down_vertices
      rw [if_pos hv1, (vecAt_ok_iff _ _ _).2 hi, vecAt_of_lt hv]
      exact hrun
    · rw [hl, List.length_set]
    · intro k hk
      rw [hother k hk, List.getElem?_set_ne (Ne.symm hk)]
    · rw [hself]
      simp [List.filterMap_cons, List.getElem?_eq_getElem hv]

theorem break_down_components_spec {P : Type} (combined_mesh : Mesh P)
    (comps : List (List Nat)) (i : Nat) (index_map : List (Nat × Nat))
    (mesh_components : List (Mesh P))
    (hvs : ∀ comp ∈ comps, ∀ v ∈ comp, v < combined_mesh.vertices.length)
    (hlen : index_map.length = combined_mesh.vertices.length)
    (hi : i + comps.length ≤ mesh_components.length) :
    ∃ mesh_components1,
      break_down_components combined_mesh comps i index_map mesh_components =
          .ok (applyIndexWrites index_map (allIndexWrites i comps), mesh_components1) ∧
        mesh_components1.length = mesh_components.length ∧
        (∀ k, k < i → mesh_components1[k]? = mesh_components[k]?) ∧
        (∀ k comp mesh, comps[k]? = some comp → mesh_components[i + k]? = some mesh →
          mesh_components1[i + k]? =
            some { mesh with
                   vertices := mesh.vertices ++
                     comp.filterMap (fun v => combined_mesh.vertices[v]?) }) := by
  induction comps generalizing i index_map mesh_components with
  | nil =>
    refine ⟨mesh_components, rfl, rfl, fun _ _ => rfl, ?_⟩
    intro k comp mesh hk
    simp at hk
  | cons c rest ih =>
    simp only [List.length_cons] at hi
    have hil : i < mesh_components.length := by omega
    obtain ⟨ms1, hrun1, hl1, hother1, hself1⟩ :=
      break_down_vertices_spec combined_mesh i c 0 index_map mesh_components
        mesh_components[i] (hvs c (List.mem_cons_self _ _)) hlen
        (List.getElem?_eq_getElem hil)
    obtain ⟨ms2, hrun2, hl2, hbefore2, hself2⟩ :=
      ih (i + 1) (applyIndexWrites index_map (indexWrites i 0 c)) ms1
        (fun comp hcomp => hvs comp (List.mem_cons_of_mem _ hcomp))
        (by rw [applyIndexWrites_length]; exact hlen)
        (by rw [hl1]; omega)
    refine ⟨ms2, ?_, ?_, ?_, ?_⟩
    · unfold break_down_components
      rw [hrun1]
      simp only []
      rw [hrun2, allIndexWrites, applyIndexWrites_append]
    · rw [hl2, hl1]
    · intro k hk
      rw [hbefore2 k (by omega), hother1 k (by omega)]
    · intro k comp mesh hk hm
      cases k with
      | zero =>
        simp only [List.getElem?_cons_zero, Option.some.injEq] at hk
        subst hk
        simp only [Nat.add_zero] at hm ⊢
        rw [hbefore2 i (by omega), hself1]
        rw [List.getElem?_eq_getElem hil] at hm
        simp only [Option.some.injEq] at hm
        rw [hm]
      | succ k =>
        simp only [List.getElem?_cons_succ] at hk
        have e : i + (k + 1) = i + 1 + k := by omega
        rw [e] at hm ⊢
        apply hself2 k comp mesh hk
        rw [hother1 _ (by omega)]
        exact hm

theorem sum_map_set_succ {α : Type} (f : α → Nat) (l : List α) (i : Nat) (a b : α)
    (h : l[i]? = some a) (hf : f b = f a + 1) :
    ((l.set i b).map f).sum = (l.map f).sum + 1 := by
  induction l generalizing i with
  | nil => simp at h
  | cons x rest ih =>
    cases i with
    | zero =>
      simp only [List.getElem?_cons_zero, Option.some.injEq] at h
      subst h
      simp only [List.set_cons_zero, List.map_cons, List.sum_cons, hf]
      omega
    | succ i =>
      simp only [List.getElem?_cons_succ] at h
      simp only [List.set_cons_succ, List.map_cons, List.sum_cons, ih i h]
      omega

theorem filterMap_getElem?_map_some {P : Type} (vertices : List P) (comp : List Nat)
    (h : ∀ v ∈ comp, v < vertices.length) :
    (comp.filterMap (fun v => vertices[v]?)).map some = comp.map (fun v => vertices[v]?) := by
  induction comp with
  | nil => rfl
  | cons v rest ih =>
    have hv := h v (List.mem_cons_self _ _)
    rw [List.filterMap_cons]
    simp only [List.getElem?_eq_getElem hv, List.map_cons]
    rw [ih (fun w hw => h w (List.mem_cons_of_mem _ hw))]

theorem break_down_triangles_spec {P : Type} (cc : List (List Nat))
    (index_map : List (Nat × Nat))
    (hspec : ∀ (i j : Nat) (comp : List Nat) (v : Nat), cc[i]? = some comp →
      comp[j]? = some v →
      index_map[v]? = some (i, j))
    (hfit : ∀ comp ∈ cc, comp.length ≤ 4294967296)
    (ts : List MeshTriangle) (ms : List (Mesh P)) (hlen : ms.length = cc.length)
    (htri : ∀ t ∈ ts, ∃ comp ∈ cc, t.vertex_indices.1 ∈ comp ∧
      t.vertex_indices.2.1 ∈ comp ∧ t.vertex_indices.2.2 ∈ comp) :
    ∃ ms1, break_down_triangles index_map ts ms = .ok ms1 ∧ ms1.length = ms.length ∧
      (ms1.map (fun m => m.triangles.length)).sum =
        (ms.map (fun m => m.triangles.length)).sum + ts.length ∧
      ∀ (i : Nat) (comp : List Nat) (m : Mesh P), cc[i]? = some comp → ms[i]? = some m →
        ∃ m1 : Mesh P, ms1[i]? = some m1 ∧ m1.vertices = m.vertices ∧
          m1.triangles.map (globalTriangle comp) =
            m.triangles.map (globalTriangle comp) ++
              (ts.filter (fun t => decide (t.vertex_indices.1 ∈ comp))).map
                (fun t => (some t.vertex_indices.1, some t.vertex_indices.2.1,
                  some t.vertex_indices.2.2)) := by
  induction ts generalizing ms with
  | nil =>
    refine ⟨ms, rfl, rfl, by simp, ?_⟩
    intro i comp m _ hm
    exact ⟨m, hm, rfl, by simp⟩
  | cons t rest ih =>
    obtain ⟨comp0, hcomp0, h0, h1, h2⟩ := htri t (List.mem_cons_self _ _)
    obtain ⟨i0, hi0l, hi0⟩ := List.getElem_of_mem hcomp0
    have hcc0 : cc[i0]? = some comp0 := by rw [List.getElem?_eq_getElem hi0l, hi0]
    obtain ⟨j0, hj0l, hj0⟩ := List.getElem_of_mem h0
    obtain ⟨j1, hj1l, hj1⟩ := List.getElem_of_mem h1
    obtain ⟨j2, hj2l, hj2⟩ := List.getElem_of_mem h2
    have hc0 : comp0[j0]? = some t.vertex_indices.1 := by
      rw [List.getElem?_eq_getElem hj0l, hj0]
    have hc1 : comp0[j1]? = some t.vertex_indices.2.1 := by
      rw [List.getElem?_eq_getElem hj1l, hj1]
    have hc2 : comp0[j2]? = some t.vertex_indices.2.2 := by
      rw [List.getElem?_eq_getElem hj2l, hj2]
    have hm0 := hspec i0 j0 comp0 _ hcc0 hc0
    have hm1 := hspec i0 j1 comp0 _ hcc0 hc1
    have hm2 := hspec i0 j2 comp0 _ hcc0 hc2
    have hbound := hfit comp0 hcomp0
    have hi0ms : i0 < ms.length := by rw [hlen]; exact hi0l
    have e0 : j0 % 4294967296 = j0 := Nat.mod_eq_of_lt (by omega)
    have e1 : j1 % 4294967296 = j1 := Nat.mod_eq_of_lt (by omega)
    have e2 : j2 % 4294967296 = j2 := Nat.mod_eq_of_lt (by omega)
    obtain ⟨ms1, hrun, hl, hsum, hper⟩ :=
      ih (ms.set i0 { ms[i0] with
            triangles := ms[i0].triangles ++ [{ vertex_indices := (j0, j1, j2) }] })
        (by rw [List.length_set]; exact hlen)
        (fun t1 ht1 => htri t1 (List.mem_cons_of_mem _ ht1))
    refine ⟨ms1, ?_, ?_, ?_, ?_⟩
    · unfold break_down_triangles
      rw [(vecAt_ok_iff _ _ _).2 hm0, (vecAt_ok_iff _ _ _).2 hm1, (vecAt_ok_iff _ _ _).2 hm2]
      simp only []
      rw [vecAt_of_lt hi0ms, e0, e1, e2]
      exact hrun
    · rw [hl, List.length_set]
    · rw [hsum, sum_map_set_succ (fun m : Mesh P => m.triangles.length) ms i0 ms[i0] _
        (List.getElem?_eq_getElem hi0ms) (by simp)]
      simp only [List.length_cons]
      omega
    · intro i comp m hcc hm
      by_cases hii : i = i0
      · subst hii
        rw [hcc0] at hcc
        simp only [Option.some.injEq] at hcc
        subst hcc
        rw [List.getElem?_eq_getElem hi0ms] at hm
        simp only [Option.some.injEq] at hm
        subst hm
        obtain ⟨m1, hm1s, hv, htr⟩ := hper i comp0
          ⟨ms[i].triangles ++ [{ vertex_indices := (j0, j1, j2) }], ms[i].vertices⟩ hcc0
          (by simp [hi0ms])
        refine ⟨m1, hm1s, ?_, ?_⟩
        · rw [hv]
        · rw [htr]
          simp only [List.map_append, List.map_cons, List.map_nil, globalTriangle, hc0, hc1,
            hc2]
          rw [List.filter_cons_of_pos (by simpa using h0)]
          simp
      · have hnot : t.vertex_indices.1 ∉ comp := by
          intro hin
          obtain ⟨j, hjl, hj⟩ := List.getElem_of_mem hin
          have := hspec i j comp _ hcc (by rw [List.getElem?_eq_getElem hjl, hj])
          rw [hm0] at this
          simp only [Option.some.injEq, Prod.mk.injEq] at this
          exact hii this.1.symm
        obtain ⟨m1, hm1s, hv, htr⟩ := hper i comp m hcc
          (by rw [List.getElem?_set_ne (Ne.symm hii)]; exact hm)
        refine ⟨m1, hm1s, hv, ?_⟩
        rw [htr, List.filter_cons_of_neg (by simpa using hnot)]

/-- The meshes returned for `twoPieceMesh` and its components. -/
theorem break_down_to_connected_components_example :
    break_down_to_connected_components twoPieceMesh twoPieceComponents =
      .ok [{ triangles := [{ vertex_indices := (1, 2, 0) }, { vertex_indices := (0, 2, 1) }],
             vertices := [104, 100, 102] },
           { triangles := [{ vertex_indices := (1, 0, 1) }], vertices := [101, 103] }] := by
  rfl

/-- C26: given connected components `cc` that partition the vertex indices of the
combined mesh (the components put end to end are a rearrangement of
`0, …, vertices.size() - 1`), such that the three vertices of every triangle lie
in one component, and with no more than `2 ^ 32` vertices in a component,
`break_down_to_connected_components` returns one mesh per component.  The mesh
of a component holds the vertex positions of the component in its order; every
vertex index of its triangles is in range for it; and its triangles, read back
through the component as vertex indices of the combined mesh, are exactly the
input triangles on the component, in the order of the input, so that every input
triangle appears once, in the mesh of its component, on the same three vertex
positions.  The total numbers of vertices and of triangles are preserved. -/
theorem break_down_to_connected_components_spec {P : Type} (combined_mesh : Mesh P)
    (cc : List (List Nat))
    (hpartition : cc.flatten.Perm (List.range combined_mesh.vertices.length))
    (htriangles : ∀ t ∈ combined_mesh.triangles, ∃ comp ∈ cc,
      t.vertex_indices.1 ∈ comp ∧ t.vertex_indices.2.1 ∈ comp ∧ t.vertex_indices.2.2 ∈ comp)
    (hfit : ∀ comp ∈ cc, comp.length ≤ 4294967296) :
    ∃ meshes : List (Mesh P),
      break_down_to_connected_components combined_mesh cc = .ok meshes ∧
      meshes.length = cc.length ∧
      (∀ (i : Nat) (comp : List Nat) (mesh : Mesh P),
        cc[i]? = some comp → meshes[i]? = some mesh →
          mesh.vertices.map some = comp.map (fun v => combined_mesh.vertices[v]?) ∧
          (∀ t ∈ mesh.triangles,
            t.vertex_indices.1 < mesh.vertices.length ∧
            t.vertex_indices.2.1 < mesh.vertices.length ∧
            t.vertex_indices.2.2 < mesh.vertices.length) ∧
          mesh.triangles.map (globalTriangle comp) =
            (combined_mesh.triangles.filter
                (fun t => decide (t.vertex_indices.1 ∈ comp))).map
              (fun t => (some t.vertex_indices.1, some t.vertex_indices.2.1,
                some t.vertex_indices.2.2))) ∧
      (meshes.map (fun m => m.vertices.length)).sum = combined_mesh.vertices.length ∧
      (meshes.map (fun m => m.triangles.length)).sum = combined_mesh.triangles.length := by
  have hnodup : cc.flatten.Nodup := (hpartition.nodup_iff).2 (List.nodup_range _)
  have hrange : ∀ comp ∈ cc, ∀ v ∈ comp, v < combined_mesh.vertices.length := by
    intro comp hcomp v hv
    have : v ∈ cc.flatten := List.mem_flatten.2 ⟨comp, hcomp, hv⟩
    exact List.mem_range.1 (hpartition.mem_iff.1 this)
  obtain ⟨ms1, hrun1, hl1, -, hvert⟩ :=
    break_down_components_spec combined_mesh cc 0
      (List.replicate combined_mesh.vertices.length (0, 0))
      (List.replicate cc.length { triangles := [], vertices := [] })
      hrange (by simp) (by simp)
  have hl1c : ms1.length = cc.length := by simpa using hl1
  have hms1 : ∀ (i : Nat) (comp : List Nat), cc[i]? = some comp →
      ms1[i]? = some { triangles := [],
                       vertices := comp.filterMap (fun v => combined_mesh.vertices[v]?) } := by
    intro i comp hcc
    have hil : i < cc.length := (List.getElem?_eq_some.1 hcc).1
    have := hvert i comp { triangles := [], vertices := [] } hcc
      (by simp [hil])
    simpa using this
  have hspec : ∀ (i j : Nat) (comp : List Nat) (v : Nat), cc[i]? = some comp →
      comp[j]? = some v →
      (applyIndexWrites (List.replicate combined_mesh.vertices.length (0, 0))
        (allIndexWrites 0 cc))[v]? = some (i, j) := by
    intro i j comp v hcc hv
    apply applyIndexWrites_get
    · rw [allIndexWrites_keys]
      exact hnodup
    · have := allIndexWrites_mem cc 0 i j v comp hcc hv
      simpa using this
    · rw [List.length_replicate]
      exact hrange comp (List.getElem?_mem hcc) v (List.getElem?_mem hv)
  obtain ⟨ms2, hrun2, hl2, hsum2, hper2⟩ :=
    break_down_triangles_spec cc _ hspec hfit combined_mesh.triangles ms1 hl1c htriangles
  have hper : ∀ (i : Nat) (comp : List Nat) (mesh : Mesh P),
      cc[i]? = some comp → ms2[i]? = some mesh →
        mesh.vertices.map some = comp.map (fun v => combined_mesh.vertices[v]?) ∧
        mesh.triangles.map (globalTriangle comp) =
          (combined_mesh.triangles.filter
              (fun t => decide (t.vertex_indices.1 ∈ comp))).map
            (fun t => (some t.vertex_indices.1, some t.vertex_indices.2.1,
              some t.vertex_indices.2.2)) := by
    intro i comp mesh hcc hmesh
    obtain ⟨m1, hm1, hv, htr⟩ := hper2 i comp _ hcc (hms1 i comp hcc)
    rw [hmesh] at hm1
    simp only [Option.some.injEq] at hm1
    subst hm1
    refine ⟨?_, ?_⟩
    · rw [hv]
      exact filterMap_getElem?_map_some _ _ (hrange comp (List.getElem?_mem hcc))
    · rw [htr]
      simp
  refine ⟨ms2, ?_, ?_, ?_, ?_, ?_⟩
  · unfold break_down_to_connected_components
    rw [hrun1]
    exact hrun2
  · rw [hl2, hl1c]
  · intro i comp mesh hcc hmesh
    obtain ⟨hv, htr⟩ := hper i comp mesh hcc hmesh
    refine ⟨hv, ?_, htr⟩
    have hlen : mesh.vertices.length = comp.length := by
      have := congrArg List.length hv
      simpa using this
    intro t ht
    have hin : globalTriangle comp t ∈ mesh.triangles.map (globalTriangle comp) :=
      List.mem_map_of_mem _ ht
    rw [htr] at hin
    obtain ⟨t0, -, ht0⟩ := List.mem_map.1 hin
    simp only [globalTriangle, Prod.mk.injEq] at ht0
    rw [hlen]
    exact ⟨(List.getElem?_eq_some.1 ht0.1.symm).1, (List.getElem?_eq_some.1 ht0.2.1.symm).1,
      (List.getElem?_eq_some.1 ht0.2.2.symm).1⟩
  · have hmap : ms2.map (fun m => m.vertices.length) = cc.map List.length := by
      apply List.ext_getElem?
      intro i
      rw [List.getElem?_map, List.getElem?_map]
      by_cases hil : i < cc.length
      · have hcc : cc[i]? = some cc[i] := List.getElem?_eq_getElem hil
        have hil2 : i < ms2.length := by rw [hl2, hl1c]; exact hil
        have hm : ms2[i]? = some ms2[i] := List.getElem?_eq_getElem hil2
        obtain ⟨hv, -⟩ := hper i _ _ hcc hm
        have := congrArg List.length hv
        rw [hcc, hm]
        simpa using this
      · have h1 : cc[i]? = none := List.getElem?_eq_none (by omega)
        have h2 : ms2[i]? = none := List.getElem?_eq_none (by rw [hl2, hl1c]; omega)
        rw [h1, h2]
        rfl
    rw [hmap, ← List.length_flatten, hpartition.length_eq, List.length_range]
  · rw [hsum2]
    have hzero : (ms1.map (fun m => m.triangles.length)).sum = 0 := by
      apply List.sum_eq_zero
      intro x hx
      obtain ⟨m, hm, rfl⟩ := List.mem_map.1 hx
      obtain ⟨i, hil, hi⟩ := List.getElem_of_mem hm
      have hcc : cc[i]? = some cc[i] := List.getElem?_eq_getElem (by rw [← hl1c]; exact hil)
      have := hms1 i _ hcc
      rw [List.getElem?_eq_getElem hil, hi] at this
      simp only [Option.some.injEq] at this
      rw [this]
      rfl
    rw [hzero, Nat.zero_add]

/-- The witness of C26: the mesh `twoPieceMesh` split along the components
`[4, 0, 2]` and `[1, 3]`. -/
theorem break_down_to_connected_components_spec_witness :
    ∃ meshes : List (Mesh Nat),
      break_down_to_connected_components twoPieceMesh twoPieceComponents = .ok meshes ∧
      meshes.length = twoPieceComponents.length ∧
      (∀ (i : Nat) (comp : List Nat) (mesh : Mesh Nat),
        twoPieceComponents[i]? = some comp → meshes[i]? = some mesh →
          mesh.vertices.map some = comp.map (fun v => twoPieceMesh.vertices[v]?) ∧
          (∀ t ∈ mesh.triangles,
            t.vertex_indices.1 < mesh.vertices.length ∧
            t.vertex_indices.2.1 < mesh.vertices.length ∧
            t.vertex_indices.2.2 < mesh.vertices.length) ∧
          mesh.triangles.map (globalTriangle comp) =
            (twoPieceMesh.triangles.filter
                (fun t => decide (t.vertex_indices.1 ∈ comp))).map
              (fun t => (some t.vertex_indices.1, some t.vertex_indices.2.1,
                some t.vertex_indices.2.2))) ∧
      (meshes.map (fun m => m.vertices.length)).sum = twoPieceMesh.vertices.length ∧
      (meshes.map (fun m => m.triangles.length)).sum = twoPieceMesh.triangles.length :=
  break_down_to_connected_components_spec twoPieceMesh twoPieceComponents
    (by decide) (by decide) (by decide)
